import Mathlib

/-!
# Shallow embedding of the sequence-batch scheduler

This file models `src/sequence_batch_scheduler.cc` (namespace
`nvidia::inferenceserver`): the `SequenceBatchScheduler` facade
(`Enqueue`, `ReleaseBatchSlot`), the per-batcher `SequenceBatch` state and
its scheduler-thread batch-assembly sweep, and the batch completion
callback `OnCompleteQueuedPayloads`.

Machine integers of the source (`CorrelationID`, slot indices) are modelled
as `Nat`; the `flags()` bitfield is modelled as the two Booleans that the
scheduler reads (`FLAG_SEQUENCE_START`, `FLAG_SEQUENCE_END`); the
`int32_t max_active_slot_` is an `Int` (value `-1` means no active slot).
The C++ `std::map` members are modelled as association lists with
erase-before-insert update, and `ready_batch_slots_` (a stack: `push`,
`top`, `pop`) as a list with its head as the top of the stack.  Backlog
queues are `std::shared_ptr<std::deque<Payload>>` values aliased between
`backlog_queues_` and `sequence_to_backlog_map_`; the sharing is modelled
by giving every created queue a unique tag (`nextTag` counter) and letting
the map store tags.
-/

namespace SeqBatch

/-- A `(batcher index, slot index)` pair, `SequenceBatchScheduler::BatchSlot`. -/
structure BatchSlot where
  batcher : Nat
  slot : Nat
deriving DecidableEq, Repr

/-- The fields of `InferRequestHeader` that the scheduler reads:
`batch_size()`, `correlation_id()`, and the two flag bits
`FLAG_SEQUENCE_START` and `FLAG_SEQUENCE_END` of `flags()`. -/
structure ReqHeader where
  batchSize : Nat
  correlationId : Nat
  seqStart : Bool
  seqEnd : Bool
deriving DecidableEq, Repr

/-- A queued request (`Scheduler::Payload` as far as routing is concerned):
its request header and a unique identity `uid` standing for the distinct
request/response providers, stats and completion callback captured by the
payload. -/
structure Payload where
  header : ReqHeader
  uid : Nat
deriving DecidableEq, Repr

/-- One of the three pre-built input-override sets
(`start_input_overrides_`, `continue_input_overrides_`,
`notready_input_overrides_`). -/
inductive Override where
  | start
  | cont
  | notReady
deriving DecidableEq, Repr

abbrev Queue := List Payload

/-- One backlog queue: a uniquely tagged `std::deque<Scheduler::Payload>`
(the tag models the `shared_ptr` identity that
`sequence_to_backlog_map_` aliases). -/
structure BacklogQueue where
  tag : Nat
  q : Queue
deriving DecidableEq, Repr

/-! ## Association-list maps (the two `std::map` members) -/

/-- `std::map::find` -/
def mlookup (m : List (Nat × α)) (k : Nat) : Option α :=
  match m with
  | [] => none
  | (k', v) :: rest => if k' = k then some v else mlookup rest k

/-- `std::map::erase` -/
def merase (m : List (Nat × α)) (k : Nat) : List (Nat × α) :=
  match m with
  | [] => []
  | (k', v) :: rest => if k' = k then merase rest k else (k', v) :: merase rest k

/-- `std::map::operator[]` followed by assignment (insert-or-overwrite). -/
def minsert (m : List (Nat × α)) (k : Nat) (v : α) : List (Nat × α) :=
  (k, v) :: merase m k

@[simp] theorem mlookup_nil (k : Nat) : mlookup ([] : List (Nat × α)) k = none := rfl

theorem mlookup_merase (m : List (Nat × α)) (k k' : Nat) :
    mlookup (merase m k) k' = if k = k' then none else mlookup m k' := by
  induction m with
  | nil => simp [merase]
  | cons hd tl ih =>
    obtain ⟨a, v⟩ := hd
    by_cases hak : a = k
    · subst hak
      by_cases hkk' : a = k'
      · subst hkk'; simp [merase, ih]
      · simp [merase, mlookup, hkk', ih]
    · by_cases hak' : a = k'
      · subst hak'
        have hk : ¬k = a := fun h => hak h.symm
        simp [merase, mlookup, hak, hk]
      · simp [merase, mlookup, hak, hak', ih]

@[simp] theorem mlookup_merase_self (m : List (Nat × α)) (k : Nat) :
    mlookup (merase m k) k = none := by
  simp [mlookup_merase]

theorem mlookup_merase_ne (m : List (Nat × α)) {k k' : Nat} (h : k ≠ k') :
    mlookup (merase m k) k' = mlookup m k' := by
  simp [mlookup_merase, h]

@[simp] theorem mlookup_minsert_self (m : List (Nat × α)) (k : Nat) (v : α) :
    mlookup (minsert m k v) k = some v := by
  simp [minsert, mlookup]

theorem mlookup_minsert_ne (m : List (Nat × α)) {k k' : Nat} (v : α) (h : k ≠ k') :
    mlookup (minsert m k v) k' = mlookup m k' := by
  simp [minsert, mlookup, h, mlookup_merase_ne m h]

/-! ## Scheduler-facade state -/

/-- The state owned by `SequenceBatchScheduler` and protected by its mutex:
`sequence_to_batchslot_map_`, `sequence_to_backlog_map_` (storing queue
tags), `backlog_queues_` (head = front), and `ready_batch_slots_`
(head = top of the stack).  `nextTag` is the model's supply of fresh
backlog-queue identities. -/
structure SchedState where
  slotBySeq : List (Nat × BatchSlot)
  backlogBySeq : List (Nat × Nat)
  backlogQueues : List BacklogQueue
  readySlots : List BatchSlot
  nextTag : Nat
deriving DecidableEq, Repr

/-- The per-batcher state owned by `SequenceBatch` and protected by its
mutex: `queues_`, `active_slots_`, `max_active_slot_`,
`null_request_header_` (unset until the first request arrives). -/
structure BatchState where
  queues : List Queue
  activeSlots : List Bool
  maxActiveSlot : Int
  nullHeader : Option ReqHeader
deriving DecidableEq, Repr

instance : Inhabited BatchState :=
  ⟨{ queues := [], activeSlots := [], maxActiveSlot := -1, nullHeader := none }⟩

/-- The whole system: the facade state plus one `SequenceBatch` per runner. -/
structure SysState where
  sched : SchedState
  batchers : List BatchState
deriving DecidableEq, Repr

/-- `SequenceBatch::Enqueue(slot, ...)`: capture the null request header on
the first-ever request, append the payload to `queues_[slot]`, mark the
slot active and raise `max_active_slot_`. -/
def sbEnqueue (b : BatchState) (slot : Nat) (p : Payload) : BatchState :=
  let b := if b.maxActiveSlot = -1 then { b with nullHeader := some p.header } else b
  { b with
    queues := b.queues.set slot (b.queues.getD slot [] ++ [p])
    activeSlots := b.activeSlots.set slot true
    maxActiveSlot := max b.maxActiveSlot (Int.ofNat slot) }

/-- Route a payload into batcher `bs.batcher`, slot `bs.slot`
(`batchers_[batcher_idx]->Enqueue(slot, ...)`). -/
def deliver (batchers : List BatchState) (bs : BatchSlot) (p : Payload) : List BatchState :=
  batchers.set bs.batcher (sbEnqueue (batchers.getD bs.batcher default) bs.slot p)

/-- Outcome of `SequenceBatchScheduler::Enqueue` as observed by the caller:
`err` means the completion callback was invoked immediately with an
invalid-argument error, `toSlot bs` means the payload was handed to
batcher `bs.batcher` slot `bs.slot`, `backlogged` means the function
returned after queueing the payload in the backlog. -/
inductive EnqueueResult where
  | err
  | toSlot (bs : BatchSlot)
  | backlogged
deriving DecidableEq, Repr

/-- Append a payload to the backlog queue carrying `tag`
(`bl_itr->second->emplace_back(...)` through the shared pointer). -/
def appendToTag (qs : List BacklogQueue) (tag : Nat) (p : Payload) : List BacklogQueue :=
  qs.map fun bq => if bq.tag = tag then { bq with q := bq.q ++ [p] } else bq

/-- `SequenceBatchScheduler::Enqueue`.  Returns what the caller observes
together with the successor state.  The three precondition failures
(batch size ≠ 1, zero correlation ID, missing START on a correlation ID
unknown to both maps) invoke `OnComplete` with an invalid-argument error
and leave all state untouched. -/
def schedulerEnqueue (st : SysState) (r : Payload) : EnqueueResult × SysState :=
  if r.header.batchSize ≠ 1 then (.err, st)
  else if r.header.correlationId = 0 then (.err, st)
  else
    let cid := r.header.correlationId
    let seqEnd := r.header.seqEnd
    let sbItr := mlookup st.sched.slotBySeq cid
    let blItr := mlookup st.sched.backlogBySeq cid
    if ¬r.header.seqStart ∧ sbItr = none ∧ blItr = none then (.err, st)
    else
      match sbItr with
      | some bs =>
        -- the request already has an assigned slot
        let m := if seqEnd then merase st.sched.slotBySeq cid else st.sched.slotBySeq
        (.toSlot bs,
          { sched := { st.sched with slotBySeq := m }
            batchers := deliver st.batchers bs r })
      | none =>
        match blItr with
        | some tag =>
          -- the request already has a queue in the backlog
          let m := if seqEnd then merase st.sched.backlogBySeq cid else st.sched.backlogBySeq
          (.backlogged,
            { st with sched := { st.sched with
                backlogQueues := appendToTag st.sched.backlogQueues tag r
                backlogBySeq := m } })
        | none =>
          match st.sched.readySlots with
          | bs :: rest =>
            -- a free slot is available: bind it
            let m1 := minsert st.sched.slotBySeq cid bs
            let m2 := if seqEnd then merase m1 cid else m1
            (.toSlot bs,
              { sched := { st.sched with slotBySeq := m2, readySlots := rest }
                batchers := deliver st.batchers bs r })
          | [] =>
            -- last option: a fresh backlog queue
            let tag := st.sched.nextTag
            let bq : BacklogQueue := { tag := tag, q := [r] }
            let m := if seqEnd then st.sched.backlogBySeq
                     else minsert st.sched.backlogBySeq cid tag
            (.backlogged,
              { st with sched := { st.sched with
                  backlogQueues := st.sched.backlogQueues ++ [bq]
                  backlogBySeq := m
                  nextTag := tag + 1 } })

/-- Result of `SequenceBatchScheduler::ReleaseBatchSlot`: the boolean
return value (slot pushed back into the ready pool), the successor facade
state, the final contents of the caller's `*payloads` deque, and whether
the internal-error branch (`backlog sequence ... conflicts with in-flight
sequence`) was logged. -/
structure ReleaseResult where
  returnedToPool : Bool
  sched : SchedState
  payloads : Queue
  loggedConflict : Bool
deriving DecidableEq, Repr

/-- `SequenceBatchScheduler::ReleaseBatchSlot(batch_slot, payloads)`.
If the backlog is non-empty its head queue is moved into `*payloads`
(overwriting them) and popped; if that queue is non-empty the function
returns `false`, after re-binding the correlation ID of its last payload
to `batch_slot` when that payload does not carry `SEQUENCE_END`.
Otherwise the slot is pushed onto the ready stack and `true` is
returned. -/
def releaseBatchSlot (sched : SchedState) (bs : BatchSlot) (payloads : Queue) :
    ReleaseResult :=
  match sched.backlogQueues with
  | [] =>
    { returnedToPool := true
      sched := { sched with readySlots := bs :: sched.readySlots }
      payloads := payloads
      loggedConflict := false }
  | head :: rest =>
    let payloads := head.q
    let sched := { sched with backlogQueues := rest }
    match payloads.getLast? with
    | none =>
      -- "should never be empty..."
      { returnedToPool := true
        sched := { sched with readySlots := bs :: sched.readySlots }
        payloads := payloads
        loggedConflict := false }
    | some lastP =>
      if lastP.header.seqEnd then
        { returnedToPool := false, sched := sched, payloads := payloads
          loggedConflict := false }
      else
        let cid := lastP.header.correlationId
        { returnedToPool := false
          sched := { sched with
            backlogBySeq := merase sched.backlogBySeq cid
            slotBySeq := minsert sched.slotBySeq cid bs }
          payloads := payloads
          loggedConflict := (mlookup sched.slotBySeq cid).isSome }

/-! ## Worker thread: batch assembly (`SequenceBatch::SchedulerThread`) -/

/-- One element of an assembled batch handed to `OnSchedule_`: either a
real payload (with the input-override set attached to its request
provider) or a `NULLInferRequestProvider` placeholder built from the
cached null request header, with no stats and no completion callback. -/
inductive BatchEntry where
  | real (p : Payload) (ov : Override)
  | null (h : Option ReqHeader) (ov : Override)
deriving DecidableEq, Repr

/-- The loop `while ((max_slot >= 0) && queues_[max_slot].empty()) max_slot--`
started at `max_active_slot_`.  `fuel = n` corresponds to
`max_slot = n - 1`; the result is the largest slot index `< fuel` whose
queue is non-empty, or `-1`. -/
def findMaxSlot (queues : List Queue) : Nat → Int
  | 0 => -1
  | n + 1 => if (queues.getD n []).isEmpty then findMaxSlot queues n else Int.ofNat n

/-- The loop
`while ((max_active_slot_ >= 0) && !active_slots_[max_active_slot_]) max_active_slot_--`:
largest active slot index `< fuel`, or `-1`. -/
def adjustMax (active : List Bool) : Nat → Int
  | 0 => -1
  | n + 1 => if active.getD n false then Int.ofNat n else adjustMax active n

/-- The state threaded through the per-slot assembly loop: the facade
state (mutated by `ReleaseBatchSlot`), the batcher's slot queues and
activity bitmap, and the deferred `max_active_slot_` adjustment flag. -/
structure SweepAcc where
  sched : SchedState
  queues : List Queue
  active : List Bool
  adjust : Bool
deriving DecidableEq, Repr

/-- The body of the slot loop for slot `s` of batcher `bIdx`
(`max_active_slot_` is read but not written during the sweep, hence the
`maxAct` parameter).  An empty queue contributes a NOT-READY placeholder;
otherwise the head payload is popped, given the START or CONTINUE
override, and — if it carries `SEQUENCE_END` — the slot is released,
possibly transplanting a backlog queue in place of the emptied one. -/
def processSlot (bIdx : Nat) (nullh : Option ReqHeader) (maxAct : Int)
    (acc : SweepAcc) (s : Nat) : SweepAcc × BatchEntry :=
  match acc.queues.getD s [] with
  | [] => (acc, .null nullh .notReady)
  | p :: restq =>
    let ov := if p.header.seqStart then Override.start else Override.cont
    if p.header.seqEnd then
      let r := releaseBatchSlot acc.sched ⟨bIdx, s⟩ restq
      ({ sched := r.sched
         queues := acc.queues.set s r.payloads
         active := if r.returnedToPool then acc.active.set s false else acc.active
         adjust := acc.adjust ∨ (r.returnedToPool ∧ Int.ofNat s = maxAct) },
       .real p ov)
    else
      ({ acc with queues := acc.queues.set s restq }, .real p ov)

/-- `for (int32_t slot = 0; slot <= max_slot; ++slot)`: process `fuel`
slots starting at `s`, collecting the assembled batch in order. -/
def sweepFrom (bIdx : Nat) (nullh : Option ReqHeader) (maxAct : Int)
    (s : Nat) (fuel : Nat) (acc : SweepAcc) : SweepAcc × List BatchEntry :=
  match fuel with
  | 0 => (acc, [])
  | f + 1 =>
    let (acc', e) := processSlot bIdx nullh maxAct acc s
    let (accF, es) := sweepFrom bIdx nullh maxAct (s + 1) f acc'
    (accF, e :: es)

/-- One non-delayed iteration of `SequenceBatch::SchedulerThread` for
batcher `bIdx`: find the largest slot `≤ max_active_slot_` with a pending
payload; if none, wait (`none`, state unchanged); otherwise assemble the
batch over slots `[0, max_slot]`, release ended slots, re-adjust
`max_active_slot_` if flagged, and hand the batch to `OnSchedule_`. -/
def sweep (st : SysState) (bIdx : Nat) : SysState × Option (List BatchEntry) :=
  let b := st.batchers.getD bIdx default
  let maxSlot := findMaxSlot b.queues (b.maxActiveSlot + 1).toNat
  if maxSlot < 0 then (st, none)
  else
    let acc0 : SweepAcc :=
      { sched := st.sched, queues := b.queues, active := b.activeSlots, adjust := false }
    let (acc, batch) := sweepFrom bIdx b.nullHeader b.maxActiveSlot 0 (maxSlot.toNat + 1) acc0
    let newMax := if acc.adjust then adjustMax acc.active (b.maxActiveSlot + 1).toNat
                  else b.maxActiveSlot
    ({ sched := acc.sched
       batchers := st.batchers.set bIdx
         { queues := acc.queues, activeSlots := acc.active
           maxActiveSlot := newMax, nullHeader := b.nullHeader } },
     some batch)

/-! ## Initial state (`SequenceBatchScheduler::Create`) -/

/-- The ready-slot stack seeded by `Create`: slots are pushed batcher by
batcher, slot index ascending, so the stack read top-first is the reverse
of that push order. -/
def seedPool (runnerCnt batchSize : Nat) : List BatchSlot :=
  ((List.range runnerCnt).flatMap fun c =>
    (List.range batchSize).map fun s => BatchSlot.mk c s).reverse

/-- A freshly created scheduler: empty maps and backlog, a fully seeded
ready pool, and one idle `SequenceBatch` per runner with `batch_size`
empty queues and `max_active_slot_ = -1`. -/
def initState (runnerCnt batchSize : Nat) : SysState :=
  { sched :=
      { slotBySeq := [], backlogBySeq := [], backlogQueues := []
        readySlots := seedPool runnerCnt batchSize, nextTag := 0 }
    batchers := List.replicate runnerCnt
      { queues := List.replicate batchSize [], activeSlots := List.replicate batchSize false
        maxActiveSlot := -1, nullHeader := none } }

/-- States reachable from a freshly created scheduler by any interleaving
of facade `Enqueue` calls and worker-thread assembly iterations — the
externally observable points. -/
inductive Reachable (runnerCnt batchSize : Nat) : SysState → Prop where
  | init : Reachable runnerCnt batchSize (initState runnerCnt batchSize)
  | enq {st} (r : Payload) :
      Reachable runnerCnt batchSize st →
      Reachable runnerCnt batchSize (schedulerEnqueue st r).2
  | work {st} (bIdx : Nat) :
      Reachable runnerCnt batchSize st →
      Reachable runnerCnt batchSize (sweep st bIdx).1

/-! ## Batch completion (`OnCompleteQueuedPayloads`) -/

/-- A status (`tensorflow::Status`): OK or an error code. -/
inductive Status where
  | ok
  | error (code : Nat)
deriving DecidableEq, Repr

/-- A payload as seen by the completion callback: whether it carries a
completion function and a stats handle, and its `status_` /
`compute_status_` fields as filled in by the backend run. -/
structure CPayload where
  hasComplete : Bool
  hasStats : Bool
  status : Status
  computeStatus : Status
deriving DecidableEq, Repr

/-- `payload.status_.ok() ? payload.compute_status_ : payload.status_`. -/
def noCompleteStatus (p : CPayload) : Status :=
  if p.status = .ok then p.computeStatus else p.status

/-- The first loop of `OnCompleteQueuedPayloads`: if the batch status is
OK but some payload without a completion function carries an error,
elevate the batch status to the first such error. -/
def elevateStatus (ps : List CPayload) (st : Status) : Status :=
  if st = .ok then
    match ps.find? (fun p => ¬p.hasComplete ∧ noCompleteStatus p ≠ .ok) with
    | some p => noCompleteStatus p
    | none => st
  else st

/-- `final_status` for one payload given the (possibly elevated) batch
status. -/
def finalStatus (st : Status) (p : CPayload) : Status :=
  if st = .ok then noCompleteStatus p else st

/-- The marking loop: walk the payloads in slot order with the
`found_success` flag; the first payload whose final status is OK and
which has a stats handle gets `SetModelExecutionCount(1)`; every other
payload's count stays 0. Returns the per-payload execution counts. -/
def markLoop (st : Status) (found : Bool) : List CPayload → List Nat
  | [] => []
  | p :: ps =>
    if ¬found ∧ finalStatus st p = .ok ∧ p.hasStats then
      1 :: markLoop st true ps
    else
      0 :: markLoop st found ps

/-- `OnCompleteQueuedPayloads(status)`: the per-payload model-execution
counts it assigns. -/
def onCompleteCounts (ps : List CPayload) (st : Status) : List Nat :=
  markLoop (elevateStatus ps st) false ps

/-! ## Observables and well-formedness -/

/-- The slot queue of `(bs.batcher, bs.slot)`. -/
def queueOf (st : SysState) (bs : BatchSlot) : Queue :=
  (st.batchers.getD bs.batcher default).queues.getD bs.slot []

/-- `bs` indexes an actual batcher and an actual slot of that batcher. -/
def slotInRange (st : SysState) (bs : BatchSlot) : Prop :=
  bs.batcher < st.batchers.length ∧
  bs.slot < (st.batchers.getD bs.batcher default).queues.length

instance : Inhabited CPayload := ⟨⟨false, false, .ok, .ok⟩⟩

theorem getD_set_self (l : List α) (i : Nat) (x d : α) (h : i < l.length) :
    (l.set i x).getD i d = x := by
  rw [List.getD_eq_getElem?_getD, List.getElem?_set_self h]; rfl

theorem getD_set_ne (l : List α) {i j : Nat} (x d : α) (h : i ≠ j) :
    (l.set i x).getD j d = l.getD j d := by
  rw [List.getD_eq_getElem?_getD, List.getElem?_set_ne h, ← List.getD_eq_getElem?_getD]

theorem getD_set_oob (l : List α) {i : Nat} (x d : α) (h : l.length ≤ i) :
    (l.set i x).getD i d = d := by
  rw [List.set_eq_of_length_le h, List.getD_eq_getElem?_getD,
    List.getElem?_eq_none (by omega)]; rfl

/-- `sbEnqueue` leaves the queue list intact except at the target slot. -/
theorem sbEnqueue_queues (b : BatchState) (slot : Nat) (p : Payload) :
    (sbEnqueue b slot p).queues = b.queues.set slot (b.queues.getD slot [] ++ [p]) := by
  by_cases hmax : b.maxActiveSlot = -1 <;> simp [sbEnqueue, hmax]

theorem queueOf_deliver_self (st : SysState) (bs : BatchSlot) (r : Payload)
    (h : slotInRange st bs) :
    queueOf { st with batchers := deliver st.batchers bs r } bs = queueOf st bs ++ [r] := by
  obtain ⟨hb, hs⟩ := h
  simp only [queueOf, deliver]
  rw [getD_set_self _ _ _ _ hb, sbEnqueue_queues, getD_set_self _ _ _ _ hs]

theorem queueOf_deliver_ne (st : SysState) (bs bs' : BatchSlot) (r : Payload)
    (h : bs' ≠ bs) :
    queueOf { st with batchers := deliver st.batchers bs r } bs' = queueOf st bs' := by
  simp only [queueOf, deliver]
  by_cases hbatch : bs.batcher = bs'.batcher
  · have hslot : bs.slot ≠ bs'.slot := by
      intro hs; exact h (by cases bs; cases bs'; simp_all)
    by_cases hlt : bs.batcher < st.batchers.length
    · rw [hbatch, getD_set_self _ _ _ _ (hbatch ▸ hlt), sbEnqueue_queues,
        getD_set_ne _ _ _ hslot]
    · rw [List.set_eq_of_length_le (by omega)]
  · rw [getD_set_ne _ _ _ hbatch]

/-! ## Claim theorems -/

/-- C5: `Enqueue` with a request whose batch size is not 1, or whose
correlation ID is 0, or which does not carry SEQUENCE_START while its
correlation ID is in neither `slot_by_seq` nor `backlog_by_seq`, invokes
the completion callback immediately with an invalid-argument error
(`EnqueueResult.err`) and mutates no scheduler state: the whole system
state — both maps, the backlog, the ready-slot pool, and every slot
queue — is returned unchanged. -/
theorem enqueue_rejects_invalid_without_mutation (st : SysState) (r : Payload)
    (h : r.header.batchSize ≠ 1 ∨ r.header.correlationId = 0 ∨
      (r.header.seqStart = false ∧
       mlookup st.sched.slotBySeq r.header.correlationId = none ∧
       mlookup st.sched.backlogBySeq r.header.correlationId = none)) :
    schedulerEnqueue st r = (.err, st) := by
  rcases h with h | h | ⟨h1, h2, h3⟩
  · simp [schedulerEnqueue, h]
  · by_cases hb : r.header.batchSize ≠ 1 <;> simp [schedulerEnqueue, h, hb]
  · by_cases hb : r.header.batchSize ≠ 1
    · simp [schedulerEnqueue, hb]
    · by_cases hc : r.header.correlationId = 0 <;>
        simp [schedulerEnqueue, hb, hc, h1, h2, h3]

/-- Witness for C5 at a concrete input: a request with batch size 2 is
rejected and the freshly created scheduler state is untouched. -/
theorem enqueue_rejects_invalid_without_mutation_witness :
    schedulerEnqueue (initState 1 1) ⟨⟨2, 5, true, false⟩, 0⟩ = (.err, initState 1 1) :=
  enqueue_rejects_invalid_without_mutation (initState 1 1) ⟨⟨2, 5, true, false⟩, 0⟩
    (Or.inl (by decide))

/-- C1: for a request that passes the enqueue preconditions, `Enqueue`
routes by exactly the four-case decision table.
(1) If the correlation ID is in `slot_by_seq`, the payload is delivered
to that slot's queue (and no backlog or pool state changes).
(2) Otherwise, if it is in `backlog_by_seq`, the payload is appended to
that backlog queue, the `backlog_by_seq` entry is erased exactly when the
request carries SEQUENCE_END (the queue remains in the backlog), and the
call returns without touching `slot_by_seq` or the pool.
(3) Otherwise, if the ready-slot pool is non-empty, the top slot is
popped, `slot_by_seq[cid]` is bound to it (up to the END-erase), and the
payload is delivered to that slot.
(4) Otherwise a new backlog queue holding only the payload is pushed to
the tail of the backlog, and `backlog_by_seq[cid]` is set to it exactly
when the request does not carry SEQUENCE_END. -/
theorem enqueue_routing_decision_table (st : SysState) (r : Payload)
    (hbs : r.header.batchSize = 1) (hcid : r.header.correlationId ≠ 0)
    (hknown : r.header.seqStart = true ∨
      mlookup st.sched.slotBySeq r.header.correlationId ≠ none ∨
      mlookup st.sched.backlogBySeq r.header.correlationId ≠ none)
    (hrange : ∀ bs, mlookup st.sched.slotBySeq r.header.correlationId = some bs →
      slotInRange st bs)
    (hpoolrange : ∀ bs, st.sched.readySlots.head? = some bs → slotInRange st bs) :
    (∀ bs, mlookup st.sched.slotBySeq r.header.correlationId = some bs →
      (schedulerEnqueue st r).1 = .toSlot bs ∧
      queueOf (schedulerEnqueue st r).2 bs = queueOf st bs ++ [r] ∧
      (schedulerEnqueue st r).2.sched.backlogQueues = st.sched.backlogQueues ∧
      (schedulerEnqueue st r).2.sched.backlogBySeq = st.sched.backlogBySeq ∧
      (schedulerEnqueue st r).2.sched.readySlots = st.sched.readySlots) ∧
    (mlookup st.sched.slotBySeq r.header.correlationId = none →
      ∀ tag, mlookup st.sched.backlogBySeq r.header.correlationId = some tag →
      (schedulerEnqueue st r).1 = .backlogged ∧
      (schedulerEnqueue st r).2.sched.backlogQueues =
        appendToTag st.sched.backlogQueues tag r ∧
      mlookup (schedulerEnqueue st r).2.sched.backlogBySeq r.header.correlationId =
        (if r.header.seqEnd then none else some tag) ∧
      (schedulerEnqueue st r).2.sched.slotBySeq = st.sched.slotBySeq ∧
      (schedulerEnqueue st r).2.sched.readySlots = st.sched.readySlots ∧
      (schedulerEnqueue st r).2.batchers = st.batchers) ∧
    (mlookup st.sched.slotBySeq r.header.correlationId = none →
      mlookup st.sched.backlogBySeq r.header.correlationId = none →
      ∀ bs rest, st.sched.readySlots = bs :: rest →
      (schedulerEnqueue st r).1 = .toSlot bs ∧
      queueOf (schedulerEnqueue st r).2 bs = queueOf st bs ++ [r] ∧
      mlookup (schedulerEnqueue st r).2.sched.slotBySeq r.header.correlationId =
        (if r.header.seqEnd then none else some bs) ∧
      (schedulerEnqueue st r).2.sched.readySlots = rest ∧
      (schedulerEnqueue st r).2.sched.backlogQueues = st.sched.backlogQueues ∧
      (schedulerEnqueue st r).2.sched.backlogBySeq = st.sched.backlogBySeq) ∧
    (mlookup st.sched.slotBySeq r.header.correlationId = none →
      mlookup st.sched.backlogBySeq r.header.correlationId = none →
      st.sched.readySlots = [] →
      (schedulerEnqueue st r).1 = .backlogged ∧
      (schedulerEnqueue st r).2.sched.backlogQueues =
        st.sched.backlogQueues ++ [⟨st.sched.nextTag, [r]⟩] ∧
      mlookup (schedulerEnqueue st r).2.sched.backlogBySeq r.header.correlationId =
        (if r.header.seqEnd then mlookup st.sched.backlogBySeq r.header.correlationId
         else some st.sched.nextTag) ∧
      (schedulerEnqueue st r).2.sched.slotBySeq = st.sched.slotBySeq ∧
      (schedulerEnqueue st r).2.sched.readySlots = []) := by
  refine ⟨?_, ?_, ?_, ?_⟩
  · intro bs hsb
    have hres : schedulerEnqueue st r =
        (.toSlot bs,
          { sched := { st.sched with
              slotBySeq := if r.header.seqEnd then
                merase st.sched.slotBySeq r.header.correlationId else st.sched.slotBySeq }
            batchers := deliver st.batchers bs r }) := by
      simp [schedulerEnqueue, hbs, hcid, hsb]
    rw [hres]
    refine ⟨rfl, ?_, rfl, rfl, rfl⟩
    exact queueOf_deliver_self st bs r (hrange bs hsb)
  · intro hsb tag hbl
    have hres : schedulerEnqueue st r =
        (.backlogged,
          { st with sched := { st.sched with
              backlogQueues := appendToTag st.sched.backlogQueues tag r
              backlogBySeq := if r.header.seqEnd then
                merase st.sched.backlogBySeq r.header.correlationId
                else st.sched.backlogBySeq } }) := by
      simp [schedulerEnqueue, hbs, hcid, hsb, hbl]
    rw [hres]
    refine ⟨rfl, rfl, ?_, rfl, rfl, rfl⟩
    by_cases hend : r.header.seqEnd <;> simp [hend, hbl]
  · intro hsb hbl bs rest hpool
    have hres : schedulerEnqueue st r =
        (.toSlot bs,
          { sched := { st.sched with
              slotBySeq := if r.header.seqEnd then
                merase (minsert st.sched.slotBySeq r.header.correlationId bs)
                  r.header.correlationId
                else minsert st.sched.slotBySeq r.header.correlationId bs
              readySlots := rest }
            batchers := deliver st.batchers bs r }) := by
      rcases hknown with hk | hk | hk
      · simp [schedulerEnqueue, hbs, hcid, hsb, hbl, hpool, hk]
      · exact absurd hsb hk
      · exact absurd hbl hk
    rw [hres]
    refine ⟨rfl, ?_, ?_, rfl, rfl, rfl⟩
    · exact queueOf_deliver_self st bs r (hpoolrange bs (by rw [hpool]; rfl))
    · by_cases hend : r.header.seqEnd <;> simp [hend]
  · intro hsb hbl hpool
    have hres : schedulerEnqueue st r =
        (.backlogged,
          { st with sched := { st.sched with
              backlogQueues := st.sched.backlogQueues ++ [⟨st.sched.nextTag, [r]⟩]
              backlogBySeq := if r.header.seqEnd then st.sched.backlogBySeq
                else minsert st.sched.backlogBySeq r.header.correlationId st.sched.nextTag
              nextTag := st.sched.nextTag + 1 } }) := by
      rcases hknown with hk | hk | hk
      · simp [schedulerEnqueue, hbs, hcid, hsb, hbl, hpool, hk]
      · exact absurd hsb hk
      · exact absurd hbl hk
    rw [hres]
    exact ⟨rfl, rfl, by by_cases hend : r.header.seqEnd <;> simp [hend], rfl, hpool⟩

/-- Witness for C1 at a concrete input: a START request on the fresh
two-slot scheduler is routed to the popped top slot `(0, 1)`. -/
theorem enqueue_routing_decision_table_witness :
    (schedulerEnqueue (initState 1 2) ⟨⟨1, 4, true, false⟩, 0⟩).1 =
      .toSlot ⟨0, 1⟩ ∧
    queueOf (schedulerEnqueue (initState 1 2) ⟨⟨1, 4, true, false⟩, 0⟩).2 ⟨0, 1⟩ =
      [⟨⟨1, 4, true, false⟩, 0⟩] := by
  have h := enqueue_routing_decision_table (initState 1 2) ⟨⟨1, 4, true, false⟩, 0⟩
    (by decide) (by decide) (Or.inl rfl)
    (by intro bs hbs; simp [initState, mlookup] at hbs)
    (by
      intro bs hbs
      have h2 : (initState 1 2).sched.readySlots.head? = some (⟨0, 1⟩ : BatchSlot) := by
        decide
      rw [h2] at hbs
      cases hbs
      constructor <;> decide)
  obtain ⟨h1, h2⟩ := h.2.2.1 (by decide) (by decide) ⟨0, 1⟩ [⟨0, 0⟩] (by decide)
  exact ⟨h1, by rw [h2.1]; decide⟩

/-- C9: a SEQUENCE_END request routed to an already-assigned slot erases
exactly that correlation ID from `slot_by_seq` at enqueue time and
changes nothing else at that moment: every other `slot_by_seq` entry, the
ready-slot pool, the backlog and `backlog_by_seq` are unchanged, and the
END payload is delivered to the `(batcher_idx, slot_idx)` that was bound
to the correlation ID at lookup time. -/
theorem enqueue_end_erases_only_binding (st : SysState) (r : Payload) (bs : BatchSlot)
    (hbs : r.header.batchSize = 1) (hcid : r.header.correlationId ≠ 0)
    (hend : r.header.seqEnd = true)
    (hsb : mlookup st.sched.slotBySeq r.header.correlationId = some bs)
    (hrange : slotInRange st bs) :
    (schedulerEnqueue st r).1 = .toSlot bs ∧
    mlookup (schedulerEnqueue st r).2.sched.slotBySeq r.header.correlationId = none ∧
    (∀ c, c ≠ r.header.correlationId →
      mlookup (schedulerEnqueue st r).2.sched.slotBySeq c = mlookup st.sched.slotBySeq c) ∧
    (schedulerEnqueue st r).2.sched.readySlots = st.sched.readySlots ∧
    (schedulerEnqueue st r).2.sched.backlogQueues = st.sched.backlogQueues ∧
    (schedulerEnqueue st r).2.sched.backlogBySeq = st.sched.backlogBySeq ∧
    queueOf (schedulerEnqueue st r).2 bs = queueOf st bs ++ [r] ∧
    (∀ bs', bs' ≠ bs → queueOf (schedulerEnqueue st r).2 bs' = queueOf st bs') := by
  have hres : schedulerEnqueue st r =
      (.toSlot bs,
        { sched := { st.sched with
            slotBySeq := merase st.sched.slotBySeq r.header.correlationId }
          batchers := deliver st.batchers bs r }) := by
    simp [schedulerEnqueue, hbs, hcid, hsb, hend]
  rw [hres]
  refine ⟨rfl, by simp, ?_, rfl, rfl, rfl, ?_, ?_⟩
  · intro c hc
    exact mlookup_merase_ne _ (fun h => hc h.symm)
  · exact queueOf_deliver_self st bs r hrange
  · intro bs' hbs'
    exact queueOf_deliver_ne st bs bs' r hbs'

/-- Witness for C9 at a concrete input: after binding cid 7 to slot
`(0, 0)`, an END request for cid 7 erases the binding, leaves the pool
and backlog alone, and lands in queue `(0, 0)`. -/
theorem enqueue_end_erases_only_binding_witness :
    mlookup ((schedulerEnqueue
        (schedulerEnqueue (initState 1 1) ⟨⟨1, 7, true, false⟩, 0⟩).2
        ⟨⟨1, 7, false, true⟩, 1⟩).2).sched.slotBySeq 7 = none ∧
    queueOf ((schedulerEnqueue
        (schedulerEnqueue (initState 1 1) ⟨⟨1, 7, true, false⟩, 0⟩).2
        ⟨⟨1, 7, false, true⟩, 1⟩).2) ⟨0, 0⟩ =
      [⟨⟨1, 7, true, false⟩, 0⟩, ⟨⟨1, 7, false, true⟩, 1⟩] := by
  have h := enqueue_end_erases_only_binding
    (schedulerEnqueue (initState 1 1) ⟨⟨1, 7, true, false⟩, 0⟩).2
    ⟨⟨1, 7, false, true⟩, 1⟩ ⟨0, 0⟩ (by decide) (by decide) (by decide)
    (by decide) (by constructor <;> decide)
  refine ⟨h.2.1, ?_⟩
  rw [h.2.2.2.2.2.2.1]
  decide

/-- C2: behaviour of `ReleaseBatchSlot` on every call made while the
backlog invariant (every queued backlog queue is non-empty — which holds
by construction, see `backlogQueues` handling in `schedulerEnqueue`)
is satisfied.  With a non-empty backlog, its head queue is dequeued and
handed back to the caller and the call returns `returned_to_pool = false`;
exactly when the last payload of that queue does not carry SEQUENCE_END,
the correlation ID of that queue is removed from `backlog_by_seq` and
`slot_by_seq[cid]` is bound to the released slot, with the internal
error logged precisely if `slot_by_seq` already contained that cid.
With an empty backlog the slot is pushed into the ready-slot pool and
`returned_to_pool = true` is returned. -/
theorem release_slot_backlog_cases (sched : SchedState) (bs : BatchSlot) (payloads : Queue)
    (hne : ∀ bq ∈ sched.backlogQueues, bq.q ≠ []) :
    (sched.backlogQueues = [] →
      releaseBatchSlot sched bs payloads =
        { returnedToPool := true
          sched := { sched with readySlots := bs :: sched.readySlots }
          payloads := payloads
          loggedConflict := false }) ∧
    (∀ head rest, sched.backlogQueues = head :: rest →
      ∃ lastP, head.q.getLast? = some lastP ∧
        (releaseBatchSlot sched bs payloads).returnedToPool = false ∧
        (releaseBatchSlot sched bs payloads).payloads = head.q ∧
        (releaseBatchSlot sched bs payloads).sched.backlogQueues = rest ∧
        (releaseBatchSlot sched bs payloads).sched.readySlots = sched.readySlots ∧
        (lastP.header.seqEnd = true →
          (releaseBatchSlot sched bs payloads).sched.slotBySeq = sched.slotBySeq ∧
          (releaseBatchSlot sched bs payloads).sched.backlogBySeq = sched.backlogBySeq ∧
          (releaseBatchSlot sched bs payloads).loggedConflict = false) ∧
        (lastP.header.seqEnd = false →
          mlookup (releaseBatchSlot sched bs payloads).sched.backlogBySeq
            lastP.header.correlationId = none ∧
          (∀ c, c ≠ lastP.header.correlationId →
            mlookup (releaseBatchSlot sched bs payloads).sched.backlogBySeq c =
              mlookup sched.backlogBySeq c) ∧
          mlookup (releaseBatchSlot sched bs payloads).sched.slotBySeq
            lastP.header.correlationId = some bs ∧
          (∀ c, c ≠ lastP.header.correlationId →
            mlookup (releaseBatchSlot sched bs payloads).sched.slotBySeq c =
              mlookup sched.slotBySeq c) ∧
          (releaseBatchSlot sched bs payloads).loggedConflict =
            (mlookup sched.slotBySeq lastP.header.correlationId).isSome)) := by
  constructor
  · intro h
    simp [releaseBatchSlot, h]
  · intro head rest hq
    have hhead : head.q ≠ [] := hne head (by rw [hq]; exact List.mem_cons_self _ _)
    obtain ⟨lastP, hlast⟩ : ∃ lastP, head.q.getLast? = some lastP := by
      cases hl : head.q.getLast? with
      | none => exact absurd (List.getLast?_eq_none_iff.mp hl) hhead
      | some p => exact ⟨p, rfl⟩
    refine ⟨lastP, hlast, ?_⟩
    by_cases hend : lastP.header.seqEnd
    · simp only [releaseBatchSlot, hq, hlast, hend]
      simp
    · simp only [releaseBatchSlot, hq, hlast, Bool.not_eq_true] at *
      simp only [hend]
      refine ⟨rfl, rfl, rfl, rfl, by simp, ?_⟩
      intro _
      refine ⟨by simp, ?_, by simp, ?_, rfl⟩
      · intro c hc
        exact mlookup_merase_ne _ fun h => hc h.symm
      · intro c hc
        exact mlookup_minsert_ne _ _ fun h => hc h.symm

/-- Witness for C2 at concrete inputs: with one backlogged queue for
cid 3 whose last payload is not an END, releasing slot `(0, 0)` hands
that queue back, erases cid 3 from `backlog_by_seq` and binds it in
`slot_by_seq`. -/
theorem release_slot_backlog_cases_witness :
    (releaseBatchSlot
        { slotBySeq := [], backlogBySeq := [(3, 0)]
          backlogQueues := [⟨0, [⟨⟨1, 3, true, false⟩, 0⟩]⟩]
          readySlots := [], nextTag := 1 } ⟨0, 0⟩ []).returnedToPool = false ∧
    mlookup (releaseBatchSlot
        { slotBySeq := [], backlogBySeq := [(3, 0)]
          backlogQueues := [⟨0, [⟨⟨1, 3, true, false⟩, 0⟩]⟩]
          readySlots := [], nextTag := 1 } ⟨0, 0⟩ []).sched.slotBySeq 3 =
      some ⟨0, 0⟩ := by
  have h := release_slot_backlog_cases
    { slotBySeq := [], backlogBySeq := [(3, 0)]
      backlogQueues := [⟨0, [⟨⟨1, 3, true, false⟩, 0⟩]⟩]
      readySlots := [], nextTag := 1 } ⟨0, 0⟩ []
    (by intro bq hbq; simp at hbq; subst hbq; decide)
  obtain ⟨lastP, hlast, h1, -, -, -, -, h2⟩ :=
    h.2 ⟨0, [⟨⟨1, 3, true, false⟩, 0⟩]⟩ [] rfl
  have : lastP = ⟨⟨1, 3, true, false⟩, 0⟩ := by
    simp [List.getLast?] at hlast
    exact hlast.symm
  subst this
  exact ⟨h1, (h2 rfl).2.2.1⟩

/-- C10: `ReleaseBatchSlot` examines only the head queue of the backlog
and removes at most that one queue.  If the dequeued head queue is empty
it is discarded (the caller's deque is overwritten with the empty queue),
the slot is pushed into the ready-slot pool and `returned_to_pool = true`
is returned, without examining any later backlog queue (the tail is
returned intact) and without touching either map. -/
theorem release_slot_empty_head_discards (sched : SchedState) (bs : BatchSlot)
    (payloads : Queue) (bq : BacklogQueue) (rest : List BacklogQueue)
    (hq : sched.backlogQueues = bq :: rest) (hempty : bq.q = []) :
    releaseBatchSlot sched bs payloads =
      { returnedToPool := true
        sched := { sched with backlogQueues := rest
                              readySlots := bs :: sched.readySlots }
        payloads := []
        loggedConflict := false } := by
  simp [releaseBatchSlot, hq, hempty]

/-- Witness for C10 at concrete inputs: an empty head queue is discarded
even though a non-empty queue for cid 9 sits behind it; the slot goes
back to the pool and both maps are untouched. -/
theorem release_slot_empty_head_discards_witness :
    releaseBatchSlot
        { slotBySeq := [(4, ⟨0, 1⟩)], backlogBySeq := [(9, 1)]
          backlogQueues := [⟨0, []⟩, ⟨1, [⟨⟨1, 9, true, false⟩, 0⟩]⟩]
          readySlots := [], nextTag := 2 } ⟨0, 0⟩ [] =
      { returnedToPool := true
        sched := { slotBySeq := [(4, ⟨0, 1⟩)], backlogBySeq := [(9, 1)]
                   backlogQueues := [⟨1, [⟨⟨1, 9, true, false⟩, 0⟩]⟩]
                   readySlots := [⟨0, 0⟩], nextTag := 2 }
        payloads := []
        loggedConflict := false } :=
  release_slot_empty_head_discards _ ⟨0, 0⟩ [] ⟨0, []⟩
    [⟨1, [⟨⟨1, 9, true, false⟩, 0⟩]⟩] rfl rfl

/-! ### C8: execution accounting -/

/-- Does payload `p` qualify for the execution count under (elevated)
batch status `st`? -/
def qualifies (st : Status) (p : CPayload) : Prop :=
  finalStatus st p = .ok ∧ p.hasStats = true

instance (st : Status) (p : CPayload) : Decidable (qualifies st p) := by
  unfold qualifies; infer_instance

theorem markLoop_found (st : Status) (ps : List CPayload) :
    markLoop st true ps = List.replicate ps.length 0 := by
  induction ps with
  | nil => rfl
  | cons p ps ih => simp [markLoop, ih, List.replicate_succ]

theorem markLoop_no_qualifier (st : Status) (ps : List CPayload)
    (h : ∀ p ∈ ps, ¬qualifies st p) (found : Bool) :
    markLoop st found ps = List.replicate ps.length 0 := by
  induction ps generalizing found with
  | nil => rfl
  | cons p ps ih =>
    have hp : ¬qualifies st p := h p (List.mem_cons_self _ _)
    have : ¬(¬found = true ∧ finalStatus st p = .ok ∧ p.hasStats = true) := by
      intro ⟨_, h2, h3⟩; exact hp ⟨h2, h3⟩
    simp only [markLoop, if_neg this, List.replicate_succ]
    exact congrArg _ (ih (fun q hq => h q (List.mem_cons_of_mem _ hq)) found)

theorem markLoop_first_qualifier (st : Status) (l₁ : List CPayload) (p : CPayload)
    (l₂ : List CPayload) (h1 : ∀ q ∈ l₁, ¬qualifies st q) (hp : qualifies st p) :
    markLoop st false (l₁ ++ p :: l₂) =
      List.replicate l₁.length 0 ++ 1 :: List.replicate l₂.length 0 := by
  induction l₁ with
  | nil =>
    simp only [List.nil_append, List.length_nil, List.replicate_zero, markLoop]
    rw [if_pos ⟨by simp, hp.1, hp.2⟩, markLoop_found]
  | cons q l₁ ih =>
    have hq : ¬qualifies st q := h1 q (List.mem_cons_self _ _)
    have : ¬(¬false = true ∧ finalStatus st q = .ok ∧ q.hasStats = true) := by
      intro ⟨_, h2, h3⟩; exact hq ⟨h2, h3⟩
    simp only [List.cons_append, markLoop, if_neg this, List.length_cons,
      List.replicate_succ]
    exact congrArg _ (ih fun q' hq' => h1 q' (List.mem_cons_of_mem _ hq'))

/-- C8 counterexample: a batch whose only payload has an error status of
its own (`payload.status_` non-OK) while the batch status is OK.  No
payload has an OK final status, so no payload at all is marked with
`model_execution_count = 1`, contradicting the claim that exactly one
successful payload per batch completion carries the count. -/
theorem onComplete_counts_no_success_marks_none :
    ¬ (onCompleteCounts [⟨true, true, .error 1, .ok⟩] .ok).count 1 = 1 := by
  decide

/-- C8 (amended): for each batch completion, at most one payload is
marked with `model_execution_count = 1` and every other payload carries
0: if some payload has an OK effective status and a stats handle, the
first such payload in slot order receives the count and all others get
0; if none does (for example when the whole batch failed), every payload
gets 0. -/
theorem onComplete_counts_first_success (ps : List CPayload) (st : Status) :
    ((∀ p ∈ ps, ¬qualifies (elevateStatus ps st) p) →
      onCompleteCounts ps st = List.replicate ps.length 0) ∧
    (∀ l₁ p l₂, ps = l₁ ++ p :: l₂ →
      qualifies (elevateStatus ps st) p →
      (∀ q ∈ l₁, ¬qualifies (elevateStatus ps st) q) →
      onCompleteCounts ps st =
        List.replicate l₁.length 0 ++ 1 :: List.replicate l₂.length 0) := by
  constructor
  · intro h
    exact markLoop_no_qualifier _ _ h false
  · intro l₁ p l₂ hps hp h1
    unfold onCompleteCounts
    rw [show markLoop (elevateStatus ps st) false ps =
        markLoop (elevateStatus ps st) false (l₁ ++ p :: l₂) from by rw [← hps]]
    exact markLoop_first_qualifier _ l₁ p l₂ h1 hp

/-- Witness for C8 (amended) at a concrete input: a two-payload batch in
which the placeholder (no stats) comes first; the second payload gets the
single execution count. -/
theorem onComplete_counts_first_success_witness :
    onCompleteCounts [⟨false, false, .ok, .ok⟩, ⟨true, true, .ok, .ok⟩] .ok = [0, 1] := by
  have h := (onComplete_counts_first_success
    [⟨false, false, .ok, .ok⟩, ⟨true, true, .ok, .ok⟩] .ok).2
    [⟨false, false, .ok, .ok⟩] ⟨true, true, .ok, .ok⟩ [] rfl
    (by decide) (by decide)
  simpa using h

/-! ### Sweep structure lemmas (for batch shape and overrides) -/

instance : Inhabited BatchEntry := ⟨.null none .notReady⟩

theorem processSlot_queues_ne (bIdx : Nat) (nullh : Option ReqHeader) (maxAct : Int)
    (acc : SweepAcc) (s t : Nat) (h : t ≠ s) :
    ((processSlot bIdx nullh maxAct acc s).1).queues.getD t [] = acc.queues.getD t [] := by
  unfold processSlot
  cases hq : acc.queues.getD s [] with
  | nil => rfl
  | cons p restq =>
    by_cases hend : p.header.seqEnd = true <;>
      simp only [hend, if_true, if_false, Bool.false_eq_true, List.getD_eq_getElem?_getD,
        List.getElem?_set_ne (Ne.symm h)]

theorem sweepFrom_length (bIdx : Nat) (nullh : Option ReqHeader) (maxAct : Int)
    (s fuel : Nat) (acc : SweepAcc) :
    (sweepFrom bIdx nullh maxAct s fuel acc).2.length = fuel := by
  induction fuel generalizing s acc with
  | zero => rfl
  | succ f ih => simp [sweepFrom, ih]

theorem sweepFrom_getD (bIdx : Nat) (nullh : Option ReqHeader) (maxAct : Int)
    (s fuel : Nat) (acc : SweepAcc) (i : Nat) (hi : i < fuel) :
    (sweepFrom bIdx nullh maxAct s fuel acc).2.getD i default =
      (match acc.queues.getD (s + i) [] with
       | [] => BatchEntry.null nullh .notReady
       | p :: _ =>
         BatchEntry.real p (if p.header.seqStart then Override.start else Override.cont)) := by
  induction fuel generalizing s acc i with
  | zero => omega
  | succ f ih =>
    cases i with
    | zero =>
      simp only [sweepFrom, Nat.add_zero, List.getD_cons_zero]
      unfold processSlot
      cases hq : acc.queues.getD s [] with
      | nil => rfl
      | cons p restq => by_cases hend : p.header.seqEnd = true <;> simp [hend]
    | succ j =>
      have hj : j < f := by omega
      simp only [sweepFrom, List.getD_cons_succ]
      rw [ih (s + 1) _ j hj, processSlot_queues_ne bIdx nullh maxAct acc s (s + 1 + j)
        (by omega)]
      have : s + 1 + j = s + (j + 1) := by omega
      rw [this]

theorem sweepFrom_entry_form (bIdx : Nat) (nullh : Option ReqHeader) (maxAct : Int)
    (s fuel : Nat) (acc : SweepAcc) :
    ∀ e ∈ (sweepFrom bIdx nullh maxAct s fuel acc).2,
      e = BatchEntry.null nullh .notReady ∨
      ∃ p, e = BatchEntry.real p
        (if p.header.seqStart then Override.start else Override.cont) := by
  induction fuel generalizing s acc with
  | zero => intro e he; simp [sweepFrom] at he
  | succ f ih =>
    intro e he
    simp only [sweepFrom, List.mem_cons] at he
    rcases he with he | he
    · subst he
      unfold processSlot
      cases hq : acc.queues.getD s [] with
      | nil => exact Or.inl rfl
      | cons p restq =>
        by_cases hend : p.header.seqEnd = true <;> simp [hend]
    · exact ih (s + 1) _ e he

/-- C6 counterexample state: on a one-batcher, two-slot scheduler, start
cid 1 (bound to slot 1), let the worker consume its payload (slot 1 stays
active with an empty queue), then start cid 2 (bound to slot 0).  At the
next assembly, `max_active_slot_` is still 1 but the backward scan stops
at slot 0, so the batch has length 1, not 2. -/
def shortBatchState : SysState :=
  (schedulerEnqueue
    (sweep (schedulerEnqueue (initState 1 2) ⟨⟨1, 1, true, false⟩, 1⟩).2 0).1
    ⟨⟨1, 2, true, false⟩, 2⟩).2

/-- C6 counterexample: a reachable state and a batcher whose very next
`on_schedule` invocation passes a batch whose length is NOT
`max_active_slot + 1` at the time of assembly. -/
theorem sweep_batch_length_can_undershoot_max_active :
    Reachable 1 2 shortBatchState ∧
    (sweep shortBatchState 0).2 =
      some [BatchEntry.real ⟨⟨1, 2, true, false⟩, 2⟩ .start] ∧
    ((1 : Int) ≠ (shortBatchState.batchers.getD 0 default).maxActiveSlot + 1) := by
  refine ⟨?_, by decide, by decide⟩
  exact .enq _ (.work 0 (.enq _ .init))

/-- C6 (amended): whenever the worker assembles a batch (`sweep` produces
one), the batch length equals `max_slot + 1` where `max_slot` is the
largest slot index not exceeding `max_active_slot` whose queue is
non-empty (the code's backward scan), so `length ≤ max_active_slot + 1`
with equality exactly when `queues[max_active_slot]` is non-empty; there
are no gaps: the entry for every slot in `[0, max_slot]` whose queue was
empty at assembly is a synthetic placeholder built from the cached null
request header with the NOT-READY override and, by construction of
placeholder entries, no completion callback and no stats. -/
theorem sweep_batch_shape (st : SysState) (bIdx : Nat) (batch : List BatchEntry)
    (h : (sweep st bIdx).2 = some batch) :
    (0 : Int) ≤ findMaxSlot (st.batchers.getD bIdx default).queues
      ((st.batchers.getD bIdx default).maxActiveSlot + 1).toNat ∧
    (batch.length : Int) = findMaxSlot (st.batchers.getD bIdx default).queues
      ((st.batchers.getD bIdx default).maxActiveSlot + 1).toNat + 1 ∧
    ∀ i, i < batch.length →
      (st.batchers.getD bIdx default).queues.getD i [] = [] →
      batch.getD i default =
        BatchEntry.null (st.batchers.getD bIdx default).nullHeader .notReady := by
  unfold sweep at h
  set b := st.batchers.getD bIdx default with hb
  set maxSlot := findMaxSlot b.queues (b.maxActiveSlot + 1).toNat with hms
  by_cases hneg : maxSlot < 0
  · rw [if_pos hneg] at h
    cases h
  · rw [if_neg hneg] at h
    have hbatch : batch = (sweepFrom bIdx b.nullHeader b.maxActiveSlot 0 (maxSlot.toNat + 1)
        { sched := st.sched, queues := b.queues, active := b.activeSlots,
          adjust := false }).2 := by
      cases h; rfl
    push_neg at hneg
    refine ⟨hneg, ?_, ?_⟩
    · rw [hbatch, sweepFrom_length]
      omega
    · intro i hi hqi
      have hlen : i < maxSlot.toNat + 1 := by
        rw [hbatch, sweepFrom_length] at hi
        exact hi
      rw [hbatch,
        sweepFrom_getD bIdx b.nullHeader b.maxActiveSlot 0 (maxSlot.toNat + 1) _ i hlen,
        Nat.zero_add, hqi]

/-- Witness for C6 (amended) at a concrete input: after binding cid 5 to
slot 1 of a two-slot batcher, assembly yields a batch of length
`max_slot + 1 = 2` whose slot-0 entry is the NOT-READY placeholder built
from the cached header. -/
theorem sweep_batch_shape_witness :
    (sweep (schedulerEnqueue (initState 1 2) ⟨⟨1, 5, true, false⟩, 1⟩).2 0).2 =
      some [BatchEntry.null (some ⟨1, 5, true, false⟩) .notReady,
            BatchEntry.real ⟨⟨1, 5, true, false⟩, 1⟩ .start] ∧
    ([BatchEntry.null (some ⟨1, 5, true, false⟩) .notReady,
      BatchEntry.real ⟨⟨1, 5, true, false⟩, 1⟩ .start].getD 0 default =
        BatchEntry.null (some ⟨1, 5, true, false⟩) .notReady) := by
  have h := sweep_batch_shape (schedulerEnqueue (initState 1 2) ⟨⟨1, 5, true, false⟩, 1⟩).2 0
    [BatchEntry.null (some ⟨1, 5, true, false⟩) .notReady,
     BatchEntry.real ⟨⟨1, 5, true, false⟩, 1⟩ .start] (by decide)
  exact ⟨by decide, h.2.2 0 (by decide) (by decide)⟩

/-- C7: in every assembled batch, each real payload whose request header
carries SEQUENCE_START has the START override set attached, each real
payload without it has the CONTINUE override set attached, and every
placeholder carries the NOT-READY override set. -/
theorem sweep_overrides_correct (st : SysState) (bIdx : Nat) (batch : List BatchEntry)
    (h : (sweep st bIdx).2 = some batch) :
    ∀ e ∈ batch,
      (∀ p ov, e = BatchEntry.real p ov →
        ov = if p.header.seqStart then Override.start else Override.cont) ∧
      (∀ hd ov, e = BatchEntry.null hd ov → ov = Override.notReady) := by
  unfold sweep at h
  set b := st.batchers.getD bIdx default with hb
  set maxSlot := findMaxSlot b.queues (b.maxActiveSlot + 1).toNat with hms
  by_cases hneg : maxSlot < 0
  · rw [if_pos hneg] at h
    cases h
  · rw [if_neg hneg] at h
    have hbatch : batch = (sweepFrom bIdx b.nullHeader b.maxActiveSlot 0 (maxSlot.toNat + 1)
        { sched := st.sched, queues := b.queues, active := b.activeSlots,
          adjust := false }).2 := by
      cases h; rfl
    intro e he
    rw [hbatch] at he
    rcases sweepFrom_entry_form bIdx b.nullHeader b.maxActiveSlot 0 (maxSlot.toNat + 1) _
      e he with hform | ⟨p, hform⟩ <;> subst hform
    · exact ⟨fun p ov hpo => absurd hpo (by simp), fun hd ov hpo => by
        rw [show ov = Override.notReady from by cases hpo; rfl]⟩
    · exact ⟨fun p' ov hpo => by cases hpo; rfl, fun hd ov hpo => absurd hpo (by simp)⟩

/-- Witness for C7 at a concrete input: the batch assembled after binding
cid 5 carries the START override on its real payload and NOT-READY on its
placeholder. -/
theorem sweep_overrides_correct_witness :
    (BatchEntry.real ⟨⟨1, 5, true, false⟩, 1⟩ .start ∈
      [BatchEntry.null (some ⟨1, 5, true, false⟩) .notReady,
       BatchEntry.real ⟨⟨1, 5, true, false⟩, 1⟩ .start]) ∧
    Override.start =
      (if (⟨⟨1, 5, true, false⟩, 1⟩ : Payload).header.seqStart then Override.start
       else Override.cont) := by
  have h := sweep_overrides_correct
    (schedulerEnqueue (initState 1 2) ⟨⟨1, 5, true, false⟩, 1⟩).2 0
    [BatchEntry.null (some ⟨1, 5, true, false⟩) .notReady,
     BatchEntry.real ⟨⟨1, 5, true, false⟩, 1⟩ .start] (by decide)
  refine ⟨by decide, ?_⟩
  exact (h _ (by decide)).1 ⟨⟨1, 5, true, false⟩, 1⟩ .start rfl

/-! ### C3: the scheduler-state invariant over reachable states -/

/-- `bs` is in the image of `slot_by_seq`: some in-flight sequence is
bound to it. -/
def inImage (S : SchedState) (bs : BatchSlot) : Prop :=
  ∃ c, mlookup S.slotBySeq c = some bs

/-- Slot `bs` holds a SEQUENCE_END payload that the worker has not yet
consumed (the "limbo" period between END enqueue and slot release). -/
def endPendingAt (st : SysState) (bs : BatchSlot) : Prop :=
  ∃ p, (queueOf st bs).getLast? = some p ∧ p.header.seqEnd = true

/-- A queue carries SEQUENCE_END payloads only in its final position. -/
def endOnlyAtTail (q : Queue) : Prop :=
  ∀ p ∈ q.dropLast, p.header.seqEnd = false

/-- The inductive invariant of the scheduler, closed under `Enqueue` and
worker-thread iterations.  Its fields are the facts the source code
assumes implicitly: well-formed dimensions, a duplicate-free in-range
pool, injective in-range slot bindings, disjointness of the two sequence
maps, the pool/binding/END-pending trichotomy for every slot, END flags
only at queue tails, and coherence between `backlog_by_seq` and the
backlog queue list (non-empty uniquely-tagged queues, with a map entry
exactly for the queues whose last payload is not an END). -/
structure Inv (rc bsz : Nat) (st : SysState) : Prop where
  batchersLen : st.batchers.length = rc
  queuesLen : ∀ i, i < rc → (st.batchers.getD i default).queues.length = bsz
  activeLen : ∀ i, i < rc → (st.batchers.getD i default).activeSlots.length = bsz
  maxLt : ∀ i, i < rc → (st.batchers.getD i default).maxActiveSlot < (bsz : Int)
  poolNodup : st.sched.readySlots.Nodup
  poolRange : ∀ bs ∈ st.sched.readySlots, bs.batcher < rc ∧ bs.slot < bsz
  imageRange : ∀ c bs, mlookup st.sched.slotBySeq c = some bs →
    bs.batcher < rc ∧ bs.slot < bsz
  imageInj : ∀ c c' bs, mlookup st.sched.slotBySeq c = some bs →
    mlookup st.sched.slotBySeq c' = some bs → c = c'
  mapsDisjoint : ∀ c tag, mlookup st.sched.backlogBySeq c = some tag →
    mlookup st.sched.slotBySeq c = none
  poolNotImage : ∀ bs ∈ st.sched.readySlots, ¬inImage st.sched bs
  poolQueueEmpty : ∀ bs ∈ st.sched.readySlots, queueOf st bs = []
  imageNotEnd : ∀ c bs, mlookup st.sched.slotBySeq c = some bs → ¬endPendingAt st bs
  partition : ∀ b s, b < rc → s < bsz →
    ⟨b, s⟩ ∈ st.sched.readySlots ∨ inImage st.sched ⟨b, s⟩ ∨ endPendingAt st ⟨b, s⟩
  slotEndTail : ∀ bs : BatchSlot, endOnlyAtTail (queueOf st bs)
  backlogEndTail : ∀ bq ∈ st.sched.backlogQueues, endOnlyAtTail bq.q
  backlogNonempty : ∀ bq ∈ st.sched.backlogQueues, bq.q ≠ []
  tagsNodup : (st.sched.backlogQueues.map BacklogQueue.tag).Nodup
  tagsLt : ∀ bq ∈ st.sched.backlogQueues, bq.tag < st.sched.nextTag
  mapToQueue : ∀ c tag, mlookup st.sched.backlogBySeq c = some tag →
    ∃ bq, bq ∈ st.sched.backlogQueues ∧ bq.tag = tag ∧
      ∃ p, bq.q.getLast? = some p ∧ p.header.correlationId = c ∧
        p.header.seqEnd = false
  queueToMap : ∀ bq ∈ st.sched.backlogQueues, ∀ p, bq.q.getLast? = some p →
    p.header.seqEnd = false →
    mlookup st.sched.backlogBySeq p.header.correlationId = some bq.tag

theorem mem_seedPool (rc bsz : Nat) (bs : BatchSlot) :
    bs ∈ seedPool rc bsz ↔ bs.batcher < rc ∧ bs.slot < bsz := by
  cases bs with
  | mk b s =>
    simp only [seedPool, List.mem_reverse, List.mem_flatMap, List.mem_map, List.mem_range]
    constructor
    · rintro ⟨a, ha, t, ht, heq⟩
      cases heq
      exact ⟨ha, ht⟩
    · rintro ⟨hb, hs⟩
      exact ⟨b, hb, s, hs, rfl⟩

theorem seedPool_nodup (rc bsz : Nat) : (seedPool rc bsz).Nodup := by
  rw [seedPool, List.nodup_reverse]
  rw [List.nodup_flatMap]
  constructor
  · intro x _
    exact (List.nodup_range _).map fun a b h => by cases h; rfl
  · rw [List.pairwise_iff_forall_sublist]
    intro a b hsub
    have hab : a ≠ b := by
      intro h
      subst h
      have : ([a, a] : List Nat).Nodup := hsub.nodup (List.nodup_range rc)
      simp at this
    intro x hxa hxb
    simp only [List.mem_map, List.mem_range] at hxa hxb
    obtain ⟨sa, _, hsa⟩ := hxa
    obtain ⟨sb, _, hsb⟩ := hxb
    rw [← hsa] at hsb
    cases hsb
    exact hab rfl

theorem mlookup_replicate_emptyish (c : Nat) :
    mlookup ([] : List (Nat × BatchSlot)) c = none := rfl

theorem getD_replicate {α : Type _} (n : Nat) (x d : α) (i : Nat) :
    (List.replicate n x).getD i d = if i < n then x else d := by
  by_cases h : i < n
  · rw [if_pos h, List.getD_eq_getElem?_getD, List.getElem?_eq_getElem (by simpa using h)]
    simp
  · rw [if_neg h, List.getD_eq_getElem?_getD,
      List.getElem?_eq_none (by simpa using Nat.le_of_not_lt h)]
    rfl

theorem queueOf_initState (rc bsz : Nat) (bs : BatchSlot) :
    queueOf (initState rc bsz) bs = [] := by
  simp only [queueOf, initState, getD_replicate]
  by_cases hb : bs.batcher < rc <;> by_cases hs : bs.slot < bsz <;>
    simp [hb, hs, getD_replicate] <;>
    simp [show (default : BatchState).queues = [] from rfl]

theorem inv_initState (rc bsz : Nat) : Inv rc bsz (initState rc bsz) := by
  refine ⟨?_, ?_, ?_, ?_, ?_, ?_, ?_, ?_, ?_, ?_, ?_, ?_, ?_, ?_, ?_, ?_, ?_, ?_, ?_, ?_⟩
  · simp [initState]
  · intro i hi
    simp [initState, getD_replicate, hi]
  · intro i hi
    simp [initState, getD_replicate, hi]
  · intro i hi
    simp only [initState, getD_replicate, if_pos hi]
    omega
  · exact seedPool_nodup rc bsz
  · intro bs hbs
    exact (mem_seedPool rc bsz bs).mp hbs
  · intro c bs h
    cases h
  · intro c c' bs h
    cases h
  · intro c tag h
    cases h
  · intro bs _ h
    obtain ⟨c, hc⟩ := h
    cases hc
  · intro bs _
    exact queueOf_initState rc bsz bs
  · intro c bs h
    cases h
  · intro b s hb hs
    exact Or.inl ((mem_seedPool rc bsz ⟨b, s⟩).mpr ⟨hb, hs⟩)
  · intro bs
    rw [queueOf_initState rc bsz bs]
    intro p hp
    simp at hp
  · intro bq hbq
    cases hbq
  · intro bq hbq
    cases hbq
  · simp [initState]
  · intro bq hbq
    cases hbq
  · intro c tag h
    cases h
  · intro bq hbq
    cases hbq

/-! ### Supporting lemmas for invariant preservation -/

theorem mlookup_minsert (m : List (Nat × α)) (k : Nat) (v : α) (k' : Nat) :
    mlookup (minsert m k v) k' = if k = k' then some v else mlookup m k' := by
  by_cases h : k = k'
  · subst h
    simp [minsert, mlookup]
  · simp [minsert, mlookup, h, mlookup_merase_ne m h]

theorem merase_of_lookup_none (m : List (Nat × α)) (k : Nat)
    (h : mlookup m k = none) : merase m k = m := by
  induction m with
  | nil => rfl
  | cons hd tl ih =>
    obtain ⟨a, v⟩ := hd
    by_cases hak : a = k
    · subst hak
      simp [mlookup] at h
    · simp only [mlookup, if_neg hak] at h
      simp [merase, hak, ih h]

theorem set_getD_self (l : List α) (i : Nat) (d : α) (h : i < l.length) :
    l.set i (l.getD i d) = l := by
  apply List.ext_getElem?
  intro n
  by_cases hin : i = n
  · subst hin
    rw [List.getElem?_set_self h, List.getD_eq_getElem _ _ h,
      List.getElem?_eq_getElem h]
  · rw [List.getElem?_set_ne hin]

/-- Queue contents after a `deliver`: the target slot gains the payload
at its tail, every other slot is untouched. -/
theorem queueOf_deliver (st : SysState) (sched' : SchedState) (bs bs' : BatchSlot)
    (r : Payload) (hb : bs.batcher < st.batchers.length)
    (hs : bs.slot < (st.batchers.getD bs.batcher default).queues.length) :
    queueOf ⟨sched', deliver st.batchers bs r⟩ bs' =
      (if bs' = bs then queueOf st bs ++ [r] else queueOf st bs') := by
  by_cases h : bs' = bs
  · subst h
    rw [if_pos rfl]
    exact queueOf_deliver_self st bs' r ⟨hb, hs⟩
  · rw [if_neg h]
    exact queueOf_deliver_ne st bs bs' r h

theorem endPendingAt_iff (st : SysState) (bs : BatchSlot) :
    endPendingAt st bs ↔
      ∃ p, (queueOf st bs).getLast? = some p ∧ p.header.seqEnd = true := Iff.rfl

theorem endOnlyAtTail_nil : endOnlyAtTail [] := by
  intro p hp
  simp at hp

theorem endOnlyAtTail_tail (p : Payload) (q : Queue)
    (h : endOnlyAtTail (p :: q)) : endOnlyAtTail q := by
  intro x hx
  apply h
  cases q with
  | nil => simp at hx
  | cons a l =>
    rw [List.dropLast_cons₂]
    exact List.mem_cons_of_mem _ hx

theorem endOnlyAtTail_append (q : Queue) (r : Payload)
    (h1 : endOnlyAtTail q)
    (h2 : ∀ p, q.getLast? = some p → p.header.seqEnd = false) :
    endOnlyAtTail (q ++ [r]) := by
  intro x hx
  rw [List.dropLast_concat] at hx
  rcases List.eq_nil_or_concat q with hq | ⟨l', a, hq⟩
  · subst hq
    simp at hx
  · rw [List.concat_eq_append] at hq
    subst hq
    rcases (List.mem_append.mp hx) with hxl | hxa
    · exact h1 x (by rw [List.dropLast_concat]; exact hxl)
    · have : x = a := by simpa using hxa
      subst this
      exact h2 x (by rw [List.getLast?_concat])

/-- A SEQUENCE_END payload at the head of a queue whose END flags are
confined to the tail position means the queue is that single payload. -/
theorem eq_single_of_head_end (p : Payload) (q : Queue)
    (h : endOnlyAtTail (p :: q)) (hend : p.header.seqEnd = true) : q = [] := by
  cases q with
  | nil => rfl
  | cons a l =>
    have : p.header.seqEnd = false := by
      apply h
      rw [List.dropLast_cons₂]
      exact List.mem_cons_self _ _
    rw [hend] at this
    cases this

theorem getLast?_cons_of_ne_nil (p : Payload) (q : Queue) (h : q ≠ []) :
    (p :: q).getLast? = q.getLast? := by
  cases q with
  | nil => exact absurd rfl h
  | cons a l => rw [List.getLast?_cons_cons]

/-- With duplicate-free tags, two backlog queues sharing a tag coincide. -/
theorem backlog_eq_of_tag_eq (qs : List BacklogQueue)
    (hnodup : (qs.map BacklogQueue.tag).Nodup)
    {bq1 bq2 : BacklogQueue} (h1 : bq1 ∈ qs) (h2 : bq2 ∈ qs)
    (ht : bq1.tag = bq2.tag) : bq1 = bq2 :=
  List.inj_on_of_nodup_map hnodup h1 h2 ht

theorem appendToTag_map_tag (qs : List BacklogQueue) (tag : Nat) (r : Payload) :
    (appendToTag qs tag r).map BacklogQueue.tag = qs.map BacklogQueue.tag := by
  unfold appendToTag
  rw [List.map_map]
  apply List.map_congr_left
  intro bq _
  by_cases h : bq.tag = tag <;> simp [h]

theorem mem_appendToTag (qs : List BacklogQueue) (tag : Nat) (r : Payload)
    (bq' : BacklogQueue) :
    bq' ∈ appendToTag qs tag r ↔
      ∃ bq ∈ qs, bq' = if bq.tag = tag then { bq with q := bq.q ++ [r] } else bq := by
  unfold appendToTag
  rw [List.mem_map]
  constructor
  · rintro ⟨bq, hbq, rfl⟩
    exact ⟨bq, hbq, rfl⟩
  · rintro ⟨bq, hbq, rfl⟩
    exact ⟨bq, hbq, rfl⟩

theorem sbEnqueue_active (b : BatchState) (slot : Nat) (p : Payload) :
    (sbEnqueue b slot p).activeSlots = b.activeSlots.set slot true := by
  by_cases hmax : b.maxActiveSlot = -1 <;> simp [sbEnqueue, hmax]

theorem sbEnqueue_max (b : BatchState) (slot : Nat) (p : Payload) :
    (sbEnqueue b slot p).maxActiveSlot = max b.maxActiveSlot (Int.ofNat slot) := by
  by_cases hmax : b.maxActiveSlot = -1 <;> simp [sbEnqueue, hmax]

theorem endPendingAt_congr (st st' : SysState) (bs : BatchSlot)
    (h : queueOf st' bs = queueOf st bs) :
    endPendingAt st' bs ↔ endPendingAt st bs := by
  unfold endPendingAt
  rw [h]

theorem endPendingAt_append_iff (st st' : SysState) (bs : BatchSlot) (r : Payload)
    (h : queueOf st' bs = queueOf st bs ++ [r]) :
    endPendingAt st' bs ↔ r.header.seqEnd = true := by
  unfold endPendingAt
  rw [h, List.getLast?_concat]
  constructor
  · rintro ⟨p, hp, he⟩
    cases Option.some.inj hp
    exact he
  · intro he
    exact ⟨r, rfl, he⟩

/-- Invariant preservation for `Enqueue` when the correlation ID already
has an assigned slot (decision-table case 1). -/
theorem inv_enqueue_slotFound (rc bsz : Nat) (st : SysState) (r : Payload)
    (bs : BatchSlot) (hInv : Inv rc bsz st)
    (hsb : mlookup st.sched.slotBySeq r.header.correlationId = some bs) :
    Inv rc bsz
      ⟨{ st.sched with slotBySeq :=
          if r.header.seqEnd then merase st.sched.slotBySeq r.header.correlationId
          else st.sched.slotBySeq },
        deliver st.batchers bs r⟩ := by
  obtain ⟨hr1, hr2⟩ := hInv.imageRange _ _ hsb
  have hblen : bs.batcher < st.batchers.length := by rw [hInv.batchersLen]; exact hr1
  have hqlen : bs.slot < (st.batchers.getD bs.batcher default).queues.length := by
    rw [hInv.queuesLen bs.batcher hr1]; exact hr2
  set m' := if r.header.seqEnd then merase st.sched.slotBySeq r.header.correlationId
    else st.sched.slotBySeq with hmdef
  set st' : SysState := ⟨{ st.sched with slotBySeq := m' }, deliver st.batchers bs r⟩
    with hst'
  have hm' : ∀ c', mlookup m' c' =
      if r.header.seqEnd = true ∧ c' = r.header.correlationId then none
      else mlookup st.sched.slotBySeq c' := by
    intro c'
    rw [hmdef]
    by_cases hend : r.header.seqEnd = true
    · rw [if_pos hend, mlookup_merase]
      by_cases hc : c' = r.header.correlationId
      · subst hc
        simp [hend]
      · rw [if_neg (fun h => hc h.symm), if_neg (fun h : _ ∧ _ => hc h.2)]
    · simp only [Bool.not_eq_true] at hend
      simp [hend]
  have hQ : ∀ bs', queueOf st' bs' =
      (if bs' = bs then queueOf st bs ++ [r] else queueOf st bs') :=
    fun bs' => queueOf_deliver st _ bs bs' r hblen hqlen
  have hlastold : ∀ p, (queueOf st bs).getLast? = some p → p.header.seqEnd = false := by
    intro p hp
    by_cases he : p.header.seqEnd = true
    · exact absurd ⟨p, hp, he⟩ (hInv.imageNotEnd _ _ hsb)
    · simpa using he
  have hbs_not_pool : bs ∉ st.sched.readySlots :=
    fun h => hInv.poolNotImage bs h ⟨_, hsb⟩
  refine ⟨?_, ?_, ?_, ?_, ?_, ?_, ?_, ?_, ?_, ?_, ?_, ?_, ?_, ?_, ?_, ?_, ?_, ?_, ?_, ?_⟩
  · simp [deliver, hInv.batchersLen]
  · intro i hi
    by_cases hib : i = bs.batcher
    · subst hib
      simp only [deliver, getD_set_self _ _ _ _ hblen, sbEnqueue_queues]
      rw [List.length_set]
      exact hInv.queuesLen _ hi
    · simp only [deliver, getD_set_ne _ _ _ (fun h => hib h.symm)]
      exact hInv.queuesLen i hi
  · intro i hi
    by_cases hib : i = bs.batcher
    · subst hib
      simp only [deliver, getD_set_self _ _ _ _ hblen, sbEnqueue_active]
      rw [List.length_set]
      exact hInv.activeLen _ hi
    · simp only [deliver, getD_set_ne _ _ _ (fun h => hib h.symm)]
      exact hInv.activeLen i hi
  · intro i hi
    by_cases hib : i = bs.batcher
    · subst hib
      simp only [deliver, getD_set_self _ _ _ _ hblen, sbEnqueue_max]
      exact max_lt (hInv.maxLt _ hi) (by rw [Int.ofNat_eq_coe]; exact_mod_cast hr2)
    · simp only [deliver, getD_set_ne _ _ _ (fun h => hib h.symm)]
      exact hInv.maxLt i hi
  · exact hInv.poolNodup
  · exact hInv.poolRange
  · intro c bs' hc
    rw [show st'.sched.slotBySeq = m' from rfl, hm'] at hc
    split at hc
    · cases hc
    · exact hInv.imageRange _ _ hc
  · intro c c' bs' hc hc'
    rw [show st'.sched.slotBySeq = m' from rfl, hm'] at hc hc'
    split at hc
    · cases hc
    · split at hc'
      · cases hc'
      · exact hInv.imageInj _ _ _ hc hc'
  · intro c tag hc
    rw [show st'.sched.backlogBySeq = st.sched.backlogBySeq from rfl] at hc
    rw [show st'.sched.slotBySeq = m' from rfl, hm']
    rw [hInv.mapsDisjoint _ _ hc]
    split <;> rfl
  · intro bs' hbs' himg
    obtain ⟨c, hc⟩ := himg
    rw [show st'.sched.slotBySeq = m' from rfl, hm'] at hc
    split at hc
    · cases hc
    · exact hInv.poolNotImage bs' hbs' ⟨c, hc⟩
  · intro bs' hbs'
    rw [hQ bs', if_neg (fun h => hbs_not_pool (by rw [← h]; exact hbs'))]
    exact hInv.poolQueueEmpty bs' hbs'
  · intro c bs' hc
    rw [show st'.sched.slotBySeq = m' from rfl, hm'] at hc
    split at hc
    · cases hc
    · by_cases hbb : bs' = bs
      · subst hbb
        have hcc : c = r.header.correlationId := hInv.imageInj _ _ _ hc hsb
        subst hcc
        rename_i hcond
        have hend : ¬r.header.seqEnd = true := fun he => hcond ⟨he, rfl⟩
        rw [endPendingAt_append_iff st st' bs' r (by rw [hQ bs', if_pos rfl])]
        exact hend
      · rw [endPendingAt_congr st st' bs' (by rw [hQ bs', if_neg hbb])]
        exact hInv.imageNotEnd _ _ hc
  · intro b s hb hs
    rcases hInv.partition b s hb hs with hpool | ⟨c, hc⟩ | hpend
    · exact Or.inl hpool
    · by_cases hbb : (⟨b, s⟩ : BatchSlot) = bs
      · have hcc : c = r.header.correlationId := hInv.imageInj _ _ _ hc (hbb ▸ hsb)
        subst hcc
        by_cases hend : r.header.seqEnd = true
        · refine Or.inr (Or.inr ?_)
          rw [hbb, endPendingAt_append_iff st st' bs r (by rw [hQ bs, if_pos rfl])]
          exact hend
        · refine Or.inr (Or.inl ⟨r.header.correlationId, ?_⟩)
          rw [show st'.sched.slotBySeq = m' from rfl, hm',
            if_neg (fun h => hend h.1)]
          exact hc
      · have hcne : c ≠ r.header.correlationId := by
          intro h
          subst h
          exact hbb (by rw [hc] at hsb; exact Option.some.inj hsb)
        refine Or.inr (Or.inl ⟨c, ?_⟩)
        rw [show st'.sched.slotBySeq = m' from rfl, hm',
          if_neg (fun h => hcne h.2)]
        exact hc
    · by_cases hbb : (⟨b, s⟩ : BatchSlot) = bs
      · exact absurd (hbb ▸ hpend) (hInv.imageNotEnd _ _ hsb)
      · refine Or.inr (Or.inr ?_)
        rw [endPendingAt_congr st st' ⟨b, s⟩ (by rw [hQ ⟨b, s⟩, if_neg hbb])]
        exact hpend
  · intro bs'
    rw [hQ bs']
    by_cases hbb : bs' = bs
    · rw [if_pos hbb]
      exact endOnlyAtTail_append _ r (hInv.slotEndTail bs) hlastold
    · rw [if_neg hbb]
      exact hInv.slotEndTail bs'
  · exact hInv.backlogEndTail
  · exact hInv.backlogNonempty
  · exact hInv.tagsNodup
  · exact hInv.tagsLt
  · exact hInv.mapToQueue
  · exact hInv.queueToMap

/-- Invariant preservation for `Enqueue` when a ready slot is popped and
bound to the correlation ID (decision-table case 3). -/
theorem inv_enqueue_freshSlot (rc bsz : Nat) (st : SysState) (r : Payload)
    (bs : BatchSlot) (rest : List BatchSlot) (hInv : Inv rc bsz st)
    (hsb : mlookup st.sched.slotBySeq r.header.correlationId = none)
    (hbl : mlookup st.sched.backlogBySeq r.header.correlationId = none)
    (hpool : st.sched.readySlots = bs :: rest) :
    Inv rc bsz
      ⟨{ st.sched with
          slotBySeq :=
            if r.header.seqEnd then
              merase (minsert st.sched.slotBySeq r.header.correlationId bs)
                r.header.correlationId
            else minsert st.sched.slotBySeq r.header.correlationId bs
          readySlots := rest },
        deliver st.batchers bs r⟩ := by
  have hbs_pool : bs ∈ st.sched.readySlots := by
    rw [hpool]
    exact List.mem_cons_self _ _
  obtain ⟨hr1, hr2⟩ := hInv.poolRange bs hbs_pool
  have hblen : bs.batcher < st.batchers.length := by rw [hInv.batchersLen]; exact hr1
  have hqlen : bs.slot < (st.batchers.getD bs.batcher default).queues.length := by
    rw [hInv.queuesLen bs.batcher hr1]; exact hr2
  have hq_empty : queueOf st bs = [] := hInv.poolQueueEmpty bs hbs_pool
  have hbs_not_img : ¬inImage st.sched bs := hInv.poolNotImage bs hbs_pool
  have hnodup : bs ∉ rest ∧ rest.Nodup := by
    have := hInv.poolNodup
    rw [hpool, List.nodup_cons] at this
    exact this
  set m' := if r.header.seqEnd then
      merase (minsert st.sched.slotBySeq r.header.correlationId bs)
        r.header.correlationId
    else minsert st.sched.slotBySeq r.header.correlationId bs with hmdef
  set st' : SysState :=
    ⟨{ st.sched with slotBySeq := m', readySlots := rest },
      deliver st.batchers bs r⟩ with hst'
  have hm' : ∀ c', mlookup m' c' =
      if r.header.seqEnd = true ∧ c' = r.header.correlationId then none
      else if c' = r.header.correlationId then some bs
      else mlookup st.sched.slotBySeq c' := by
    intro c'
    rw [hmdef]
    by_cases hend : r.header.seqEnd = true
    · rw [if_pos hend, mlookup_merase]
      by_cases hc : c' = r.header.correlationId
      · subst hc
        simp [hend]
      · rw [if_neg (fun h => hc h.symm), if_neg (fun h : _ ∧ _ => hc h.2),
          if_neg hc, mlookup_minsert, if_neg (fun h => hc h.symm)]
    · simp only [Bool.not_eq_true] at hend
      rw [hend]
      simp only [Bool.false_eq_true, if_false, false_and]
      rw [mlookup_minsert]
      by_cases hc : c' = r.header.correlationId
      · rw [if_pos hc.symm, if_pos hc]
      · rw [if_neg (fun h => hc h.symm), if_neg hc]
  have hQ : ∀ bs', queueOf st' bs' =
      (if bs' = bs then queueOf st bs ++ [r] else queueOf st bs') :=
    fun bs' => queueOf_deliver st _ bs bs' r hblen hqlen
  have hlastold : ∀ p, (queueOf st bs).getLast? = some p → p.header.seqEnd = false := by
    intro p hp
    rw [hq_empty] at hp
    cases hp
  refine ⟨?_, ?_, ?_, ?_, ?_, ?_, ?_, ?_, ?_, ?_, ?_, ?_, ?_, ?_, ?_, ?_, ?_, ?_, ?_, ?_⟩
  · simp [deliver, hInv.batchersLen]
  · intro i hi
    by_cases hib : i = bs.batcher
    · subst hib
      simp only [deliver, getD_set_self _ _ _ _ hblen, sbEnqueue_queues]
      rw [List.length_set]
      exact hInv.queuesLen _ hi
    · simp only [deliver, getD_set_ne _ _ _ (fun h => hib h.symm)]
      exact hInv.queuesLen i hi
  · intro i hi
    by_cases hib : i = bs.batcher
    · subst hib
      simp only [deliver, getD_set_self _ _ _ _ hblen, sbEnqueue_active]
      rw [List.length_set]
      exact hInv.activeLen _ hi
    · simp only [deliver, getD_set_ne _ _ _ (fun h => hib h.symm)]
      exact hInv.activeLen i hi
  · intro i hi
    by_cases hib : i = bs.batcher
    · subst hib
      simp only [deliver, getD_set_self _ _ _ _ hblen, sbEnqueue_max]
      exact max_lt (hInv.maxLt _ hi) (by rw [Int.ofNat_eq_coe]; exact_mod_cast hr2)
    · simp only [deliver, getD_set_ne _ _ _ (fun h => hib h.symm)]
      exact hInv.maxLt i hi
  · exact hnodup.2
  · intro bs' hbs'
    exact hInv.poolRange bs' (by rw [hpool]; exact List.mem_cons_of_mem _ hbs')
  · intro c bs' hc
    rw [show st'.sched.slotBySeq = m' from rfl, hm'] at hc
    split at hc
    · cases hc
    · split at hc
      · cases hc
        exact ⟨hr1, hr2⟩
      · exact hInv.imageRange _ _ hc
  · intro c c' bs' hc hc'
    rw [show st'.sched.slotBySeq = m' from rfl, hm'] at hc hc'
    by_cases h1 : c = r.header.correlationId <;>
      by_cases h2 : c' = r.header.correlationId
    · rw [h1, h2]
    · have hbs' : bs' = bs := by
        by_cases hend : r.header.seqEnd = true
        · rw [if_pos ⟨hend, h1⟩] at hc
          cases hc
        · rw [if_neg (fun h : _ ∧ _ => hend h.1), if_pos h1] at hc
          exact (Option.some.inj hc).symm
      rw [if_neg (fun h : _ ∧ _ => h2 h.2), if_neg h2] at hc'
      exact absurd ⟨c', hbs' ▸ hc'⟩ hbs_not_img
    · have hbs' : bs' = bs := by
        by_cases hend : r.header.seqEnd = true
        · rw [if_pos ⟨hend, h2⟩] at hc'
          cases hc'
        · rw [if_neg (fun h : _ ∧ _ => hend h.1), if_pos h2] at hc'
          exact (Option.some.inj hc').symm
      rw [if_neg (fun h : _ ∧ _ => h1 h.2), if_neg h1] at hc
      exact absurd ⟨c, hbs' ▸ hc⟩ hbs_not_img
    · rw [if_neg (fun h : _ ∧ _ => h1 h.2), if_neg h1] at hc
      rw [if_neg (fun h : _ ∧ _ => h2 h.2), if_neg h2] at hc'
      exact hInv.imageInj _ _ _ hc hc'
  · intro c tag hc
    rw [show st'.sched.backlogBySeq = st.sched.backlogBySeq from rfl] at hc
    have hcne : c ≠ r.header.correlationId := by
      intro h
      rw [h, hbl] at hc
      cases hc
    rw [show st'.sched.slotBySeq = m' from rfl, hm',
      if_neg (fun h : _ ∧ _ => hcne h.2), if_neg hcne]
    exact hInv.mapsDisjoint _ _ hc
  · intro bs' hbs' himg
    obtain ⟨c, hc⟩ := himg
    rw [show st'.sched.slotBySeq = m' from rfl, hm'] at hc
    split at hc
    · cases hc
    · split at hc
      · cases hc
        exact hnodup.1 hbs'
      · exact hInv.poolNotImage bs'
          (by rw [hpool]; exact List.mem_cons_of_mem _ hbs') ⟨c, hc⟩
  · intro bs' hbs'
    have hne : bs' ≠ bs := fun h => hnodup.1 (h ▸ hbs')
    rw [hQ bs', if_neg hne]
    exact hInv.poolQueueEmpty bs' (by rw [hpool]; exact List.mem_cons_of_mem _ hbs')
  · intro c bs' hc
    rw [show st'.sched.slotBySeq = m' from rfl, hm'] at hc
    by_cases h1 : c = r.header.correlationId
    · by_cases hend : r.header.seqEnd = true
      · rw [if_pos ⟨hend, h1⟩] at hc
        cases hc
      · rw [if_neg (fun h : _ ∧ _ => hend h.1), if_pos h1] at hc
        have hbs' : bs' = bs := (Option.some.inj hc).symm
        subst hbs'
        rw [endPendingAt_append_iff st st' bs' r (by rw [hQ bs', if_pos rfl])]
        exact hend
    · rw [if_neg (fun h : _ ∧ _ => h1 h.2), if_neg h1] at hc
      have hne : bs' ≠ bs := fun h => hbs_not_img (h ▸ ⟨c, hc⟩)
      rw [endPendingAt_congr st st' bs' (by rw [hQ bs', if_neg hne])]
      exact hInv.imageNotEnd _ _ hc
  · intro b s hb hs
    rcases hInv.partition b s hb hs with hpl | ⟨c, hc⟩ | hpend
    · rw [hpool] at hpl
      rcases List.mem_cons.mp hpl with hbb | hrest


      · by_cases hend : r.header.seqEnd = true
        · refine Or.inr (Or.inr ?_)
          rw [hbb, endPendingAt_append_iff st st' bs r (by rw [hQ bs, if_pos rfl])]
          exact hend
        · refine Or.inr (Or.inl ⟨r.header.correlationId, ?_⟩)
          rw [show st'.sched.slotBySeq = m' from rfl, hm',
            if_neg (fun h => hend h.1), if_pos rfl, hbb]
      · exact Or.inl hrest
    · have hne : (⟨b, s⟩ : BatchSlot) ≠ bs := fun h => hbs_not_img (h ▸ ⟨c, hc⟩)
      refine Or.inr (Or.inl ⟨c, ?_⟩)
      have hcne : c ≠ r.header.correlationId := by
        intro h
        rw [h, hsb] at hc
        cases hc
      rw [show st'.sched.slotBySeq = m' from rfl, hm',
        if_neg (fun h : _ ∧ _ => hcne h.2), if_neg hcne]
      exact hc
    · have hne : (⟨b, s⟩ : BatchSlot) ≠ bs := by
        intro h
        obtain ⟨p, hp, -⟩ := hpend
        rw [h, hq_empty] at hp
        cases hp
      refine Or.inr (Or.inr ?_)
      rw [endPendingAt_congr st st' ⟨b, s⟩ (by rw [hQ ⟨b, s⟩, if_neg hne])]
      exact hpend
  · intro bs'
    rw [hQ bs']
    by_cases hbb : bs' = bs
    · rw [if_pos hbb]
      exact endOnlyAtTail_append _ r (hInv.slotEndTail bs) hlastold
    · rw [if_neg hbb]
      exact hInv.slotEndTail bs'
  · exact hInv.backlogEndTail
  · exact hInv.backlogNonempty
  · exact hInv.tagsNodup
  · exact hInv.tagsLt
  · exact hInv.mapToQueue
  · exact hInv.queueToMap

/-- Invariant preservation for `Enqueue` when the correlation ID already
has a backlog queue (decision-table case 2). -/
theorem inv_enqueue_backlogFound (rc bsz : Nat) (st : SysState) (r : Payload)
    (tag : Nat) (hInv : Inv rc bsz st)
    (hbl : mlookup st.sched.backlogBySeq r.header.correlationId = some tag) :
    Inv rc bsz
      { st with sched := { st.sched with
          backlogQueues := appendToTag st.sched.backlogQueues tag r
          backlogBySeq := if r.header.seqEnd then
            merase st.sched.backlogBySeq r.header.correlationId
            else st.sched.backlogBySeq } } := by
  obtain ⟨bq₀, hbq₀mem, hbq₀tag, p₀, hp₀last, hp₀cid, hp₀end⟩ :=
    hInv.mapToQueue _ _ hbl
  have huniq : ∀ bq ∈ st.sched.backlogQueues, bq.tag = tag → bq = bq₀ :=
    fun bq hbq ht =>
      backlog_eq_of_tag_eq _ hInv.tagsNodup hbq hbq₀mem (ht.trans hbq₀tag.symm)
  set bl' := if r.header.seqEnd then
      merase st.sched.backlogBySeq r.header.correlationId
    else st.sched.backlogBySeq with hbldef
  have hblsub : ∀ c t', mlookup bl' c = some t' →
      mlookup st.sched.backlogBySeq c = some t' := by
    intro c t' hc
    rw [hbldef] at hc
    split at hc
    · rw [mlookup_merase] at hc
      split at hc
      · cases hc
      · exact hc
    · exact hc
  refine ⟨hInv.batchersLen, hInv.queuesLen, hInv.activeLen, hInv.maxLt, hInv.poolNodup,
    hInv.poolRange, hInv.imageRange, hInv.imageInj, ?_, hInv.poolNotImage,
    hInv.poolQueueEmpty, hInv.imageNotEnd, hInv.partition, hInv.slotEndTail,
    ?_, ?_, ?_, ?_, ?_, ?_⟩
  · intro c t' hc
    exact hInv.mapsDisjoint _ _ (hblsub _ _ hc)
  · intro bq' hbq'
    obtain ⟨bq, hbq, hform⟩ := (mem_appendToTag _ _ _ _).mp hbq'
    by_cases ht : bq.tag = tag
    · rw [if_pos ht] at hform
      have hbqeq : bq = bq₀ := huniq bq hbq ht
      subst hbqeq
      rw [hform]
      refine endOnlyAtTail_append _ r (hInv.backlogEndTail bq hbq) ?_
      intro p hp
      rw [hp₀last] at hp
      cases Option.some.inj hp
      exact hp₀end
    · rw [if_neg ht] at hform
      rw [hform]
      exact hInv.backlogEndTail bq hbq
  · intro bq' hbq'
    obtain ⟨bq, hbq, hform⟩ := (mem_appendToTag _ _ _ _).mp hbq'
    by_cases ht : bq.tag = tag
    · rw [if_pos ht] at hform
      rw [hform]
      simp
    · rw [if_neg ht] at hform
      rw [hform]
      exact hInv.backlogNonempty bq hbq
  · rw [show ({ st with sched := { st.sched with
        backlogQueues := appendToTag st.sched.backlogQueues tag r
        backlogBySeq := bl' } } : SysState).sched.backlogQueues =
      appendToTag st.sched.backlogQueues tag r from rfl, appendToTag_map_tag]
    exact hInv.tagsNodup
  · intro bq' hbq'
    obtain ⟨bq, hbq, hform⟩ := (mem_appendToTag _ _ _ _).mp hbq'
    have : bq'.tag = bq.tag := by
      by_cases ht : bq.tag = tag <;> rw [hform] <;> simp [ht]
    rw [this]
    exact hInv.tagsLt bq hbq
  · intro c t' hc
    by_cases hcc : c = r.header.correlationId
    · subst hcc
      have hrend : r.header.seqEnd = false := by
        by_cases he : r.header.seqEnd = true
        · rw [hbldef, if_pos he] at hc
          rw [mlookup_merase] at hc
          simp at hc
        · simpa using he
      rw [hbldef, hrend] at hc
      simp only [Bool.false_eq_true, if_false] at hc
      rw [hbl] at hc
      cases Option.some.inj hc
      refine ⟨{ bq₀ with q := bq₀.q ++ [r] }, ?_, hbq₀tag, r, ?_, rfl, hrend⟩
      · rw [mem_appendToTag]
        exact ⟨bq₀, hbq₀mem, by rw [if_pos hbq₀tag]⟩
      · rw [List.getLast?_concat]
    · have hcold := hblsub _ _ hc
      obtain ⟨bq_c, hbq_c, htag_c, pc, hpc_last, hpc_cid, hpc_end⟩ :=
        hInv.mapToQueue _ _ hcold
      have htne : bq_c.tag ≠ tag := by
        intro ht
        have : bq_c = bq₀ := huniq bq_c hbq_c ht
        subst this
        rw [hp₀last] at hpc_last
        cases Option.some.inj hpc_last
        exact hcc (hpc_cid ▸ hp₀cid ▸ rfl)
      refine ⟨bq_c, ?_, htag_c, pc, hpc_last, hpc_cid, hpc_end⟩
      rw [mem_appendToTag]
      exact ⟨bq_c, hbq_c, by rw [if_neg htne]⟩
  · intro bq' hbq' p hplast hpend
    obtain ⟨bq, hbq, hform⟩ := (mem_appendToTag _ _ _ _).mp hbq'
    by_cases ht : bq.tag = tag
    · rw [if_pos ht] at hform
      have hbqeq : bq = bq₀ := huniq bq hbq ht
      subst hbqeq
      subst hform
      simp only [List.getLast?_concat] at hplast
      cases Option.some.inj hplast
      have hrend : r.header.seqEnd = false := hpend
      rw [show ({ st with sched := { st.sched with
          backlogQueues := appendToTag st.sched.backlogQueues tag r
          backlogBySeq := bl' } } : SysState).sched.backlogBySeq = bl' from rfl,
        hbldef, hrend]
      simp only [Bool.false_eq_true, if_false]
      rw [hbl]
      rw [show ({ bq with q := bq.q ++ [r] } : BacklogQueue).tag = bq.tag from rfl, ht]
    · rw [if_neg ht] at hform
      subst hform
      have hold := hInv.queueToMap bq' hbq p hplast hpend
      have hpcne : p.header.correlationId ≠ r.header.correlationId := by
        intro hpc
        rw [hpc, hbl] at hold
        exact ht (Option.some.inj hold).symm
      rw [show ({ st with sched := { st.sched with
          backlogQueues := appendToTag st.sched.backlogQueues tag r
          backlogBySeq := bl' } } : SysState).sched.backlogBySeq = bl' from rfl,
        hbldef]
      split
      · rw [mlookup_merase_ne _ (fun h => hpcne h.symm)]
        exact hold
      · exact hold

/-- Invariant preservation for `Enqueue` when a fresh backlog queue is
created (decision-table case 4). -/
theorem inv_enqueue_freshBacklog (rc bsz : Nat) (st : SysState) (r : Payload)
    (hInv : Inv rc bsz st)
    (hsb : mlookup st.sched.slotBySeq r.header.correlationId = none)
    (hbl : mlookup st.sched.backlogBySeq r.header.correlationId = none) :
    Inv rc bsz
      { st with sched := { st.sched with
          backlogQueues :=
            st.sched.backlogQueues ++ [⟨st.sched.nextTag, [r]⟩]
          backlogBySeq := if r.header.seqEnd then st.sched.backlogBySeq
            else minsert st.sched.backlogBySeq r.header.correlationId
              st.sched.nextTag
          nextTag := st.sched.nextTag + 1 } } := by
  set bl' := if r.header.seqEnd then st.sched.backlogBySeq
    else minsert st.sched.backlogBySeq r.header.correlationId st.sched.nextTag
    with hbldef
  have hbl' : ∀ c, mlookup bl' c =
      if r.header.seqEnd = false ∧ c = r.header.correlationId then
        some st.sched.nextTag
      else mlookup st.sched.backlogBySeq c := by
    intro c
    rw [hbldef]
    by_cases hend : r.header.seqEnd = true
    · rw [if_pos hend, if_neg (fun h : _ ∧ _ => by rw [hend] at h; cases h.1)]
    · simp only [Bool.not_eq_true] at hend
      rw [hend]
      simp only [Bool.false_eq_true, if_false, true_and]
      rw [mlookup_minsert]
      by_cases hc : c = r.header.correlationId
      · rw [if_pos hc.symm, if_pos hc]
      · rw [if_neg (fun h => hc h.symm), if_neg hc]
  refine ⟨hInv.batchersLen, hInv.queuesLen, hInv.activeLen, hInv.maxLt, hInv.poolNodup,
    hInv.poolRange, hInv.imageRange, hInv.imageInj, ?_, hInv.poolNotImage,
    hInv.poolQueueEmpty, hInv.imageNotEnd, hInv.partition, hInv.slotEndTail,
    ?_, ?_, ?_, ?_, ?_, ?_⟩
  · intro c t' hc
    rw [show mlookup bl' c = _ from hbl' c] at hc
    split at hc
    · cases hc
      rename_i hcond
      rw [hcond.2]
      exact hsb
    · exact hInv.mapsDisjoint _ _ hc
  · intro bq' hbq'
    rcases List.mem_append.mp hbq' with h | h
    · exact hInv.backlogEndTail bq' h
    · rw [List.mem_singleton.mp h]
      intro p hp
      simp at hp
  · intro bq' hbq'
    rcases List.mem_append.mp hbq' with h | h
    · exact hInv.backlogNonempty bq' h
    · rw [List.mem_singleton.mp h]
      simp
  · rw [show ({ st with sched := { st.sched with
        backlogQueues := st.sched.backlogQueues ++ [⟨st.sched.nextTag, [r]⟩]
        backlogBySeq := bl'
        nextTag := st.sched.nextTag + 1 } } : SysState).sched.backlogQueues =
          st.sched.backlogQueues ++ [⟨st.sched.nextTag, [r]⟩] from rfl,
      List.map_append]
    rw [List.nodup_append]
    refine ⟨hInv.tagsNodup, List.nodup_singleton _, ?_⟩
    intro t ht ht'
    simp only [List.map_cons, List.map_nil, List.mem_singleton] at ht'
    subst ht'
    obtain ⟨bq, hbq, htag⟩ := List.mem_map.mp ht
    exact absurd (htag ▸ hInv.tagsLt bq hbq) (lt_irrefl _)
  · intro bq' hbq'
    rcases List.mem_append.mp hbq' with h | h
    · exact Nat.lt_succ_of_lt (hInv.tagsLt bq' h)
    · rw [List.mem_singleton.mp h]
      exact Nat.lt_succ_self _
  · intro c t' hc
    rw [show mlookup bl' c = _ from hbl' c] at hc
    split at hc
    · cases hc
      rename_i hcond
      refine ⟨⟨st.sched.nextTag, [r]⟩,
        List.mem_append.mpr (Or.inr (List.mem_singleton_self _)), rfl, r, rfl,
        by rw [hcond.2], hcond.1⟩
    · obtain ⟨bq, hbq, htag, p, hplast, hpcid, hpend⟩ := hInv.mapToQueue _ _ hc
      exact ⟨bq, List.mem_append.mpr (Or.inl hbq), htag, p, hplast, hpcid, hpend⟩
  · intro bq' hbq' p hplast hpend
    rcases List.mem_append.mp hbq' with h | h
    · have hold := hInv.queueToMap bq' h p hplast hpend
      rw [show ({ st with sched := { st.sched with
          backlogQueues := st.sched.backlogQueues ++ [⟨st.sched.nextTag, [r]⟩]
          backlogBySeq := bl'
          nextTag := st.sched.nextTag + 1 } } : SysState).sched.backlogBySeq = bl'
          from rfl, hbl' p.header.correlationId]
      rw [if_neg ?hne]
      · exact hold
      case hne =>
        rintro ⟨-, hpc⟩
        rw [hpc, hbl] at hold
        cases hold
    · rw [List.mem_singleton.mp h] at hplast ⊢
      simp only [List.getLast?_singleton] at hplast
      cases Option.some.inj hplast
      rw [show ({ st with sched := { st.sched with
          backlogQueues := st.sched.backlogQueues ++ [⟨st.sched.nextTag, [r]⟩]
          backlogBySeq := bl'
          nextTag := st.sched.nextTag + 1 } } : SysState).sched.backlogBySeq = bl'
          from rfl, hbl' r.header.correlationId, if_pos ⟨hpend, rfl⟩]

/-- The scheduler invariant is preserved by every `Enqueue` call. -/
theorem inv_enqueue (rc bsz : Nat) (st : SysState) (r : Payload)
    (hInv : Inv rc bsz st) : Inv rc bsz (schedulerEnqueue st r).2 := by
  by_cases h1 : r.header.batchSize ≠ 1
  · rw [show (schedulerEnqueue st r).2 = st from by simp [schedulerEnqueue, h1]]
    exact hInv
  · have hbs : r.header.batchSize = 1 := not_ne_iff.mp h1
    by_cases h2 : r.header.correlationId = 0
    · rw [show (schedulerEnqueue st r).2 = st from by simp [schedulerEnqueue, hbs, h2]]
      exact hInv
    · cases hsb : mlookup st.sched.slotBySeq r.header.correlationId with
      | some bs =>
        rw [show (schedulerEnqueue st r).2 =
            ⟨{ st.sched with slotBySeq :=
                if r.header.seqEnd then merase st.sched.slotBySeq r.header.correlationId
                else st.sched.slotBySeq },
              deliver st.batchers bs r⟩ from by
          simp [schedulerEnqueue, hbs, h2, hsb]]
        exact inv_enqueue_slotFound rc bsz st r bs hInv hsb
      | none =>
        cases hbl : mlookup st.sched.backlogBySeq r.header.correlationId with
        | some tag =>
          rw [show (schedulerEnqueue st r).2 =
              { st with sched := { st.sched with
                  backlogQueues := appendToTag st.sched.backlogQueues tag r
                  backlogBySeq := if r.header.seqEnd then
                    merase st.sched.backlogBySeq r.header.correlationId
                    else st.sched.backlogBySeq } } from by
            simp [schedulerEnqueue, hbs, h2, hsb, hbl]]
          exact inv_enqueue_backlogFound rc bsz st r tag hInv hbl
        | none =>
          by_cases hstart : r.header.seqStart = true
          · cases hpool : st.sched.readySlots with
            | cons bs rest =>
              rw [show (schedulerEnqueue st r).2 =
                  ⟨{ st.sched with
                      slotBySeq :=
                        if r.header.seqEnd then merase (minsert st.sched.slotBySeq r.header.correlationId bs) r.header.correlationId
                        else minsert st.sched.slotBySeq r.header.correlationId bs
                      readySlots := rest },
                    deliver st.batchers bs r⟩ from by
                simp [schedulerEnqueue, hbs, h2, hsb, hbl, hpool, hstart]]
              exact inv_enqueue_freshSlot rc bsz st r bs rest hInv hsb hbl hpool
            | nil =>
              rw [show (schedulerEnqueue st r).2 =
                  { st with sched := { st.sched with
                      backlogQueues :=
                        st.sched.backlogQueues ++ [⟨st.sched.nextTag, [r]⟩]
                      backlogBySeq := if r.header.seqEnd then st.sched.backlogBySeq
                        else minsert st.sched.backlogBySeq r.header.correlationId
                          st.sched.nextTag
                      nextTag := st.sched.nextTag + 1 } } from by
                simp [schedulerEnqueue, hbs, h2, hsb, hbl, hpool, hstart]]
              exact inv_enqueue_freshBacklog rc bsz st r hInv hsb hbl
          · have hstf : r.header.seqStart = false := by
              simpa using hstart
            rw [show (schedulerEnqueue st r).2 = st from by
              simp [schedulerEnqueue, hbs, h2, hsb, hbl, hstf]]
            exact hInv

/-- The full system state at an intermediate point of the assembly loop
of batcher `bIdx`: the facade state is the loop's, and batcher `bIdx`'s
queues and activity bitmap are the loop's.  `m` is the batcher's
`max_active_slot_`, which the loop reads but rewrites only at its end. -/
def sysOfAcc (st0 : SysState) (bIdx : Nat) (m : Int) (acc : SweepAcc) : SysState :=
  { sched := acc.sched
    batchers := st0.batchers.set bIdx
      { queues := acc.queues, activeSlots := acc.active
        maxActiveSlot := m
        nullHeader := (st0.batchers.getD bIdx default).nullHeader } }

theorem sysOfAcc_getD_ne (st0 : SysState) (bIdx : Nat) (m : Int) (acc : SweepAcc)
    (i : Nat) (h : i ≠ bIdx) :
    (sysOfAcc st0 bIdx m acc).batchers.getD i default =
      st0.batchers.getD i default :=
  getD_set_ne _ _ _ (fun hh => h hh.symm)

theorem sysOfAcc_getD_self (st0 : SysState) (bIdx : Nat) (m : Int) (acc : SweepAcc)
    (hb : bIdx < st0.batchers.length) :
    (sysOfAcc st0 bIdx m acc).batchers.getD bIdx default =
      ⟨acc.queues, acc.active, m, (st0.batchers.getD bIdx default).nullHeader⟩ :=
  getD_set_self _ _ _ _ hb

theorem queueOf_sysOfAcc (st0 : SysState) (bIdx : Nat) (m : Int) (acc : SweepAcc)
    (bs : BatchSlot) (hb : bIdx < st0.batchers.length) :
    queueOf (sysOfAcc st0 bIdx m acc) bs =
      if bs.batcher = bIdx then acc.queues.getD bs.slot [] else queueOf st0 bs := by
  by_cases h : bs.batcher = bIdx
  · rw [if_pos h]
    unfold queueOf
    rw [h, sysOfAcc_getD_self st0 bIdx m acc hb]
  · rw [if_neg h]
    unfold queueOf
    rw [sysOfAcc_getD_ne st0 bIdx m acc _ h]

/-- The dimension fields of the invariant transfer between two loop
states whose queue and bitmap lists have the same lengths. -/
theorem inv_shape_transfer (rc bsz : Nat) (st0 : SysState) (bIdx : Nat) (m : Int)
    (acc acc' : SweepAcc) (hb : bIdx < st0.batchers.length)
    (hInv : Inv rc bsz (sysOfAcc st0 bIdx m acc))
    (hq : acc'.queues.length = acc.queues.length)
    (ha : acc'.active.length = acc.active.length) :
    ((sysOfAcc st0 bIdx m acc').batchers.length = rc) ∧
    (∀ i, i < rc →
      ((sysOfAcc st0 bIdx m acc').batchers.getD i default).queues.length = bsz) ∧
    (∀ i, i < rc →
      ((sysOfAcc st0 bIdx m acc').batchers.getD i default).activeSlots.length = bsz) ∧
    (∀ i, i < rc →
      ((sysOfAcc st0 bIdx m acc').batchers.getD i default).maxActiveSlot < (bsz : Int)) := by
  refine ⟨?_, ?_, ?_, ?_⟩
  · have := hInv.batchersLen
    simpa [sysOfAcc] using this
  · intro i hi
    by_cases hib : i = bIdx
    · subst hib
      rw [sysOfAcc_getD_self st0 i m acc' hb]
      have := hInv.queuesLen i hi
      rw [sysOfAcc_getD_self st0 i m acc hb] at this
      rw [show (⟨acc'.queues, acc'.active, m,
          (st0.batchers.getD i default).nullHeader⟩ : BatchState).queues =
        acc'.queues from rfl, hq]
      exact this
    · rw [sysOfAcc_getD_ne st0 bIdx m acc' i hib]
      have := hInv.queuesLen i hi
      rw [sysOfAcc_getD_ne st0 bIdx m acc i hib] at this
      exact this
  · intro i hi
    by_cases hib : i = bIdx
    · subst hib
      rw [sysOfAcc_getD_self st0 i m acc' hb]
      have := hInv.activeLen i hi
      rw [sysOfAcc_getD_self st0 i m acc hb] at this
      rw [show (⟨acc'.queues, acc'.active, m,
          (st0.batchers.getD i default).nullHeader⟩ : BatchState).activeSlots =
        acc'.active from rfl, ha]
      exact this
    · rw [sysOfAcc_getD_ne st0 bIdx m acc' i hib]
      have := hInv.activeLen i hi
      rw [sysOfAcc_getD_ne st0 bIdx m acc i hib] at this
      exact this
  · intro i hi
    by_cases hib : i = bIdx
    · subst hib
      rw [sysOfAcc_getD_self st0 i m acc' hb]
      have := hInv.maxLt i hi
      rw [sysOfAcc_getD_self st0 i m acc hb] at this
      exact this
    · rw [sysOfAcc_getD_ne st0 bIdx m acc' i hib]
      have := hInv.maxLt i hi
      rw [sysOfAcc_getD_ne st0 bIdx m acc i hib] at this
      exact this

theorem processSlot_eq_nil (bIdx : Nat) (nullh : Option ReqHeader) (maxAct : Int)
    (acc : SweepAcc) (s : Nat) (hq : acc.queues.getD s [] = []) :
    processSlot bIdx nullh maxAct acc s = (acc, .null nullh .notReady) := by
  unfold processSlot
  rw [hq]

theorem processSlot_eq_noEnd (bIdx : Nat) (nullh : Option ReqHeader) (maxAct : Int)
    (acc : SweepAcc) (s : Nat) (p : Payload) (restq : Queue)
    (hq : acc.queues.getD s [] = p :: restq) (hend : p.header.seqEnd = false) :
    processSlot bIdx nullh maxAct acc s =
      ({ acc with queues := acc.queues.set s restq },
        .real p (if p.header.seqStart then Override.start else Override.cont)) := by
  unfold processSlot
  rw [hq]
  simp [hend]

theorem processSlot_eq_end (bIdx : Nat) (nullh : Option ReqHeader) (maxAct : Int)
    (acc : SweepAcc) (s : Nat) (p : Payload) (restq : Queue)
    (hq : acc.queues.getD s [] = p :: restq) (hend : p.header.seqEnd = true) :
    processSlot bIdx nullh maxAct acc s =
      ({ sched := (releaseBatchSlot acc.sched ⟨bIdx, s⟩ restq).sched
         queues := acc.queues.set s (releaseBatchSlot acc.sched ⟨bIdx, s⟩ restq).payloads
         active := if (releaseBatchSlot acc.sched ⟨bIdx, s⟩ restq).returnedToPool then
             acc.active.set s false else acc.active
         adjust := acc.adjust ∨
           ((releaseBatchSlot acc.sched ⟨bIdx, s⟩ restq).returnedToPool ∧
             Int.ofNat s = maxAct) },
        .real p (if p.header.seqStart then Override.start else Override.cont)) := by
  unfold processSlot
  rw [hq]
  simp [hend]

theorem releaseBatchSlot_eq_nil (sched : SchedState) (bs : BatchSlot) (q : Queue)
    (h : sched.backlogQueues = []) :
    releaseBatchSlot sched bs q =
      { returnedToPool := true
        sched := { sched with readySlots := bs :: sched.readySlots }
        payloads := q, loggedConflict := false } := by
  unfold releaseBatchSlot
  rw [h]

theorem releaseBatchSlot_eq_end (sched : SchedState) (bs : BatchSlot) (q : Queue)
    (head : BacklogQueue) (rest : List BacklogQueue) (pe : Payload)
    (h : sched.backlogQueues = head :: rest) (hlast : head.q.getLast? = some pe)
    (hpe : pe.header.seqEnd = true) :
    releaseBatchSlot sched bs q =
      { returnedToPool := false
        sched := { sched with backlogQueues := rest }
        payloads := head.q, loggedConflict := false } := by
  unfold releaseBatchSlot
  rw [h]
  simp only [hlast, hpe, if_true]

theorem releaseBatchSlot_eq_bind (sched : SchedState) (bs : BatchSlot) (q : Queue)
    (head : BacklogQueue) (rest : List BacklogQueue) (pe : Payload)
    (h : sched.backlogQueues = head :: rest) (hlast : head.q.getLast? = some pe)
    (hpe : pe.header.seqEnd = false) :
    releaseBatchSlot sched bs q =
      { returnedToPool := false
        sched := { sched with
          backlogQueues := rest
          backlogBySeq := merase sched.backlogBySeq pe.header.correlationId
          slotBySeq := minsert sched.slotBySeq pe.header.correlationId bs }
        payloads := head.q
        loggedConflict := (mlookup sched.slotBySeq pe.header.correlationId).isSome } := by
  unfold releaseBatchSlot
  rw [h]
  simp only [hlast, hpe]
  simp

theorem queueOf_sysOfAcc_set (st0 : SysState) (bIdx : Nat) (m : Int) (acc : SweepAcc)
    (s : Nat) (newq : Queue) (sched' : SchedState) (act' : List Bool) (adj : Bool)
    (bs : BatchSlot) (hb : bIdx < st0.batchers.length) (hslen : s < acc.queues.length) :
    queueOf (sysOfAcc st0 bIdx m ⟨sched', acc.queues.set s newq, act', adj⟩) bs =
      if bs = ⟨bIdx, s⟩ then newq
      else queueOf (sysOfAcc st0 bIdx m acc) bs := by
  rw [queueOf_sysOfAcc st0 bIdx m _ bs hb, queueOf_sysOfAcc st0 bIdx m acc bs hb]
  by_cases hbb : bs.batcher = bIdx
  · rw [if_pos hbb, if_pos hbb]
    by_cases hss : bs.slot = s
    · rw [if_pos (by cases bs; simp_all), hss, getD_set_self _ _ _ _ hslen]
    · rw [if_neg (by intro h; cases h; exact hss rfl),
        getD_set_ne _ _ _ (fun h => hss h.symm)]
  · rw [if_neg hbb, if_neg hbb, if_neg (by intro h; cases h; exact hbb rfl)]

/-- Invariant preservation when the assembly loop pops a non-END payload
from slot `s`. -/
theorem inv_pop_noEnd (rc bsz : Nat) (st0 : SysState) (bIdx : Nat) (m : Int)
    (acc : SweepAcc) (s : Nat) (p : Payload) (restq : Queue)
    (hbrc : bIdx < rc) (hs : s < bsz)
    (hInv : Inv rc bsz (sysOfAcc st0 bIdx m acc))
    (hq : acc.queues.getD s [] = p :: restq) (hend : p.header.seqEnd = false) :
    Inv rc bsz
      (sysOfAcc st0 bIdx m { acc with queues := acc.queues.set s restq }) := by
  have hb : bIdx < st0.batchers.length := by
    have := hInv.batchersLen
    simp only [sysOfAcc, List.length_set] at this
    omega
  have hlenq : acc.queues.length = bsz := by
    have := hInv.queuesLen bIdx hbrc
    rw [sysOfAcc_getD_self st0 bIdx m acc hb] at this
    exact this
  have hslen : s < acc.queues.length := by omega
  have hQA : ∀ bs, queueOf (sysOfAcc st0 bIdx m acc) bs =
      if bs.batcher = bIdx then acc.queues.getD bs.slot [] else queueOf st0 bs :=
    fun bs => queueOf_sysOfAcc st0 bIdx m acc bs hb
  have hqA : queueOf (sysOfAcc st0 bIdx m acc) ⟨bIdx, s⟩ = p :: restq := by
    rw [hQA ⟨bIdx, s⟩, if_pos rfl]
    exact hq
  have hQB : ∀ bs,
      queueOf (sysOfAcc st0 bIdx m { acc with queues := acc.queues.set s restq }) bs =
        (if bs = ⟨bIdx, s⟩ then restq else queueOf (sysOfAcc st0 bIdx m acc) bs) :=
    fun bs => queueOf_sysOfAcc_set st0 bIdx m acc s restq acc.sched acc.active
      acc.adjust bs hb hslen
  have hnotpool : (⟨bIdx, s⟩ : BatchSlot) ∉ acc.sched.readySlots := by
    intro hmem
    have := hInv.poolQueueEmpty _ hmem
    rw [hqA] at this
    cases this
  obtain ⟨hshape1, hshape2, hshape3, hshape4⟩ :=
    inv_shape_transfer rc bsz st0 bIdx m acc { acc with queues := acc.queues.set s restq }
      hb hInv (by simp) rfl
  refine ⟨hshape1, hshape2, hshape3, hshape4, hInv.poolNodup, hInv.poolRange,
    hInv.imageRange, hInv.imageInj, hInv.mapsDisjoint, hInv.poolNotImage, ?_, ?_, ?_, ?_,
    hInv.backlogEndTail, hInv.backlogNonempty, hInv.tagsNodup, hInv.tagsLt,
    hInv.mapToQueue, hInv.queueToMap⟩
  · intro bs' hbs'
    have hne : bs' ≠ ⟨bIdx, s⟩ := fun h => hnotpool (h ▸ hbs')
    rw [hQB bs', if_neg hne]
    exact hInv.poolQueueEmpty bs' hbs'
  · intro c bs' hc
    by_cases hbb : bs' = (⟨bIdx, s⟩ : BatchSlot)
    · subst hbb
      intro hpend
      obtain ⟨pl, hl, hePl⟩ := hpend
      rw [hQB] at hl
      rw [if_pos rfl] at hl
      have hrne : restq ≠ [] := by
        intro hr
        rw [hr] at hl
        cases hl
      exact hInv.imageNotEnd _ _ hc
        ⟨pl, by rw [hqA, getLast?_cons_of_ne_nil p restq hrne]; exact hl, hePl⟩
    · rw [endPendingAt_congr (sysOfAcc st0 bIdx m acc) _ bs' (by rw [hQB bs', if_neg hbb])]
      exact hInv.imageNotEnd _ _ hc
  · intro b s' hb' hs'
    rcases hInv.partition b s' hb' hs' with hpl | himg | hpend
    · exact Or.inl hpl
    · exact Or.inr (Or.inl himg)
    · by_cases hbb : (⟨b, s'⟩ : BatchSlot) = ⟨bIdx, s⟩
      · obtain ⟨pl, hl, hePl⟩ := hpend
        rw [hbb, hqA] at hl
        by_cases hrq : restq = []
        · rw [hrq] at hl
          simp only [List.getLast?_singleton] at hl
          cases Option.some.inj hl
          rw [hend] at hePl
          cases hePl
        · refine Or.inr (Or.inr ⟨pl, ?_, hePl⟩)
          rw [hQB ⟨b, s'⟩, if_pos hbb]
          rw [getLast?_cons_of_ne_nil p _ hrq] at hl
          exact hl
      · refine Or.inr (Or.inr ?_)
        rw [endPendingAt_congr (sysOfAcc st0 bIdx m acc) _ ⟨b, s'⟩
          (by rw [hQB ⟨b, s'⟩, if_neg hbb])]
        exact hpend
  · intro bs'
    rw [hQB bs']
    by_cases hbb : bs' = (⟨bIdx, s⟩ : BatchSlot)
    · rw [if_pos hbb]
      have := hInv.slotEndTail ⟨bIdx, s⟩
      rw [hqA] at this
      exact endOnlyAtTail_tail p restq this
    · rw [if_neg hbb]
      exact hInv.slotEndTail bs'

/-- Invariant preservation when an END payload is consumed and the slot
is returned to the pool (backlog empty). -/
theorem inv_release_toPool (rc bsz : Nat) (st0 : SysState) (bIdx : Nat) (m : Int)
    (acc : SweepAcc) (s : Nat) (p : Payload) (restq : Queue) (adj : Bool)
    (hbrc : bIdx < rc) (hs : s < bsz)
    (hInv : Inv rc bsz (sysOfAcc st0 bIdx m acc))
    (hq : acc.queues.getD s [] = p :: restq) (hend : p.header.seqEnd = true)
    (hbl : acc.sched.backlogQueues = []) :
    Inv rc bsz
      (sysOfAcc st0 bIdx m
        ⟨{ acc.sched with readySlots := ⟨bIdx, s⟩ :: acc.sched.readySlots },
          acc.queues.set s restq, acc.active.set s false, adj⟩) := by
  have hb : bIdx < st0.batchers.length := by
    have := hInv.batchersLen
    simp only [sysOfAcc, List.length_set] at this
    omega
  have hlenq : acc.queues.length = bsz := by
    have := hInv.queuesLen bIdx hbrc
    rw [sysOfAcc_getD_self st0 bIdx m acc hb] at this
    exact this
  have hslen : s < acc.queues.length := by omega
  have hQA : ∀ bs, queueOf (sysOfAcc st0 bIdx m acc) bs =
      if bs.batcher = bIdx then acc.queues.getD bs.slot [] else queueOf st0 bs :=
    fun bs => queueOf_sysOfAcc st0 bIdx m acc bs hb
  have hqA : queueOf (sysOfAcc st0 bIdx m acc) ⟨bIdx, s⟩ = p :: restq := by
    rw [hQA ⟨bIdx, s⟩, if_pos rfl]
    exact hq
  have hTail : endOnlyAtTail (p :: restq) := by
    have := hInv.slotEndTail ⟨bIdx, s⟩
    rw [hqA] at this
    exact this
  have hrest : restq = [] := eq_single_of_head_end p restq hTail hend
  have hpend : endPendingAt (sysOfAcc st0 bIdx m acc) ⟨bIdx, s⟩ := by
    refine ⟨p, ?_, hend⟩
    rw [hqA, hrest]
    rfl
  have hnotimg : ¬inImage (sysOfAcc st0 bIdx m acc).sched ⟨bIdx, s⟩ :=
    fun ⟨c, hc⟩ => hInv.imageNotEnd c _ hc hpend
  have hnotpool : (⟨bIdx, s⟩ : BatchSlot) ∉ acc.sched.readySlots := by
    intro hmem
    have := hInv.poolQueueEmpty _ hmem
    rw [hqA] at this
    cases this
  have hQB : ∀ bs,
      queueOf (sysOfAcc st0 bIdx m
        ⟨{ acc.sched with readySlots := ⟨bIdx, s⟩ :: acc.sched.readySlots },
          acc.queues.set s restq, acc.active.set s false, adj⟩) bs =
        (if bs = ⟨bIdx, s⟩ then restq else queueOf (sysOfAcc st0 bIdx m acc) bs) :=
    fun bs => queueOf_sysOfAcc_set st0 bIdx m acc s restq _ _ adj bs hb hslen
  obtain ⟨hshape1, hshape2, hshape3, hshape4⟩ :=
    inv_shape_transfer rc bsz st0 bIdx m acc
      ⟨{ acc.sched with readySlots := ⟨bIdx, s⟩ :: acc.sched.readySlots },
        acc.queues.set s restq, acc.active.set s false, adj⟩
      hb hInv (by simp) (by simp)
  refine ⟨hshape1, hshape2, hshape3, hshape4, ?_, ?_, hInv.imageRange, hInv.imageInj,
    hInv.mapsDisjoint, ?_, ?_, ?_, ?_, ?_,
    hInv.backlogEndTail, hInv.backlogNonempty, hInv.tagsNodup, hInv.tagsLt,
    hInv.mapToQueue, hInv.queueToMap⟩
  · exact List.nodup_cons.mpr ⟨hnotpool, hInv.poolNodup⟩
  · intro bs' hbs'
    rcases List.mem_cons.mp hbs' with h | h
    · subst h
      exact ⟨hbrc, hs⟩
    · exact hInv.poolRange bs' h
  · intro bs' hbs'
    rcases List.mem_cons.mp hbs' with h | h
    · subst h
      exact hnotimg
    · exact hInv.poolNotImage bs' h
  · intro bs' hbs'
    rcases List.mem_cons.mp hbs' with h | h
    · rw [hQB bs', if_pos h]
      exact hrest
    · have hne : bs' ≠ ⟨bIdx, s⟩ := fun hh => hnotpool (hh ▸ h)
      rw [hQB bs', if_neg hne]
      exact hInv.poolQueueEmpty bs' h
  · intro c bs' hc
    by_cases hbb : bs' = (⟨bIdx, s⟩ : BatchSlot)
    · exact absurd ⟨c, hc⟩ (hbb ▸ hnotimg)
    · rw [endPendingAt_congr (sysOfAcc st0 bIdx m acc) _ bs'
        (by rw [hQB bs', if_neg hbb])]
      exact hInv.imageNotEnd _ _ hc
  · intro b s' hb' hs'
    rcases hInv.partition b s' hb' hs' with hpl | himg | hpend'
    · exact Or.inl (List.mem_cons_of_mem _ hpl)
    · exact Or.inr (Or.inl himg)
    · by_cases hbb : (⟨b, s'⟩ : BatchSlot) = ⟨bIdx, s⟩
      · rw [hbb]
        exact Or.inl (List.mem_cons_self _ _)
      · refine Or.inr (Or.inr ?_)
        rw [endPendingAt_congr (sysOfAcc st0 bIdx m acc) _ ⟨b, s'⟩
          (by rw [hQB ⟨b, s'⟩, if_neg hbb])]
        exact hpend'
  · intro bs'
    rw [hQB bs']
    by_cases hbb : bs' = (⟨bIdx, s⟩ : BatchSlot)
    · rw [if_pos hbb, hrest]
      exact endOnlyAtTail_nil
    · rw [if_neg hbb]
      exact hInv.slotEndTail bs'

/-- Invariant preservation when an END payload is consumed and the head
backlog queue — itself ending in an END — is transplanted into the slot. -/
theorem inv_release_transplantEnd (rc bsz : Nat) (st0 : SysState) (bIdx : Nat)
    (m : Int) (acc : SweepAcc) (s : Nat) (p : Payload) (restq : Queue) (adj : Bool)
    (head : BacklogQueue) (rest2 : List BacklogQueue) (pe : Payload)
    (hbrc : bIdx < rc) (hs : s < bsz)
    (hInv : Inv rc bsz (sysOfAcc st0 bIdx m acc))
    (hq : acc.queues.getD s [] = p :: restq) (hend : p.header.seqEnd = true)
    (hbl : acc.sched.backlogQueues = head :: rest2)
    (hlast : head.q.getLast? = some pe) (hpe : pe.header.seqEnd = true) :
    Inv rc bsz
      (sysOfAcc st0 bIdx m
        ⟨{ acc.sched with backlogQueues := rest2 },
          acc.queues.set s head.q, acc.active, adj⟩) := by
  have hb : bIdx < st0.batchers.length := by
    have := hInv.batchersLen
    simp only [sysOfAcc, List.length_set] at this
    omega
  have hlenq : acc.queues.length = bsz := by
    have := hInv.queuesLen bIdx hbrc
    rw [sysOfAcc_getD_self st0 bIdx m acc hb] at this
    exact this
  have hslen : s < acc.queues.length := by omega
  have hQA : ∀ bs, queueOf (sysOfAcc st0 bIdx m acc) bs =
      if bs.batcher = bIdx then acc.queues.getD bs.slot [] else queueOf st0 bs :=
    fun bs => queueOf_sysOfAcc st0 bIdx m acc bs hb
  have hqA : queueOf (sysOfAcc st0 bIdx m acc) ⟨bIdx, s⟩ = p :: restq := by
    rw [hQA ⟨bIdx, s⟩, if_pos rfl]
    exact hq
  have hpend : endPendingAt (sysOfAcc st0 bIdx m acc) ⟨bIdx, s⟩ := by
    refine ⟨p, ?_, hend⟩
    have hTail : endOnlyAtTail (p :: restq) := by
      have := hInv.slotEndTail ⟨bIdx, s⟩
      rw [hqA] at this
      exact this
    rw [hqA, eq_single_of_head_end p restq hTail hend]
    rfl
  have hnotimg : ¬inImage (sysOfAcc st0 bIdx m acc).sched ⟨bIdx, s⟩ :=
    fun ⟨c, hc⟩ => hInv.imageNotEnd c _ hc hpend
  have hnotpool : (⟨bIdx, s⟩ : BatchSlot) ∉ acc.sched.readySlots := by
    intro hmem
    have := hInv.poolQueueEmpty _ hmem
    rw [hqA] at this
    cases this
  have hheadmem : head ∈ acc.sched.backlogQueues := by
    rw [hbl]
    exact List.mem_cons_self _ _
  have hQB : ∀ bs,
      queueOf (sysOfAcc st0 bIdx m
        ⟨{ acc.sched with backlogQueues := rest2 },
          acc.queues.set s head.q, acc.active, adj⟩) bs =
        (if bs = ⟨bIdx, s⟩ then head.q else queueOf (sysOfAcc st0 bIdx m acc) bs) :=
    fun bs => queueOf_sysOfAcc_set st0 bIdx m acc s head.q _ _ adj bs hb hslen
  obtain ⟨hshape1, hshape2, hshape3, hshape4⟩ :=
    inv_shape_transfer rc bsz st0 bIdx m acc
      ⟨{ acc.sched with backlogQueues := rest2 },
        acc.queues.set s head.q, acc.active, adj⟩
      hb hInv (by simp) rfl
  have htagsnodup : ((head :: rest2).map BacklogQueue.tag).Nodup := by
    have := hInv.tagsNodup
    rw [show (sysOfAcc st0 bIdx m acc).sched.backlogQueues =
        acc.sched.backlogQueues from rfl, hbl] at this
    exact this
  refine ⟨hshape1, hshape2, hshape3, hshape4, hInv.poolNodup, hInv.poolRange,
    hInv.imageRange, hInv.imageInj, hInv.mapsDisjoint, hInv.poolNotImage, ?_, ?_, ?_, ?_,
    ?_, ?_, ?_, ?_, ?_, ?_⟩
  · intro bs' hbs'
    have hne : bs' ≠ ⟨bIdx, s⟩ := fun h => hnotpool (h ▸ hbs')
    rw [hQB bs', if_neg hne]
    exact hInv.poolQueueEmpty bs' hbs'
  · intro c bs' hc
    by_cases hbb : bs' = (⟨bIdx, s⟩ : BatchSlot)
    · exact absurd ⟨c, hc⟩ (hbb ▸ hnotimg)
    · rw [endPendingAt_congr (sysOfAcc st0 bIdx m acc) _ bs'
        (by rw [hQB bs', if_neg hbb])]
      exact hInv.imageNotEnd _ _ hc
  · intro b s' hb' hs'
    rcases hInv.partition b s' hb' hs' with hpl | himg | hpend'
    · exact Or.inl hpl
    · exact Or.inr (Or.inl himg)
    · by_cases hbb : (⟨b, s'⟩ : BatchSlot) = ⟨bIdx, s⟩
      · refine Or.inr (Or.inr ⟨pe, ?_, hpe⟩)
        rw [hQB ⟨b, s'⟩, if_pos hbb]
        exact hlast
      · refine Or.inr (Or.inr ?_)
        rw [endPendingAt_congr (sysOfAcc st0 bIdx m acc) _ ⟨b, s'⟩
          (by rw [hQB ⟨b, s'⟩, if_neg hbb])]
        exact hpend'
  · intro bs'
    rw [hQB bs']
    by_cases hbb : bs' = (⟨bIdx, s⟩ : BatchSlot)
    · rw [if_pos hbb]
      exact hInv.backlogEndTail head hheadmem
    · rw [if_neg hbb]
      exact hInv.slotEndTail bs'
  · intro bq hbq
    exact hInv.backlogEndTail bq (by show _ ∈ acc.sched.backlogQueues; rw [hbl]; exact List.mem_cons_of_mem _ hbq)
  · intro bq hbq
    exact hInv.backlogNonempty bq (by show _ ∈ acc.sched.backlogQueues; rw [hbl]; exact List.mem_cons_of_mem _ hbq)
  · exact (List.nodup_cons.mp htagsnodup).2
  · intro bq hbq
    exact hInv.tagsLt bq (by show _ ∈ acc.sched.backlogQueues; rw [hbl]; exact List.mem_cons_of_mem _ hbq)
  · intro c tag hc
    obtain ⟨bq, hbq, htag, pc, hpclast, hpccid, hpcend⟩ := hInv.mapToQueue c tag hc
    rw [show (sysOfAcc st0 bIdx m acc).sched.backlogQueues =
        acc.sched.backlogQueues from rfl, hbl] at hbq
    rcases List.mem_cons.mp hbq with hh | hh
    · subst hh
      rw [hlast] at hpclast
      cases Option.some.inj hpclast
      rw [hpe] at hpcend
      cases hpcend
    · exact ⟨bq, hh, htag, pc, hpclast, hpccid, hpcend⟩
  · intro bq hbq pc hpclast hpcend
    exact hInv.queueToMap bq (by show _ ∈ acc.sched.backlogQueues; rw [hbl]; exact List.mem_cons_of_mem _ hbq)
      pc hpclast hpcend

/-- Invariant preservation when an END payload is consumed and the head
backlog queue — whose sequence continues — is transplanted and its
correlation ID re-bound to the slot. -/
theorem inv_release_transplantBind (rc bsz : Nat) (st0 : SysState) (bIdx : Nat)
    (m : Int) (acc : SweepAcc) (s : Nat) (p : Payload) (restq : Queue) (adj : Bool)
    (head : BacklogQueue) (rest2 : List BacklogQueue) (pe : Payload)
    (hbrc : bIdx < rc) (hs : s < bsz)
    (hInv : Inv rc bsz (sysOfAcc st0 bIdx m acc))
    (hq : acc.queues.getD s [] = p :: restq) (hend : p.header.seqEnd = true)
    (hbl : acc.sched.backlogQueues = head :: rest2)
    (hlast : head.q.getLast? = some pe) (hpe : pe.header.seqEnd = false) :
    Inv rc bsz
      (sysOfAcc st0 bIdx m
        ⟨{ acc.sched with
            backlogQueues := rest2
            backlogBySeq := merase acc.sched.backlogBySeq pe.header.correlationId
            slotBySeq := minsert acc.sched.slotBySeq pe.header.correlationId
              ⟨bIdx, s⟩ },
          acc.queues.set s head.q, acc.active, adj⟩) := by
  have hb : bIdx < st0.batchers.length := by
    have := hInv.batchersLen
    simp only [sysOfAcc, List.length_set] at this
    omega
  have hlenq : acc.queues.length = bsz := by
    have := hInv.queuesLen bIdx hbrc
    rw [sysOfAcc_getD_self st0 bIdx m acc hb] at this
    exact this
  have hslen : s < acc.queues.length := by omega
  have hQA : ∀ bs, queueOf (sysOfAcc st0 bIdx m acc) bs =
      if bs.batcher = bIdx then acc.queues.getD bs.slot [] else queueOf st0 bs :=
    fun bs => queueOf_sysOfAcc st0 bIdx m acc bs hb
  have hqA : queueOf (sysOfAcc st0 bIdx m acc) ⟨bIdx, s⟩ = p :: restq := by
    rw [hQA ⟨bIdx, s⟩, if_pos rfl]
    exact hq
  have hpend : endPendingAt (sysOfAcc st0 bIdx m acc) ⟨bIdx, s⟩ := by
    refine ⟨p, ?_, hend⟩
    have hTail : endOnlyAtTail (p :: restq) := by
      have := hInv.slotEndTail ⟨bIdx, s⟩
      rw [hqA] at this
      exact this
    rw [hqA, eq_single_of_head_end p restq hTail hend]
    rfl
  have hnotimg : ¬inImage (sysOfAcc st0 bIdx m acc).sched ⟨bIdx, s⟩ :=
    fun ⟨c, hc⟩ => hInv.imageNotEnd c _ hc hpend
  have hnotpool : (⟨bIdx, s⟩ : BatchSlot) ∉ acc.sched.readySlots := by
    intro hmem
    have := hInv.poolQueueEmpty _ hmem
    rw [hqA] at this
    cases this
  have hheadmem : head ∈ acc.sched.backlogQueues := by
    rw [hbl]
    exact List.mem_cons_self _ _
  have hblce : mlookup acc.sched.backlogBySeq pe.header.correlationId =
      some head.tag := hInv.queueToMap head hheadmem pe hlast hpe
  have hslce : mlookup acc.sched.slotBySeq pe.header.correlationId = none :=
    hInv.mapsDisjoint _ _ hblce
  have htagsnodup : ((head :: rest2).map BacklogQueue.tag).Nodup := by
    have := hInv.tagsNodup
    rw [show (sysOfAcc st0 bIdx m acc).sched.backlogQueues =
        acc.sched.backlogQueues from rfl, hbl] at this
    exact this
  have hQB : ∀ bs,
      queueOf (sysOfAcc st0 bIdx m
        ⟨{ acc.sched with
            backlogQueues := rest2
            backlogBySeq := merase acc.sched.backlogBySeq pe.header.correlationId
            slotBySeq := minsert acc.sched.slotBySeq pe.header.correlationId
              ⟨bIdx, s⟩ },
          acc.queues.set s head.q, acc.active, adj⟩) bs =
        (if bs = ⟨bIdx, s⟩ then head.q else queueOf (sysOfAcc st0 bIdx m acc) bs) :=
    fun bs => queueOf_sysOfAcc_set st0 bIdx m acc s head.q _ _ adj bs hb hslen
  obtain ⟨hshape1, hshape2, hshape3, hshape4⟩ :=
    inv_shape_transfer rc bsz st0 bIdx m acc
      ⟨{ acc.sched with
          backlogQueues := rest2
          backlogBySeq := merase acc.sched.backlogBySeq pe.header.correlationId
          slotBySeq := minsert acc.sched.slotBySeq pe.header.correlationId ⟨bIdx, s⟩ },
        acc.queues.set s head.q, acc.active, adj⟩
      hb hInv (by simp) rfl
  set stB : SysState := sysOfAcc st0 bIdx m
    ⟨{ acc.sched with
        backlogQueues := rest2
        backlogBySeq := merase acc.sched.backlogBySeq pe.header.correlationId
        slotBySeq := minsert acc.sched.slotBySeq pe.header.correlationId ⟨bIdx, s⟩ },
      acc.queues.set s head.q, acc.active, adj⟩ with hstB
  have hslB : stB.sched.slotBySeq =
      minsert acc.sched.slotBySeq pe.header.correlationId ⟨bIdx, s⟩ := rfl
  have hbmB : stB.sched.backlogBySeq =
      merase acc.sched.backlogBySeq pe.header.correlationId := rfl
  have hbqB : stB.sched.backlogQueues = rest2 := rfl
  have hpoolB : stB.sched.readySlots = acc.sched.readySlots := rfl
  have hmB : ∀ c, mlookup (minsert acc.sched.slotBySeq pe.header.correlationId
      ⟨bIdx, s⟩) c =
      if c = pe.header.correlationId then some ⟨bIdx, s⟩
      else mlookup acc.sched.slotBySeq c := by
    intro c
    rw [mlookup_minsert]
    by_cases hc : c = pe.header.correlationId
    · rw [if_pos hc.symm, if_pos hc]
    · rw [if_neg (fun h => hc h.symm), if_neg hc]
  have hslA : (sysOfAcc st0 bIdx m acc).sched.slotBySeq = acc.sched.slotBySeq := rfl
  refine ⟨hshape1, hshape2, hshape3, hshape4, hInv.poolNodup, ?_,
    ?_, ?_, ?_, ?_, ?_, ?_, ?_, ?_, ?_, ?_, ?_, ?_, ?_, ?_⟩
  · rw [hpoolB]
    exact hInv.poolRange
  · intro c bs' hc
    rw [hslB, hmB c] at hc
    split at hc
    · cases hc
      exact ⟨hbrc, hs⟩
    · exact hInv.imageRange _ _ hc
  · intro c c' bs' hc hc'
    rw [hslB, hmB c] at hc
    rw [hslB, hmB c'] at hc'
    split at hc
    · split at hc'
      · rename_i h1 h2
        rw [h1, h2]
      · cases hc
        exact absurd ⟨c', hc'⟩ hnotimg
    · split at hc'
      · cases hc'
        exact absurd ⟨c, hc⟩ hnotimg
      · exact hInv.imageInj _ _ _ hc hc'
  · intro c tag hc
    rw [hbmB, mlookup_merase] at hc
    split at hc
    · cases hc
    · rename_i hne
      rw [hslB, hmB c, if_neg (fun h => hne h.symm)]
      exact hInv.mapsDisjoint _ _ hc
  · intro bs' hbs' himg
    rw [hpoolB] at hbs'
    obtain ⟨c, hc⟩ := himg
    rw [hslB, hmB c] at hc
    split at hc
    · cases hc
      exact hnotpool hbs'
    · exact hInv.poolNotImage bs' hbs' ⟨c, hc⟩
  · intro bs' hbs'
    rw [hpoolB] at hbs'
    have hne : bs' ≠ ⟨bIdx, s⟩ := fun h => hnotpool (h ▸ hbs')
    rw [hQB bs', if_neg hne]
    exact hInv.poolQueueEmpty bs' hbs'
  · intro c bs' hc
    rw [hslB, hmB c] at hc
    split at hc
    · cases hc
      intro hp
      obtain ⟨pl, hl, hePl⟩ := hp
      rw [hQB ⟨bIdx, s⟩, if_pos rfl, hlast] at hl
      cases Option.some.inj hl
      rw [hpe] at hePl
      cases hePl
    · by_cases hbb : bs' = (⟨bIdx, s⟩ : BatchSlot)
      · exact absurd ⟨c, hc⟩ (hbb ▸ hnotimg)
      · rw [endPendingAt_congr (sysOfAcc st0 bIdx m acc) _ bs'
          (by rw [hQB bs', if_neg hbb])]
        exact hInv.imageNotEnd _ _ hc
  · intro b s' hb' hs'
    rcases hInv.partition b s' hb' hs' with hpl | ⟨c, hc⟩ | hpend'
    · rw [hpoolB]
      exact Or.inl hpl
    · rw [hslA] at hc
      have hcne : c ≠ pe.header.correlationId := by
        intro h
        rw [h, hslce] at hc
        cases hc
      refine Or.inr (Or.inl ⟨c, ?_⟩)
      rw [hslB, hmB c, if_neg hcne]
      exact hc
    · by_cases hbb : (⟨b, s'⟩ : BatchSlot) = ⟨bIdx, s⟩
      · refine Or.inr (Or.inl ⟨pe.header.correlationId, ?_⟩)
        rw [hslB, hmB, if_pos rfl, hbb]
      · refine Or.inr (Or.inr ?_)
        rw [endPendingAt_congr (sysOfAcc st0 bIdx m acc) _ ⟨b, s'⟩
          (by rw [hQB ⟨b, s'⟩, if_neg hbb])]
        exact hpend'
  · intro bs'
    rw [hQB bs']
    by_cases hbb : bs' = (⟨bIdx, s⟩ : BatchSlot)
    · rw [if_pos hbb]
      exact hInv.backlogEndTail head hheadmem
    · rw [if_neg hbb]
      exact hInv.slotEndTail bs'
  · intro bq hbq
    rw [hbqB] at hbq
    exact hInv.backlogEndTail bq
      (by show _ ∈ acc.sched.backlogQueues; rw [hbl]; exact List.mem_cons_of_mem _ hbq)
  · intro bq hbq
    rw [hbqB] at hbq
    exact hInv.backlogNonempty bq
      (by show _ ∈ acc.sched.backlogQueues; rw [hbl]; exact List.mem_cons_of_mem _ hbq)
  · rw [hbqB]
    exact (List.nodup_cons.mp htagsnodup).2
  · intro bq hbq
    rw [hbqB] at hbq
    exact hInv.tagsLt bq
      (by show _ ∈ acc.sched.backlogQueues; rw [hbl]; exact List.mem_cons_of_mem _ hbq)
  · intro c tag hc
    rw [hbmB, mlookup_merase] at hc
    split at hc
    · cases hc
    · rename_i hne
      obtain ⟨bq, hbq, htag, pc, hpclast, hpccid, hpcend⟩ := hInv.mapToQueue c tag hc
      rw [show (sysOfAcc st0 bIdx m acc).sched.backlogQueues =
          acc.sched.backlogQueues from rfl, hbl] at hbq
      rcases List.mem_cons.mp hbq with hh | hh
      · subst hh
        rw [hlast] at hpclast
        cases Option.some.inj hpclast
        exact absurd hpccid.symm (fun h => hne h.symm)
      · exact ⟨bq, by rw [hbqB]; exact hh, htag, pc, hpclast, hpccid, hpcend⟩
  · intro bq hbq pc hpclast hpcend
    rw [hbqB] at hbq
    have hold := hInv.queueToMap bq
      (by show _ ∈ acc.sched.backlogQueues; rw [hbl]; exact List.mem_cons_of_mem _ hbq)
      pc hpclast hpcend
    rw [show (sysOfAcc st0 bIdx m acc).sched.backlogBySeq = acc.sched.backlogBySeq
      from rfl] at hold
    have hcne : pc.header.correlationId ≠ pe.header.correlationId := by
      intro h
      rw [h, hblce] at hold
      have htageq : bq.tag = head.tag := (Option.some.inj hold).symm
      rw [List.map_cons, List.nodup_cons] at htagsnodup
      exact htagsnodup.1 (htageq ▸ List.mem_map_of_mem BacklogQueue.tag hbq)
    rw [hbmB, mlookup_merase, if_neg (fun h => hcne h.symm)]
    exact hold

/-- One slot-loop iteration preserves the invariant. -/
theorem inv_processSlot (rc bsz : Nat) (st0 : SysState) (bIdx : Nat) (m : Int)
    (acc : SweepAcc) (s : Nat) (nullh : Option ReqHeader) (maxAct : Int)
    (hbrc : bIdx < rc) (hs : s < bsz)
    (hInv : Inv rc bsz (sysOfAcc st0 bIdx m acc)) :
    Inv rc bsz (sysOfAcc st0 bIdx m (processSlot bIdx nullh maxAct acc s).1) := by
  cases hq : acc.queues.getD s [] with
  | nil =>
    rw [processSlot_eq_nil bIdx nullh maxAct acc s hq]
    exact hInv
  | cons p restq =>
    by_cases hend : p.header.seqEnd = true
    · rw [processSlot_eq_end bIdx nullh maxAct acc s p restq hq hend]
      cases hbl : acc.sched.backlogQueues with
      | nil =>
        rw [releaseBatchSlot_eq_nil acc.sched ⟨bIdx, s⟩ restq hbl]
        exact inv_release_toPool rc bsz st0 bIdx m acc s p restq _ hbrc hs hInv hq
          hend hbl
      | cons head rest2 =>
        have hqne : head.q ≠ [] := hInv.backlogNonempty head
          (by show head ∈ acc.sched.backlogQueues; rw [hbl]; exact List.mem_cons_self _ _)
        cases hlast : head.q.getLast? with
        | none => exact absurd (List.getLast?_eq_none_iff.mp hlast) hqne
        | some pe =>
          by_cases hpe : pe.header.seqEnd = true
          · rw [releaseBatchSlot_eq_end acc.sched ⟨bIdx, s⟩ restq head rest2 pe hbl
              hlast hpe]
            exact inv_release_transplantEnd rc bsz st0 bIdx m acc s p restq _ head
              rest2 pe hbrc hs hInv hq hend hbl hlast hpe
          · have hpef : pe.header.seqEnd = false := by simpa using hpe
            rw [releaseBatchSlot_eq_bind acc.sched ⟨bIdx, s⟩ restq head rest2 pe hbl
              hlast hpef]
            exact inv_release_transplantBind rc bsz st0 bIdx m acc s p restq _ head
              rest2 pe hbrc hs hInv hq hend hbl hlast hpef
    · have hendf : p.header.seqEnd = false := by simpa using hend
      rw [processSlot_eq_noEnd bIdx nullh maxAct acc s p restq hq hendf]
      exact inv_pop_noEnd rc bsz st0 bIdx m acc s p restq hbrc hs hInv hq hendf

/-- The whole slot loop preserves the invariant. -/
theorem inv_sweepFrom (rc bsz : Nat) (st0 : SysState) (bIdx : Nat) (m : Int)
    (nullh : Option ReqHeader) (maxAct : Int) (s fuel : Nat) (acc : SweepAcc)
    (hbrc : bIdx < rc) (hrange : s + fuel ≤ bsz)
    (hInv : Inv rc bsz (sysOfAcc st0 bIdx m acc)) :
    Inv rc bsz (sysOfAcc st0 bIdx m (sweepFrom bIdx nullh maxAct s fuel acc).1) := by
  induction fuel generalizing s acc with
  | zero => exact hInv
  | succ f ih =>
    have heq : (sweepFrom bIdx nullh maxAct s (f + 1) acc).1 =
        (sweepFrom bIdx nullh maxAct (s + 1) f
          (processSlot bIdx nullh maxAct acc s).1).1 := rfl
    rw [heq]
    exact ih (s + 1) _ (by omega)
      (inv_processSlot rc bsz st0 bIdx m acc s nullh maxAct hbrc (by omega) hInv)

theorem findMaxSlot_lt (q : List Queue) (n : Nat) : findMaxSlot q n < (n : Int) := by
  induction n with
  | zero => simp [findMaxSlot]
  | succ k ih =>
    unfold findMaxSlot
    split
    · exact lt_trans ih (by exact_mod_cast Nat.lt_succ_self k)
    · rw [Int.ofNat_eq_coe]
      exact_mod_cast Nat.lt_succ_self k

theorem findMaxSlot_ge (q : List Queue) (n : Nat) : -1 ≤ findMaxSlot q n := by
  induction n with
  | zero => simp [findMaxSlot]
  | succ k ih =>
    unfold findMaxSlot
    split
    · exact ih
    · rw [Int.ofNat_eq_coe]
      omega

theorem adjustMax_lt (a : List Bool) (n : Nat) : adjustMax a n < (n : Int) := by
  induction n with
  | zero => simp [adjustMax]
  | succ k ih =>
    unfold adjustMax
    split
    · rw [Int.ofNat_eq_coe]
      exact_mod_cast Nat.lt_succ_self k
    · exact lt_trans ih (by exact_mod_cast Nat.lt_succ_self k)

/-- Only the stored `max_active_slot_` differs: the invariant carries
over to any in-range value. -/
theorem inv_change_max (rc bsz : Nat) (st0 : SysState) (bIdx : Nat) (m m' : Int)
    (acc : SweepAcc) (hb : bIdx < st0.batchers.length) (hm' : m' < (bsz : Int))
    (hInv : Inv rc bsz (sysOfAcc st0 bIdx m acc)) :
    Inv rc bsz (sysOfAcc st0 bIdx m' acc) := by
  have hQ : ∀ bs, queueOf (sysOfAcc st0 bIdx m' acc) bs =
      queueOf (sysOfAcc st0 bIdx m acc) bs := by
    intro bs
    rw [queueOf_sysOfAcc st0 bIdx m' acc bs hb, queueOf_sysOfAcc st0 bIdx m acc bs hb]
  have hpendC : ∀ bs, endPendingAt (sysOfAcc st0 bIdx m' acc) bs ↔
      endPendingAt (sysOfAcc st0 bIdx m acc) bs :=
    fun bs => endPendingAt_congr _ _ bs (hQ bs)
  refine ⟨?_, ?_, ?_, ?_, hInv.poolNodup, hInv.poolRange, hInv.imageRange,
    hInv.imageInj, hInv.mapsDisjoint, hInv.poolNotImage, ?_, ?_, ?_, ?_,
    hInv.backlogEndTail, hInv.backlogNonempty, hInv.tagsNodup, hInv.tagsLt,
    hInv.mapToQueue, hInv.queueToMap⟩
  · have := hInv.batchersLen
    simpa [sysOfAcc] using this
  · intro i hi
    by_cases hib : i = bIdx
    · subst hib
      rw [sysOfAcc_getD_self st0 i m' acc hb]
      have := hInv.queuesLen i hi
      rw [sysOfAcc_getD_self st0 i m acc hb] at this
      exact this
    · rw [sysOfAcc_getD_ne st0 bIdx m' acc i hib]
      have := hInv.queuesLen i hi
      rw [sysOfAcc_getD_ne st0 bIdx m acc i hib] at this
      exact this
  · intro i hi
    by_cases hib : i = bIdx
    · subst hib
      rw [sysOfAcc_getD_self st0 i m' acc hb]
      have := hInv.activeLen i hi
      rw [sysOfAcc_getD_self st0 i m acc hb] at this
      exact this
    · rw [sysOfAcc_getD_ne st0 bIdx m' acc i hib]
      have := hInv.activeLen i hi
      rw [sysOfAcc_getD_ne st0 bIdx m acc i hib] at this
      exact this
  · intro i hi
    by_cases hib : i = bIdx
    · subst hib
      rw [sysOfAcc_getD_self st0 i m' acc hb]
      exact hm'
    · rw [sysOfAcc_getD_ne st0 bIdx m' acc i hib]
      have := hInv.maxLt i hi
      rw [sysOfAcc_getD_ne st0 bIdx m acc i hib] at this
      exact this
  · intro bs hbs
    rw [hQ bs]
    exact hInv.poolQueueEmpty bs hbs
  · intro c bs hc
    rw [hpendC bs]
    exact hInv.imageNotEnd _ _ hc
  · intro b s hb' hs'
    rcases hInv.partition b s hb' hs' with h | h | h
    · exact Or.inl h
    · exact Or.inr (Or.inl h)
    · exact Or.inr (Or.inr ((hpendC ⟨b, s⟩).mpr h))
  · intro bs
    rw [hQ bs]
    exact hInv.slotEndTail bs

/-- The loop state after the full slot sweep of one assembly iteration
(abbreviation for stating `inv_sweep`). -/
def sweepAccF (st : SysState) (bIdx : Nat) : SweepAcc :=
  (sweepFrom bIdx (st.batchers.getD bIdx default).nullHeader
    (st.batchers.getD bIdx default).maxActiveSlot 0
    ((findMaxSlot (st.batchers.getD bIdx default).queues
      ((st.batchers.getD bIdx default).maxActiveSlot + 1).toNat).toNat + 1)
    ⟨st.sched, (st.batchers.getD bIdx default).queues,
      (st.batchers.getD bIdx default).activeSlots, false⟩).1

/-- The re-adjusted `max_active_slot_` after one assembly iteration. -/
def sweepNewMax (st : SysState) (bIdx : Nat) : Int :=
  if (sweepAccF st bIdx).adjust then
    adjustMax (sweepAccF st bIdx).active
      ((st.batchers.getD bIdx default).maxActiveSlot + 1).toNat
  else (st.batchers.getD bIdx default).maxActiveSlot

theorem sweep_fst_eq (st : SysState) (bIdx : Nat)
    (h : ¬ findMaxSlot (st.batchers.getD bIdx default).queues
      ((st.batchers.getD bIdx default).maxActiveSlot + 1).toNat < 0) :
    (sweep st bIdx).1 = sysOfAcc st bIdx (sweepNewMax st bIdx) (sweepAccF st bIdx) := by
  simp only [sweep, sweepAccF, sweepNewMax, sysOfAcc]
  rw [if_neg h]

/-- The scheduler invariant is preserved by every worker-thread assembly
iteration. -/
theorem inv_sweep (rc bsz : Nat) (st : SysState) (bIdx : Nat)
    (hInv : Inv rc bsz st) : Inv rc bsz (sweep st bIdx).1 := by
  by_cases hbrc : bIdx < rc
  · have hb : bIdx < st.batchers.length := by rw [hInv.batchersLen]; exact hbrc
    by_cases hneg : findMaxSlot (st.batchers.getD bIdx default).queues
        ((st.batchers.getD bIdx default).maxActiveSlot + 1).toNat < 0
    · rw [show (sweep st bIdx).1 = st from by
        simp only [sweep]
        rw [if_pos hneg]]
      exact hInv
    · rw [sweep_fst_eq st bIdx hneg]
      have hinit : sysOfAcc st bIdx (st.batchers.getD bIdx default).maxActiveSlot
          ⟨st.sched, (st.batchers.getD bIdx default).queues,
            (st.batchers.getD bIdx default).activeSlots, false⟩ = st := by
        unfold sysOfAcc
        rw [show (⟨(⟨st.sched, (st.batchers.getD bIdx default).queues,
              (st.batchers.getD bIdx default).activeSlots, false⟩ : SweepAcc).queues,
            (⟨st.sched, (st.batchers.getD bIdx default).queues,
              (st.batchers.getD bIdx default).activeSlots, false⟩ : SweepAcc).active,
            (st.batchers.getD bIdx default).maxActiveSlot,
            (st.batchers.getD bIdx default).nullHeader⟩ : BatchState) =
          st.batchers.getD bIdx default from rfl,
          set_getD_self st.batchers bIdx default hb]
      have hmaxb : (st.batchers.getD bIdx default).maxActiveSlot < (bsz : Int) :=
        hInv.maxLt bIdx hbrc
      have hfuel : 0 + ((findMaxSlot (st.batchers.getD bIdx default).queues
          ((st.batchers.getD bIdx default).maxActiveSlot + 1).toNat).toNat + 1) ≤ bsz := by
        have h1 := findMaxSlot_lt (st.batchers.getD bIdx default).queues
          ((st.batchers.getD bIdx default).maxActiveSlot + 1).toNat
        omega
      have hInvF : Inv rc bsz
          (sysOfAcc st bIdx (st.batchers.getD bIdx default).maxActiveSlot
            (sweepAccF st bIdx)) := by
        unfold sweepAccF
        exact inv_sweepFrom rc bsz st bIdx
          (st.batchers.getD bIdx default).maxActiveSlot
          (st.batchers.getD bIdx default).nullHeader
          (st.batchers.getD bIdx default).maxActiveSlot 0
          ((findMaxSlot (st.batchers.getD bIdx default).queues
            ((st.batchers.getD bIdx default).maxActiveSlot + 1).toNat).toNat + 1)
          ⟨st.sched, (st.batchers.getD bIdx default).queues,
            (st.batchers.getD bIdx default).activeSlots, false⟩
          hbrc hfuel (by rw [hinit]; exact hInv)
      refine inv_change_max rc bsz st bIdx
        (st.batchers.getD bIdx default).maxActiveSlot (sweepNewMax st bIdx)
        (sweepAccF st bIdx) hb ?_ hInvF
      unfold sweepNewMax
      split
      · have h1 := adjustMax_lt (sweepAccF st bIdx).active
          ((st.batchers.getD bIdx default).maxActiveSlot + 1).toNat
        omega
      · exact hmaxb
  · have hble : st.batchers.length ≤ bIdx := by rw [hInv.batchersLen]; omega
    have hgd : st.batchers.getD bIdx default = default := by
      rw [List.getD_eq_getElem?_getD, List.getElem?_eq_none hble]
      rfl
    rw [show (sweep st bIdx).1 = st from by
      simp only [sweep]
      rw [hgd]
      rfl]
    exact hInv

/-- Every reachable state satisfies the scheduler invariant. -/
theorem inv_reachable (rc bsz : Nat) (st : SysState)
    (h : Reachable rc bsz st) : Inv rc bsz st := by
  induction h with
  | init => exact inv_initState rc bsz
  | enq r _ ih => exact inv_enqueue rc bsz _ r ih
  | work bIdx _ ih => exact inv_sweep rc bsz _ bIdx ih

/-- C3 counterexample: the state reached by enqueuing a single START|END
request on a freshly created one-batcher, one-slot scheduler.  The END is
routed to slot `(0, 0)` and the correlation ID is erased from
`slot_by_seq` at enqueue time, while the slot stays out of the ready
pool until the worker consumes the END payload.  At this externally
observable point slot `(0, 0)` is in neither the ready-slot pool nor the
image of `slot_by_seq`, so their union does NOT equal the full set of
`(batcher, slot)` pairs, refuting the equality part of the claim. -/
theorem pool_image_union_not_full :
    Reachable 1 1 (schedulerEnqueue (initState 1 1) ⟨⟨1, 7, true, true⟩, 0⟩).2 ∧
    ¬((⟨0, 0⟩ : BatchSlot) ∈
        (schedulerEnqueue (initState 1 1) ⟨⟨1, 7, true, true⟩, 0⟩).2.sched.readySlots ∨
      inImage (schedulerEnqueue (initState 1 1) ⟨⟨1, 7, true, true⟩, 0⟩).2.sched
        ⟨0, 0⟩) := by
  constructor
  · exact .enq _ .init
  · intro h
    rcases h with h | ⟨c, hc⟩
    · revert h
      decide
    · rw [show (schedulerEnqueue (initState 1 1)
          ⟨⟨1, 7, true, true⟩, 0⟩).2.sched.slotBySeq = [] from rfl] at hc
      cases hc

/-- C3 (amended): at every externally observable point — after each
`Enqueue` and each worker iteration (and so after each `release_slot`,
by `inv_processSlot`) — the scheduler state satisfies: (1) no
correlation ID is simultaneously in `slot_by_seq` and `backlog_by_seq`;
(2) the ready-slot pool and the image of `slot_by_seq` are disjoint;
(3) both are contained in the full set of `(batcher_idx, slot_idx)`
pairs with `batcher_idx < runner_cnt` and `slot_idx < batch_size`; and
(4) the union of the pool, the image, and the slots still holding an
unconsumed SEQUENCE_END payload covers that full set.  The union of pool
and image alone can fall short of the full set exactly while an END
payload is enqueued but not yet consumed (see the counterexample), which
is the only change from the claim as stated. -/
theorem reachable_scheduler_invariants (rc bsz : Nat) (st : SysState)
    (h : Reachable rc bsz st) :
    (∀ c, ¬(mlookup st.sched.slotBySeq c ≠ none ∧
            mlookup st.sched.backlogBySeq c ≠ none)) ∧
    (∀ bs, ¬(bs ∈ st.sched.readySlots ∧ inImage st.sched bs)) ∧
    (∀ bs, bs ∈ st.sched.readySlots ∨ inImage st.sched bs →
      bs.batcher < rc ∧ bs.slot < bsz) ∧
    (∀ b s, b < rc → s < bsz →
      (⟨b, s⟩ : BatchSlot) ∈ st.sched.readySlots ∨ inImage st.sched ⟨b, s⟩ ∨
        endPendingAt st ⟨b, s⟩) := by
  have hInv := inv_reachable rc bsz st h
  refine ⟨?_, ?_, ?_, hInv.partition⟩
  · rintro c ⟨hsl, hbl⟩
    cases hblv : mlookup st.sched.backlogBySeq c with
    | none => exact hbl hblv
    | some tag => exact hsl (hInv.mapsDisjoint c tag hblv)
  · rintro bs ⟨hpool, himg⟩
    exact hInv.poolNotImage bs hpool himg
  · rintro bs (hpool | ⟨c, hc⟩)
    · exact hInv.poolRange bs hpool
    · exact hInv.imageRange c bs hc

/-! ## Trace semantics for per-sequence ordering -/

/-- An externally driven action: one facade `Enqueue` call or one worker
assembly iteration of a batcher. -/
inductive Event where
  | enq (p : Payload)
  | work (bIdx : Nat)
deriving DecidableEq, Repr

/-- The real payload carried by a batch entry (none for placeholders). -/
def entryReal : BatchEntry → List Payload
  | .real p _ => [p]
  | .null _ _ => []

/-- The real (non-placeholder) payloads of an assembled batch, in slot
order. -/
def realPayloads (es : List BatchEntry) : List Payload :=
  es.flatMap entryReal

/-- A run of the system: the current state, the payloads accepted by
`Enqueue` in submission order (those whose completion callback was not
invoked with an immediate error), and the real payloads handed to
`on_schedule` across all batches, in delivery order. -/
structure RunState where
  sys : SysState
  accepted : List Payload
  delivered : List Payload
deriving DecidableEq, Repr

/-- One event of a run. -/
def runStep (rs : RunState) : Event → RunState
  | .enq p =>
    { sys := (schedulerEnqueue rs.sys p).2
      accepted := rs.accepted ++
        (if (schedulerEnqueue rs.sys p).1 = EnqueueResult.err then [] else [p])
      delivered := rs.delivered }
  | .work bIdx =>
    { sys := (sweep rs.sys bIdx).1
      accepted := rs.accepted
      delivered := rs.delivered ++ realPayloads (((sweep rs.sys bIdx).2).getD []) }

/-- Run a list of events from a given run state. -/
def runFrom (rs : RunState) : List Event → RunState
  | [] => rs
  | e :: evs => runFrom (runStep rs e) evs

/-- Run a list of events against a freshly created scheduler. -/
def runTrace (rc bsz : Nat) (evs : List Event) : RunState :=
  runFrom ⟨initState rc bsz, [], []⟩ evs

/-- The payloads of `l` bearing correlation ID `c`, in order. -/
def forCid (c : Nat) (l : List Payload) : List Payload :=
  l.filter fun p => p.header.correlationId == c

theorem forCid_append (c : Nat) (l1 l2 : List Payload) :
    forCid c (l1 ++ l2) = forCid c l1 ++ forCid c l2 :=
  List.filter_append _ _

theorem forCid_nil (c : Nat) : forCid c [] = [] := rfl

theorem forCid_singleton_pos (c : Nat) (p : Payload)
    (h : p.header.correlationId = c) : forCid c [p] = [p] := by
  simp [forCid, h]

theorem forCid_singleton_neg (c : Nat) (p : Payload)
    (h : p.header.correlationId ≠ c) : forCid c [p] = [] := by
  simp [forCid, h]

/-- Every payload of the queue belongs to correlation ID `c`. -/
def pureC (c : Nat) (q : Queue) : Prop :=
  ∀ p ∈ q, p.header.correlationId = c

/-- No payload of the queue belongs to correlation ID `c`. -/
def freeC (c : Nat) (q : Queue) : Prop :=
  ∀ p ∈ q, p.header.correlationId ≠ c

/-- No payload of the list carries SEQUENCE_END. -/
def noEnds (l : List Payload) : Prop :=
  ∀ p ∈ l, p.header.seqEnd = false

theorem freeC_nil (c : Nat) : freeC c [] := by
  intro p hp
  cases hp

theorem freeC_tail (c : Nat) (p : Payload) (q : Queue) (h : freeC c (p :: q)) :
    freeC c q := fun x hx => h x (List.mem_cons_of_mem _ hx)

theorem freeC_concat (c : Nat) (q : Queue) (r : Payload)
    (h : freeC c q) (hr : r.header.correlationId ≠ c) : freeC c (q ++ [r]) := by
  intro x hx
  rcases List.mem_append.mp hx with hx | hx
  · exact h x hx
  · rw [List.mem_singleton.mp hx]
    exact hr

theorem pureC_tail (c : Nat) (p : Payload) (q : Queue) (h : pureC c (p :: q)) :
    pureC c q := fun x hx => h x (List.mem_cons_of_mem _ hx)

theorem pureC_concat (c : Nat) (q : Queue) (r : Payload)
    (h : pureC c q) (hr : r.header.correlationId = c) : pureC c (q ++ [r]) := by
  intro x hx
  rcases List.mem_append.mp hx with hx | hx
  · exact h x hx
  · rw [List.mem_singleton.mp hx]
    exact hr

theorem noEnds_concat (l : List Payload) (r : Payload)
    (h : noEnds l) (hr : r.header.seqEnd = false) : noEnds (l ++ [r]) := by
  intro x hx
  rcases List.mem_append.mp hx with hx | hx
  · exact h x hx
  · rw [List.mem_singleton.mp hx]
    exact hr

/-- The C4 tracking invariant for one correlation ID `c`.  `sub` is the
list of accepted payloads bearing `c` so far (in submission order) and
`del` the list of `c` payloads handed to `on_schedule` so far (in
delivery order).  The five cases follow the lifecycle of a sequence:
bound to a slot, slot holding an unconsumed END, queued in the backlog
(live or already ended), or fully drained.  In every case the pending
payloads sit in a single queue, that queue is pure, every other queue is
free of `c`, and `delivered ++ pending = accepted`. -/
inductive CInv (c : Nat) (st : SysState) (sub del : List Payload) : Prop where
  | activeSlot (bs : BatchSlot)
      (hsl : mlookup st.sched.slotBySeq c = some bs)
      (hbl : mlookup st.sched.backlogBySeq c = none)
      (hpure : pureC c (queueOf st bs))
      (hist : del ++ queueOf st bs = sub)
      (hnoEnd : noEnds sub)
      (hslots : ∀ bs' : BatchSlot, bs' ≠ bs → freeC c (queueOf st bs'))
      (hblf : ∀ bq ∈ st.sched.backlogQueues, freeC c bq.q) :
      CInv c st sub del
  | endSlot (bs : BatchSlot) (pe : Payload)
      (hsl : mlookup st.sched.slotBySeq c = none)
      (hbl : mlookup st.sched.backlogBySeq c = none)
      (hpure : pureC c (queueOf st bs))
      (hist : del ++ queueOf st bs = sub)
      (hlast : (queueOf st bs).getLast? = some pe)
      (hend : pe.header.seqEnd = true)
      (hslots : ∀ bs' : BatchSlot, bs' ≠ bs → freeC c (queueOf st bs'))
      (hblf : ∀ bq ∈ st.sched.backlogQueues, freeC c bq.q) :
      CInv c st sub del
  | backlogLive (tag : Nat) (bq : BacklogQueue)
      (hsl : mlookup st.sched.slotBySeq c = none)
      (hbl : mlookup st.sched.backlogBySeq c = some tag)
      (hmem : bq ∈ st.sched.backlogQueues)
      (htag : bq.tag = tag)
      (hpure : pureC c bq.q)
      (hne : bq.q ≠ [])
      (hist : del ++ bq.q = sub)
      (hnoEnd : noEnds sub)
      (hslots : ∀ bs' : BatchSlot, freeC c (queueOf st bs'))
      (hblf : ∀ bq2 ∈ st.sched.backlogQueues, bq2.tag ≠ tag → freeC c bq2.q) :
      CInv c st sub del
  | backlogEnded (tag : Nat) (bq : BacklogQueue) (pe : Payload)
      (hsl : mlookup st.sched.slotBySeq c = none)
      (hbl : mlookup st.sched.backlogBySeq c = none)
      (hmem : bq ∈ st.sched.backlogQueues)
      (htag : bq.tag = tag)
      (hpure : pureC c bq.q)
      (hist : del ++ bq.q = sub)
      (hlast : bq.q.getLast? = some pe)
      (hend : pe.header.seqEnd = true)
      (hslots : ∀ bs' : BatchSlot, freeC c (queueOf st bs'))
      (hblf : ∀ bq2 ∈ st.sched.backlogQueues, bq2.tag ≠ tag → freeC c bq2.q) :
      CInv c st sub del
  | done
      (hsl : mlookup st.sched.slotBySeq c = none)
      (hbl : mlookup st.sched.backlogBySeq c = none)
      (hist : del = sub)
      (hendsub : sub = [] ∨ ∃ p ∈ sub, p.header.seqEnd = true)
      (hslots : ∀ bs' : BatchSlot, freeC c (queueOf st bs'))
      (hblf : ∀ bq ∈ st.sched.backlogQueues, freeC c bq.q) :
      CInv c st sub del

/-- `CInv` only looks at the facade state and the queue contents, so it
transfers across states that agree on those. -/
theorem cinv_congr (c : Nat) (st st' : SysState) (sub del : List Payload)
    (hs : st'.sched = st.sched)
    (hq : ∀ bs, queueOf st' bs = queueOf st bs)
    (h : CInv c st sub del) : CInv c st' sub del := by
  cases h with
  | activeSlot bs hsl hbl hpure hist hnoEnd hslots hblf =>
    exact CInv.activeSlot bs (by rw [hs]; exact hsl) (by rw [hs]; exact hbl)
      (by rw [hq]; exact hpure) (by rw [hq]; exact hist) hnoEnd
      (fun bs' hne => by rw [hq]; exact hslots bs' hne)
      (by rw [hs]; exact hblf)
  | endSlot bs pe hsl hbl hpure hist hlast hend hslots hblf =>
    exact CInv.endSlot bs pe (by rw [hs]; exact hsl) (by rw [hs]; exact hbl)
      (by rw [hq]; exact hpure) (by rw [hq]; exact hist) (by rw [hq]; exact hlast)
      hend (fun bs' hne => by rw [hq]; exact hslots bs' hne)
      (by rw [hs]; exact hblf)
  | backlogLive tag bq hsl hbl hmem htag hpure hne hist hnoEnd hslots hblf =>
    exact CInv.backlogLive tag bq (by rw [hs]; exact hsl) (by rw [hs]; exact hbl)
      (by rw [hs]; exact hmem) htag hpure hne hist hnoEnd
      (fun bs' => by rw [hq]; exact hslots bs')
      (by rw [hs]; exact hblf)
  | backlogEnded tag bq pe hsl hbl hmem htag hpure hist hlast hend hslots hblf =>
    exact CInv.backlogEnded tag bq pe (by rw [hs]; exact hsl) (by rw [hs]; exact hbl)
      (by rw [hs]; exact hmem) htag hpure hist hlast hend
      (fun bs' => by rw [hq]; exact hslots bs')
      (by rw [hs]; exact hblf)
  | done hsl hbl hist hendsub hslots hblf =>
    exact CInv.done (by rw [hs]; exact hsl) (by rw [hs]; exact hbl) hist hendsub
      (fun bs' => by rw [hq]; exact hslots bs')
      (by rw [hs]; exact hblf)

/-- The tracking invariant at a freshly created scheduler. -/
theorem cinv_initState (rc bsz c : Nat) :
    CInv c (initState rc bsz) [] [] := by
  refine CInv.done rfl rfl rfl (Or.inl rfl) ?_ ?_
  · intro bs'
    rw [queueOf_initState]
    exact freeC_nil c
  · intro bq hbq
    exact absurd hbq (List.not_mem_nil _)

/-- Tracking-invariant preservation for `Enqueue` when the correlation ID
already has an assigned slot (decision-table case 1). -/
theorem cinv_enqueue_slotFound (rc bsz c : Nat) (st : SysState) (r : Payload)
    (bs0 : BatchSlot) (sub del : List Payload) (hInv : Inv rc bsz st)
    (hC : CInv c st sub del)
    (hsb : mlookup st.sched.slotBySeq r.header.correlationId = some bs0) :
    CInv c
      ⟨{ st.sched with slotBySeq :=
          if r.header.seqEnd then merase st.sched.slotBySeq r.header.correlationId
          else st.sched.slotBySeq },
        deliver st.batchers bs0 r⟩
      (sub ++ forCid c [r]) del := by
  obtain ⟨hr1, hr2⟩ := hInv.imageRange _ _ hsb
  have hblen : bs0.batcher < st.batchers.length := by rw [hInv.batchersLen]; exact hr1
  have hqlen : bs0.slot < (st.batchers.getD bs0.batcher default).queues.length := by
    rw [hInv.queuesLen bs0.batcher hr1]; exact hr2
  set st' : SysState := ⟨{ st.sched with slotBySeq :=
      (if r.header.seqEnd then merase st.sched.slotBySeq r.header.correlationId
       else st.sched.slotBySeq) }, deliver st.batchers bs0 r⟩ with hstdef
  have hQ : ∀ bs', queueOf st' bs' =
      (if bs' = bs0 then queueOf st bs0 ++ [r] else queueOf st bs') :=
    fun bs' => queueOf_deliver st _ bs0 bs' r hblen hqlen
  have hslmap : ∀ c', mlookup st'.sched.slotBySeq c' =
      if r.header.seqEnd = true ∧ c' = r.header.correlationId then none
      else mlookup st.sched.slotBySeq c' := by
    intro c'
    show mlookup (if r.header.seqEnd then
        merase st.sched.slotBySeq r.header.correlationId
      else st.sched.slotBySeq) c' = _
    by_cases hend : r.header.seqEnd = true
    · rw [if_pos hend, mlookup_merase]
      by_cases hc' : c' = r.header.correlationId
      · subst hc'
        simp [hend]
      · rw [if_neg (fun h => hc' h.symm), if_neg (fun h : _ ∧ _ => hc' h.2)]
    · simp only [Bool.not_eq_true] at hend
      simp [hend]
  by_cases hc : r.header.correlationId = c
  · rw [forCid_singleton_pos c r hc]
    cases hC with
    | activeSlot bs hsl hbl hpure hist hnoEnd hslots hblf =>
      rw [hc] at hsb
      rw [hsl] at hsb
      have hbs : bs0 = bs := (Option.some.inj hsb).symm
      subst hbs
      by_cases hre : r.header.seqEnd = true
      · refine CInv.endSlot bs0 r ?_ hbl ?_ ?_ ?_ hre ?_ ?_
        · rw [hslmap c, if_pos ⟨hre, hc.symm⟩]
        · rw [hQ bs0, if_pos rfl]
          exact pureC_concat _ _ _ hpure hc
        · rw [hQ bs0, if_pos rfl, ← List.append_assoc, hist]
        · rw [hQ bs0, if_pos rfl]
          exact List.getLast?_concat _
        · intro bs' hne
          rw [hQ bs', if_neg hne]
          exact hslots bs' hne
        · exact hblf
      · refine CInv.activeSlot bs0 ?_ hbl ?_ ?_ ?_ ?_ ?_
        · rw [hslmap c, if_neg (fun h => hre h.1)]
          exact hsl
        · rw [hQ bs0, if_pos rfl]
          exact pureC_concat _ _ _ hpure hc
        · rw [hQ bs0, if_pos rfl, ← List.append_assoc, hist]
        · exact noEnds_concat _ _ hnoEnd (by simpa using hre)
        · intro bs' hne
          rw [hQ bs', if_neg hne]
          exact hslots bs' hne
        · exact hblf
    | endSlot bs pe hsl hbl hpure hist hlast hend hslots hblf =>
      rw [hc, hsl] at hsb
      cases hsb
    | backlogLive tag bq hsl hbl hmem htag hpure hne hist hnoEnd hslots hblf =>
      rw [hc, hsl] at hsb
      cases hsb
    | backlogEnded tag bq pe hsl hbl hmem htag hpure hist hlast hend hslots hblf =>
      rw [hc, hsl] at hsb
      cases hsb
    | done hsl hbl hist hendsub hslots hblf =>
      rw [hc, hsl] at hsb
      cases hsb
  · rw [forCid_singleton_neg c r hc, List.append_nil]
    have hslc : mlookup st'.sched.slotBySeq c = mlookup st.sched.slotBySeq c := by
      rw [hslmap c, if_neg (fun h : _ ∧ _ => hc h.2.symm)]
    cases hC with
    | activeSlot bs hsl hbl hpure hist hnoEnd hslots hblf =>
      have hbsne : bs0 ≠ bs := by
        intro h
        subst h
        exact hc (hInv.imageInj _ _ _ hsb hsl)
      refine CInv.activeSlot bs (by rw [hslc]; exact hsl) hbl ?_ ?_ hnoEnd ?_ hblf
      · rw [hQ bs, if_neg (fun h => hbsne h.symm)]
        exact hpure
      · rw [hQ bs, if_neg (fun h => hbsne h.symm)]
        exact hist
      · intro bs' hne
        rw [hQ bs']
        by_cases hb0 : bs' = bs0
        · rw [if_pos hb0]
          exact freeC_concat _ _ _ (hb0 ▸ hslots bs' hne) hc
        · rw [if_neg hb0]
          exact hslots bs' hne
    | endSlot bs pe hsl hbl hpure hist hlast hend hslots hblf =>
      have hbsne : bs0 ≠ bs := fun h =>
        hInv.imageNotEnd _ _ hsb (h ▸ ⟨pe, hlast, hend⟩)
      refine CInv.endSlot bs pe (by rw [hslc]; exact hsl) hbl ?_ ?_ ?_ hend ?_ hblf
      · rw [hQ bs, if_neg (fun h => hbsne h.symm)]
        exact hpure
      · rw [hQ bs, if_neg (fun h => hbsne h.symm)]
        exact hist
      · rw [hQ bs, if_neg (fun h => hbsne h.symm)]
        exact hlast
      · intro bs' hne
        rw [hQ bs']
        by_cases hb0 : bs' = bs0
        · rw [if_pos hb0]
          exact freeC_concat _ _ _ (hb0 ▸ hslots bs' hne) hc
        · rw [if_neg hb0]
          exact hslots bs' hne
    | backlogLive tag bq hsl hbl hmem htag hpure hne hist hnoEnd hslots hblf =>
      refine CInv.backlogLive tag bq (by rw [hslc]; exact hsl) hbl hmem htag hpure
        hne hist hnoEnd ?_ hblf
      intro bs'
      rw [hQ bs']
      by_cases hb0 : bs' = bs0
      · rw [if_pos hb0]
        exact freeC_concat _ _ _ (hb0 ▸ hslots bs') hc
      · rw [if_neg hb0]
        exact hslots bs'
    | backlogEnded tag bq pe hsl hbl hmem htag hpure hist hlast hend hslots hblf =>
      refine CInv.backlogEnded tag bq pe (by rw [hslc]; exact hsl) hbl hmem htag
        hpure hist hlast hend ?_ hblf
      intro bs'
      rw [hQ bs']
      by_cases hb0 : bs' = bs0
      · rw [if_pos hb0]
        exact freeC_concat _ _ _ (hb0 ▸ hslots bs') hc
      · rw [if_neg hb0]
        exact hslots bs'
    | done hsl hbl hist hendsub hslots hblf =>
      refine CInv.done (by rw [hslc]; exact hsl) hbl hist hendsub ?_ hblf
      intro bs'
      rw [hQ bs']
      by_cases hb0 : bs' = bs0
      · rw [if_pos hb0]
        exact freeC_concat _ _ _ (hb0 ▸ hslots bs') hc
      · rw [if_neg hb0]
        exact hslots bs'

/-- Tracking-invariant preservation for `Enqueue` when the correlation ID
already has a queue in the backlog (decision-table case 2). -/
theorem cinv_enqueue_backlogFound (rc bsz c : Nat) (st : SysState) (r : Payload)
    (tag0 : Nat) (sub del : List Payload) (hInv : Inv rc bsz st)
    (hC : CInv c st sub del)
    (hbl0 : mlookup st.sched.backlogBySeq r.header.correlationId = some tag0) :
    CInv c
      { st with sched := { st.sched with
          backlogQueues := appendToTag st.sched.backlogQueues tag0 r
          backlogBySeq :=
            (if r.header.seqEnd then
              merase st.sched.backlogBySeq r.header.correlationId
             else st.sched.backlogBySeq) } }
      (sub ++ forCid c [r]) del := by
  have hsb : mlookup st.sched.slotBySeq r.header.correlationId = none :=
    hInv.mapsDisjoint _ _ hbl0
  set st' : SysState := { st with sched := { st.sched with
      backlogQueues := appendToTag st.sched.backlogQueues tag0 r
      backlogBySeq :=
        (if r.header.seqEnd then
          merase st.sched.backlogBySeq r.header.correlationId
         else st.sched.backlogBySeq) } } with hstdef
  have hQ : ∀ bs', queueOf st' bs' = queueOf st bs' := fun _ => rfl
  have hblmap : ∀ c', mlookup st'.sched.backlogBySeq c' =
      if r.header.seqEnd = true ∧ c' = r.header.correlationId then none
      else mlookup st.sched.backlogBySeq c' := by
    intro c'
    show mlookup (if r.header.seqEnd then
        merase st.sched.backlogBySeq r.header.correlationId
      else st.sched.backlogBySeq) c' = _
    by_cases hend : r.header.seqEnd = true
    · rw [if_pos hend, mlookup_merase]
      by_cases hc' : c' = r.header.correlationId
      · subst hc'
        simp [hend]
      · rw [if_neg (fun h => hc' h.symm), if_neg (fun h : _ ∧ _ => hc' h.2)]
    · simp only [Bool.not_eq_true] at hend
      simp [hend]
  have hbqs : st'.sched.backlogQueues = appendToTag st.sched.backlogQueues tag0 r :=
    rfl
  by_cases hc : r.header.correlationId = c
  · rw [forCid_singleton_pos c r hc]
    cases hC with
    | activeSlot bs hsl hbl hpure hist hnoEnd hslots hblf =>
      rw [hc, hsl] at hsb
      cases hsb
    | endSlot bs pe hsl hbl hpure hist hlast hend hslots hblf =>
      rw [hc, hbl] at hbl0
      cases hbl0
    | backlogEnded tag bq pe hsl hbl hmem htag hpure hist hlast hend hslots hblf =>
      rw [hc, hbl] at hbl0
      cases hbl0
    | done hsl hbl hist hendsub hslots hblf =>
      rw [hc, hbl] at hbl0
      cases hbl0
    | backlogLive tag bq hsl hbl hmem htag hpure hne hist hnoEnd hslots hblf =>
      rw [hc, hbl] at hbl0
      have htg : tag0 = tag := (Option.some.inj hbl0).symm
      subst htg
      have hmem' : { bq with q := bq.q ++ [r] } ∈ st'.sched.backlogQueues := by
        rw [hbqs]
        exact (mem_appendToTag _ _ _ _).mpr ⟨bq, hmem, by rw [if_pos htag]⟩
      have hblfB : ∀ bq2 ∈ st'.sched.backlogQueues, bq2.tag ≠ tag0 → freeC c bq2.q := by
        intro bq2 hbq2 hb2ne
        rw [hbqs] at hbq2
        obtain ⟨bq1, hbq1, heq⟩ := (mem_appendToTag _ _ _ _).mp hbq2
        by_cases h1 : bq1.tag = tag0
        · rw [if_pos h1] at heq
          exact absurd (by rw [heq]; exact h1) hb2ne
        · rw [if_neg h1] at heq
          rw [heq]
          exact hblf bq1 hbq1 h1
      by_cases hre : r.header.seqEnd = true
      · refine CInv.backlogEnded tag0 { bq with q := bq.q ++ [r] } r hsl ?_ hmem'
          htag (pureC_concat _ _ _ hpure hc) ?_ (List.getLast?_concat _) hre
          (fun bs' => hslots bs') hblfB
        · rw [hblmap c, if_pos ⟨hre, hc.symm⟩]
        · show del ++ (bq.q ++ [r]) = sub ++ [r]
          rw [← List.append_assoc, hist]
      · refine CInv.backlogLive tag0 { bq with q := bq.q ++ [r] } hsl ?_ hmem'
          htag (pureC_concat _ _ _ hpure hc) (by simp) ?_
          (noEnds_concat _ _ hnoEnd (by simpa using hre))
          (fun bs' => hslots bs') hblfB
        · rw [hblmap c, if_neg (fun h => hre h.1)]
          exact hbl
        · show del ++ (bq.q ++ [r]) = sub ++ [r]
          rw [← List.append_assoc, hist]
  · rw [forCid_singleton_neg c r hc, List.append_nil]
    have hblc : mlookup st'.sched.backlogBySeq c = mlookup st.sched.backlogBySeq c := by
      rw [hblmap c, if_neg (fun h : _ ∧ _ => hc h.2.symm)]
    have hblfAll : (∀ bq1 ∈ st.sched.backlogQueues, freeC c bq1.q) →
        ∀ bq2 ∈ st'.sched.backlogQueues, freeC c bq2.q := by
      intro hfree bq2 hbq2
      rw [hbqs] at hbq2
      obtain ⟨bq1, hbq1, heq⟩ := (mem_appendToTag _ _ _ _).mp hbq2
      by_cases h1 : bq1.tag = tag0
      · rw [if_pos h1] at heq
        subst heq
        exact freeC_concat _ _ _ (hfree bq1 hbq1) hc
      · rw [if_neg h1] at heq
        rw [heq]
        exact hfree bq1 hbq1
    cases hC with
    | activeSlot bs hsl hbl hpure hist hnoEnd hslots hblf =>
      exact CInv.activeSlot bs hsl (by rw [hblc]; exact hbl) hpure hist hnoEnd
        hslots (hblfAll hblf)
    | endSlot bs pe hsl hbl hpure hist hlast hend hslots hblf =>
      exact CInv.endSlot bs pe hsl (by rw [hblc]; exact hbl) hpure hist hlast hend
        hslots (hblfAll hblf)
    | done hsl hbl hist hendsub hslots hblf =>
      exact CInv.done hsl (by rw [hblc]; exact hbl) hist hendsub hslots
        (hblfAll hblf)
    | backlogLive tag bq hsl hbl hmem htag hpure hne hist hnoEnd hslots hblf =>
      obtain ⟨bq1, hbq1, htag1, p1, hlast1, hcid1, hend1⟩ :=
        hInv.mapToQueue _ _ hbl0
      have htagne : tag0 ≠ tag := by
        intro h0
        have hbq1eq : bq1 = bq := backlog_eq_of_tag_eq _ hInv.tagsNodup hbq1 hmem
          (by rw [htag1, htag, h0])
        rw [hbq1eq] at hlast1
        exact hc (by rw [← hcid1]
                     exact hpure p1 (List.mem_of_mem_getLast? hlast1))
      have hmemB : bq ∈ st'.sched.backlogQueues := by
        rw [hbqs]
        exact (mem_appendToTag _ _ _ _).mpr
          ⟨bq, hmem, by rw [if_neg (fun h => htagne (h.symm.trans htag))]⟩
      refine CInv.backlogLive tag bq hsl (by rw [hblc]; exact hbl) hmemB htag
        hpure hne hist hnoEnd (fun bs' => hslots bs') ?_
      intro bq2 hbq2 hb2ne
      rw [hbqs] at hbq2
      obtain ⟨bq1a, hbq1a, heq⟩ := (mem_appendToTag _ _ _ _).mp hbq2
      by_cases h1 : bq1a.tag = tag0
      · rw [if_pos h1] at heq
        subst heq
        exact freeC_concat _ _ _
          (hblf bq1a hbq1a (fun h => htagne (h1.symm.trans h))) hc
      · rw [if_neg h1] at heq
        rw [heq] at hb2ne ⊢
        exact hblf bq1a hbq1a hb2ne
    | backlogEnded tag bq pe hsl hbl hmem htag hpure hist hlast hend hslots hblf =>
      obtain ⟨bq1, hbq1, htag1, p1, hlast1, hcid1, hend1⟩ :=
        hInv.mapToQueue _ _ hbl0
      have htagne : tag0 ≠ tag := by
        intro h0
        have hbq1eq : bq1 = bq := backlog_eq_of_tag_eq _ hInv.tagsNodup hbq1 hmem
          (by rw [htag1, htag, h0])
        rw [hbq1eq, hlast] at hlast1
        rw [Option.some.inj hlast1] at hend
        rw [hend] at hend1
        cases hend1
      have hmemB : bq ∈ st'.sched.backlogQueues := by
        rw [hbqs]
        exact (mem_appendToTag _ _ _ _).mpr
          ⟨bq, hmem, by rw [if_neg (fun h => htagne (h.symm.trans htag))]⟩
      refine CInv.backlogEnded tag bq pe hsl (by rw [hblc]; exact hbl) hmemB htag
        hpure hist hlast hend (fun bs' => hslots bs') ?_
      intro bq2 hbq2 hb2ne
      rw [hbqs] at hbq2
      obtain ⟨bq1a, hbq1a, heq⟩ := (mem_appendToTag _ _ _ _).mp hbq2
      by_cases h1 : bq1a.tag = tag0
      · rw [if_pos h1] at heq
        subst heq
        exact freeC_concat _ _ _
          (hblf bq1a hbq1a (fun h => htagne (h1.symm.trans h))) hc
      · rw [if_neg h1] at heq
        rw [heq] at hb2ne ⊢
        exact hblf bq1a hbq1a hb2ne

/-- Tracking-invariant preservation for `Enqueue` when a ready slot is
popped and bound to the correlation ID (decision-table case 3).  If this
extends sequence `c` itself, the no-reuse side condition `hacc` demands
that no END for `c` was accepted earlier. -/
theorem cinv_enqueue_freshSlot (rc bsz c : Nat) (st : SysState) (r : Payload)
    (bs0 : BatchSlot) (rest : List BatchSlot) (sub del : List Payload)
    (hInv : Inv rc bsz st) (hC : CInv c st sub del)
    (hsb0 : mlookup st.sched.slotBySeq r.header.correlationId = none)
    (hbk0 : mlookup st.sched.backlogBySeq r.header.correlationId = none)
    (hpool : st.sched.readySlots = bs0 :: rest)
    (hacc : r.header.correlationId = c → noEnds sub) :
    CInv c
      ⟨{ st.sched with
          slotBySeq :=
            (if r.header.seqEnd then
              merase (minsert st.sched.slotBySeq r.header.correlationId bs0)
                r.header.correlationId
             else minsert st.sched.slotBySeq r.header.correlationId bs0)
          readySlots := rest },
        deliver st.batchers bs0 r⟩
      (sub ++ forCid c [r]) del := by
  have hmem0 : bs0 ∈ st.sched.readySlots := by
    rw [hpool]
    exact List.mem_cons_self _ _
  obtain ⟨hr1, hr2⟩ := hInv.poolRange bs0 hmem0
  have hblen : bs0.batcher < st.batchers.length := by rw [hInv.batchersLen]; exact hr1
  have hqlen : bs0.slot < (st.batchers.getD bs0.batcher default).queues.length := by
    rw [hInv.queuesLen bs0.batcher hr1]; exact hr2
  have hq0 : queueOf st bs0 = [] := hInv.poolQueueEmpty bs0 hmem0
  set st' : SysState := ⟨{ st.sched with
      slotBySeq :=
        (if r.header.seqEnd then
          merase (minsert st.sched.slotBySeq r.header.correlationId bs0)
            r.header.correlationId
         else minsert st.sched.slotBySeq r.header.correlationId bs0)
      readySlots := rest },
    deliver st.batchers bs0 r⟩ with hstdef
  have hQ : ∀ bs', queueOf st' bs' =
      (if bs' = bs0 then queueOf st bs0 ++ [r] else queueOf st bs') :=
    fun bs' => queueOf_deliver st _ bs0 bs' r hblen hqlen
  have hslSelf : mlookup st'.sched.slotBySeq r.header.correlationId =
      if r.header.seqEnd = true then none else some bs0 := by
    show mlookup (if r.header.seqEnd then
        merase (minsert st.sched.slotBySeq r.header.correlationId bs0)
          r.header.correlationId
      else minsert st.sched.slotBySeq r.header.correlationId bs0) _ = _
    by_cases hend : r.header.seqEnd = true
    · rw [if_pos hend, if_pos hend, mlookup_merase, if_pos rfl]
    · simp only [Bool.not_eq_true] at hend
      rw [hend]
      simp only [Bool.false_eq_true, if_false]
      rw [mlookup_minsert, if_pos rfl]
  have hslNe : ∀ c', c' ≠ r.header.correlationId →
      mlookup st'.sched.slotBySeq c' = mlookup st.sched.slotBySeq c' := by
    intro c' hc'
    show mlookup (if r.header.seqEnd then
        merase (minsert st.sched.slotBySeq r.header.correlationId bs0)
          r.header.correlationId
      else minsert st.sched.slotBySeq r.header.correlationId bs0) c' = _
    by_cases hend : r.header.seqEnd = true
    · rw [if_pos hend, mlookup_merase, if_neg (fun h => hc' h.symm), mlookup_minsert,
        if_neg (fun h => hc' h.symm)]
    · simp only [Bool.not_eq_true] at hend
      rw [hend]
      simp only [Bool.false_eq_true, if_false]
      rw [mlookup_minsert, if_neg (fun h => hc' h.symm)]
  by_cases hc : r.header.correlationId = c
  · rw [forCid_singleton_pos c r hc]
    cases hC with
    | activeSlot bs hsl hbl hpure hist hnoEnd hslots hblf =>
      rw [hc, hsl] at hsb0
      cases hsb0
    | backlogLive tag bq hsl hbl hmem htag hpure hne hist hnoEnd hslots hblf =>
      rw [hc, hbl] at hbk0
      cases hbk0
    | endSlot bs pe hsl hbl hpure hist hlast hend hslots hblf =>
      have hpes : pe.header.seqEnd = false := hacc hc pe
        (hist ▸ List.mem_append_right del (List.mem_of_mem_getLast? hlast))
      rw [hend] at hpes
      cases hpes
    | backlogEnded tag bq pe hsl hbl hmem htag hpure hist hlast hend hslots hblf =>
      have hpes : pe.header.seqEnd = false := hacc hc pe
        (hist ▸ List.mem_append_right del (List.mem_of_mem_getLast? hlast))
      rw [hend] at hpes
      cases hpes
    | done hsl hbl hist hendsub hslots hblf =>
      rcases hendsub with hsubnil | ⟨p, hp, hpend⟩
      · subst hsubnil
        subst hist
        by_cases hre : r.header.seqEnd = true
        · refine CInv.endSlot bs0 r ?_ (by rw [← hc] at hbl ⊢; exact hbk0) ?_ ?_ ?_
            hre ?_ hblf
          · rw [← hc, hslSelf, if_pos hre]
          · rw [hQ bs0, if_pos rfl, hq0]
            intro p hp
            rw [List.mem_singleton.mp hp]
            exact hc
          · rw [hQ bs0, if_pos rfl, hq0]
            rfl
          · rw [hQ bs0, if_pos rfl, hq0]
            rfl
          · intro bs' hne
            rw [hQ bs', if_neg hne]
            exact hslots bs'
        · refine CInv.activeSlot bs0 ?_ (by rw [← hc] at hbl ⊢; exact hbk0) ?_ ?_ ?_
            ?_ hblf
          · rw [← hc, hslSelf, if_neg hre]
          · rw [hQ bs0, if_pos rfl, hq0]
            intro p hp
            rw [List.mem_singleton.mp hp]
            exact hc
          · rw [hQ bs0, if_pos rfl, hq0]
            rfl
          · intro p hp
            have hp2 : p = r := List.mem_singleton.mp (by exact hp)
            rw [hp2]
            simpa using hre
          · intro bs' hne
            rw [hQ bs', if_neg hne]
            exact hslots bs'
      · have hpes : p.header.seqEnd = false := hacc hc p hp
        rw [hpend] at hpes
        cases hpes
  · rw [forCid_singleton_neg c r hc, List.append_nil]
    have hslc : mlookup st'.sched.slotBySeq c = mlookup st.sched.slotBySeq c :=
      hslNe c (fun h => hc h.symm)
    cases hC with
    | activeSlot bs hsl hbl hpure hist hnoEnd hslots hblf =>
      have hbsne : bs0 ≠ bs := by
        intro h
        exact hInv.poolNotImage bs0 hmem0 ⟨c, h ▸ hsl⟩
      refine CInv.activeSlot bs (by rw [hslc]; exact hsl) hbl ?_ ?_ hnoEnd ?_ hblf
      · rw [hQ bs, if_neg (fun h => hbsne h.symm)]
        exact hpure
      · rw [hQ bs, if_neg (fun h => hbsne h.symm)]
        exact hist
      · intro bs' hne
        rw [hQ bs']
        by_cases hb0 : bs' = bs0
        · rw [if_pos hb0]
          exact freeC_concat _ _ _ (hb0 ▸ hslots bs' hne) hc
        · rw [if_neg hb0]
          exact hslots bs' hne
    | endSlot bs pe hsl hbl hpure hist hlast hend hslots hblf =>
      have hbsne : bs0 ≠ bs := by
        intro h
        rw [h] at hq0
        rw [hq0] at hlast
        cases hlast
      refine CInv.endSlot bs pe (by rw [hslc]; exact hsl) hbl ?_ ?_ ?_ hend ?_ hblf
      · rw [hQ bs, if_neg (fun h => hbsne h.symm)]
        exact hpure
      · rw [hQ bs, if_neg (fun h => hbsne h.symm)]
        exact hist
      · rw [hQ bs, if_neg (fun h => hbsne h.symm)]
        exact hlast
      · intro bs' hne
        rw [hQ bs']
        by_cases hb0 : bs' = bs0
        · rw [if_pos hb0]
          exact freeC_concat _ _ _ (hb0 ▸ hslots bs' hne) hc
        · rw [if_neg hb0]
          exact hslots bs' hne
    | backlogLive tag bq hsl hbl hmem htag hpure hne hist hnoEnd hslots hblf =>
      refine CInv.backlogLive tag bq (by rw [hslc]; exact hsl) hbl hmem htag hpure
        hne hist hnoEnd ?_ hblf
      intro bs'
      rw [hQ bs']
      by_cases hb0 : bs' = bs0
      · rw [if_pos hb0]
        exact freeC_concat _ _ _ (hb0 ▸ hslots bs') hc
      · rw [if_neg hb0]
        exact hslots bs'
    | backlogEnded tag bq pe hsl hbl hmem htag hpure hist hlast hend hslots hblf =>
      refine CInv.backlogEnded tag bq pe (by rw [hslc]; exact hsl) hbl hmem htag
        hpure hist hlast hend ?_ hblf
      intro bs'
      rw [hQ bs']
      by_cases hb0 : bs' = bs0
      · rw [if_pos hb0]
        exact freeC_concat _ _ _ (hb0 ▸ hslots bs') hc
      · rw [if_neg hb0]
        exact hslots bs'
    | done hsl hbl hist hendsub hslots hblf =>
      refine CInv.done (by rw [hslc]; exact hsl) hbl hist hendsub ?_ hblf
      intro bs'
      rw [hQ bs']
      by_cases hb0 : bs' = bs0
      · rw [if_pos hb0]
        exact freeC_concat _ _ _ (hb0 ▸ hslots bs') hc
      · rw [if_neg hb0]
        exact hslots bs'

/-- Tracking-invariant preservation for `Enqueue` when no slot is free
and a fresh backlog queue is created (decision-table case 4). -/
theorem cinv_enqueue_freshBacklog (rc bsz c : Nat) (st : SysState) (r : Payload)
    (sub del : List Payload)
    (hInv : Inv rc bsz st) (hC : CInv c st sub del)
    (hsb0 : mlookup st.sched.slotBySeq r.header.correlationId = none)
    (hbk0 : mlookup st.sched.backlogBySeq r.header.correlationId = none)
    (hacc : r.header.correlationId = c → noEnds sub) :
    CInv c
      { st with sched := { st.sched with
          backlogQueues := st.sched.backlogQueues ++ [⟨st.sched.nextTag, [r]⟩]
          backlogBySeq :=
            (if r.header.seqEnd then st.sched.backlogBySeq
             else minsert st.sched.backlogBySeq r.header.correlationId
               st.sched.nextTag)
          nextTag := st.sched.nextTag + 1 } }
      (sub ++ forCid c [r]) del := by
  set st' : SysState := { st with sched := { st.sched with
      backlogQueues := st.sched.backlogQueues ++ [⟨st.sched.nextTag, [r]⟩]
      backlogBySeq :=
        (if r.header.seqEnd then st.sched.backlogBySeq
         else minsert st.sched.backlogBySeq r.header.correlationId
           st.sched.nextTag)
      nextTag := st.sched.nextTag + 1 } } with hstdef
  have hblSelf : mlookup st'.sched.backlogBySeq r.header.correlationId =
      if r.header.seqEnd = true then none else some st.sched.nextTag := by
    show mlookup (if r.header.seqEnd then st.sched.backlogBySeq
      else minsert st.sched.backlogBySeq r.header.correlationId
        st.sched.nextTag) _ = _
    by_cases hend : r.header.seqEnd = true
    · rw [if_pos hend, if_pos hend]
      exact hbk0
    · simp only [Bool.not_eq_true] at hend
      rw [hend]
      simp only [Bool.false_eq_true, if_false]
      rw [mlookup_minsert, if_pos rfl]
  have hblNe : ∀ c', c' ≠ r.header.correlationId →
      mlookup st'.sched.backlogBySeq c' = mlookup st.sched.backlogBySeq c' := by
    intro c' hc'
    show mlookup (if r.header.seqEnd then st.sched.backlogBySeq
      else minsert st.sched.backlogBySeq r.header.correlationId
        st.sched.nextTag) c' = _
    by_cases hend : r.header.seqEnd = true
    · rw [if_pos hend]
    · simp only [Bool.not_eq_true] at hend
      rw [hend]
      simp only [Bool.false_eq_true, if_false]
      rw [mlookup_minsert, if_neg (fun h => hc' h.symm)]
  have hbqs : st'.sched.backlogQueues =
      st.sched.backlogQueues ++ [⟨st.sched.nextTag, [r]⟩] := rfl
  have hmemCases : ∀ bq2 : BacklogQueue, bq2 ∈ st'.sched.backlogQueues →
      bq2 ∈ st.sched.backlogQueues ∨ bq2 = ⟨st.sched.nextTag, [r]⟩ := by
    intro bq2 hbq2
    rw [hbqs] at hbq2
    rcases List.mem_append.mp hbq2 with h | h
    · exact Or.inl h
    · exact Or.inr (List.mem_singleton.mp h)
  by_cases hc : r.header.correlationId = c
  · rw [forCid_singleton_pos c r hc]
    cases hC with
    | activeSlot bs hsl hbl hpure hist hnoEnd hslots hblf =>
      rw [hc, hsl] at hsb0
      cases hsb0
    | backlogLive tag bq hsl hbl hmem htag hpure hne hist hnoEnd hslots hblf =>
      rw [hc, hbl] at hbk0
      cases hbk0
    | endSlot bs pe hsl hbl hpure hist hlast hend hslots hblf =>
      have hpes : pe.header.seqEnd = false := hacc hc pe
        (hist ▸ List.mem_append_right del (List.mem_of_mem_getLast? hlast))
      rw [hend] at hpes
      cases hpes
    | backlogEnded tag bq pe hsl hbl hmem htag hpure hist hlast hend hslots hblf =>
      have hpes : pe.header.seqEnd = false := hacc hc pe
        (hist ▸ List.mem_append_right del (List.mem_of_mem_getLast? hlast))
      rw [hend] at hpes
      cases hpes
    | done hsl hbl hist hendsub hslots hblf =>
      rcases hendsub with hsubnil | ⟨p, hp, hpend⟩
      · subst hsubnil
        subst hist
        have hmemNew : (⟨st.sched.nextTag, [r]⟩ : BacklogQueue) ∈
            st'.sched.backlogQueues := by
          rw [hbqs]
          exact List.mem_append_right _ (List.mem_cons_self _ _)
        by_cases hre : r.header.seqEnd = true
        · refine CInv.backlogEnded st.sched.nextTag ⟨st.sched.nextTag, [r]⟩ r hsl
            ?_ hmemNew rfl ?_ rfl rfl hre (fun bs' => hslots bs') ?_
          · rw [← hc, hblSelf, if_pos hre]
          · intro p hp
            rw [List.mem_singleton.mp hp]
            exact hc
          · intro bq2 hbq2 hb2ne
            rcases hmemCases bq2 hbq2 with h | h
            · exact hblf bq2 h
            · exact absurd (by rw [h]) hb2ne
        · refine CInv.backlogLive st.sched.nextTag ⟨st.sched.nextTag, [r]⟩ hsl
            ?_ hmemNew rfl ?_ (by simp) rfl ?_ (fun bs' => hslots bs') ?_
          · rw [← hc, hblSelf, if_neg hre]
          · intro p hp
            rw [List.mem_singleton.mp hp]
            exact hc
          · intro p hp
            have hp2 : p = r := List.mem_singleton.mp (by exact hp)
            rw [hp2]
            simpa using hre
          · intro bq2 hbq2 hb2ne
            rcases hmemCases bq2 hbq2 with h | h
            · exact hblf bq2 h
            · exact absurd (by rw [h]) hb2ne
      · have hpes : p.header.seqEnd = false := hacc hc p hp
        rw [hpend] at hpes
        cases hpes
  · rw [forCid_singleton_neg c r hc, List.append_nil]
    have hblc : mlookup st'.sched.backlogBySeq c = mlookup st.sched.backlogBySeq c :=
      hblNe c (fun h => hc h.symm)
    have hfreeNew : freeC c [r] := by
      intro p hp
      rw [List.mem_singleton.mp hp]
      exact hc
    cases hC with
    | activeSlot bs hsl hbl hpure hist hnoEnd hslots hblf =>
      refine CInv.activeSlot bs hsl (by rw [hblc]; exact hbl) hpure hist hnoEnd
        hslots ?_
      intro bq2 hbq2
      rcases hmemCases bq2 hbq2 with h | h
      · exact hblf bq2 h
      · rw [h]
        exact hfreeNew
    | endSlot bs pe hsl hbl hpure hist hlast hend hslots hblf =>
      refine CInv.endSlot bs pe hsl (by rw [hblc]; exact hbl) hpure hist hlast hend
        hslots ?_
      intro bq2 hbq2
      rcases hmemCases bq2 hbq2 with h | h
      · exact hblf bq2 h
      · rw [h]
        exact hfreeNew
    | backlogLive tag bq hsl hbl hmem htag hpure hne hist hnoEnd hslots hblf =>
      refine CInv.backlogLive tag bq hsl (by rw [hblc]; exact hbl)
        (by rw [hbqs]; exact List.mem_append_left _ hmem) htag hpure hne hist
        hnoEnd (fun bs' => hslots bs') ?_
      intro bq2 hbq2 hb2ne
      rcases hmemCases bq2 hbq2 with h | h
      · exact hblf bq2 h hb2ne
      · rw [h]
        exact hfreeNew
    | backlogEnded tag bq pe hsl hbl hmem htag hpure hist hlast hend hslots hblf =>
      refine CInv.backlogEnded tag bq pe hsl (by rw [hblc]; exact hbl)
        (by rw [hbqs]; exact List.mem_append_left _ hmem) htag hpure hist hlast
        hend (fun bs' => hslots bs') ?_
      intro bq2 hbq2 hb2ne
      rcases hmemCases bq2 hbq2 with h | h
      · exact hblf bq2 h hb2ne
      · rw [h]
        exact hfreeNew
    | done hsl hbl hist hendsub hslots hblf =>
      refine CInv.done hsl (by rw [hblc]; exact hbl) hist hendsub hslots ?_
      intro bq2 hbq2
      rcases hmemCases bq2 hbq2 with h | h
      · exact hblf bq2 h
      · rw [h]
        exact hfreeNew

/-- Tracking-invariant preservation across one full `Enqueue` call.  The
side condition `hacc` is the no-reuse assumption for `c`: if this call is
accepted and extends sequence `c`, then no END for `c` was accepted
earlier. -/
theorem cinv_enqueue (rc bsz c : Nat) (st : SysState) (r : Payload)
    (sub del : List Payload) (hInv : Inv rc bsz st) (hC : CInv c st sub del)
    (hacc : (schedulerEnqueue st r).1 ≠ EnqueueResult.err →
      r.header.correlationId = c → noEnds sub) :
    CInv c (schedulerEnqueue st r).2
      (sub ++ forCid c
        (if (schedulerEnqueue st r).1 = EnqueueResult.err then [] else [r]))
      del := by
  by_cases h1 : r.header.batchSize ≠ 1
  · rw [show (schedulerEnqueue st r).1 = EnqueueResult.err from by
        simp [schedulerEnqueue, h1],
      show (schedulerEnqueue st r).2 = st from by simp [schedulerEnqueue, h1],
      if_pos rfl, forCid_nil, List.append_nil]
    exact hC
  · have hbs : r.header.batchSize = 1 := not_ne_iff.mp h1
    by_cases h2 : r.header.correlationId = 0
    · rw [show (schedulerEnqueue st r).1 = EnqueueResult.err from by
          simp [schedulerEnqueue, hbs, h2],
        show (schedulerEnqueue st r).2 = st from by simp [schedulerEnqueue, hbs, h2],
        if_pos rfl, forCid_nil, List.append_nil]
      exact hC
    · cases hsb : mlookup st.sched.slotBySeq r.header.correlationId with
      | some bs =>
        have hres : (schedulerEnqueue st r).1 = EnqueueResult.toSlot bs := by
          simp [schedulerEnqueue, hbs, h2, hsb]
        rw [hres,
          show (schedulerEnqueue st r).2 =
            ⟨{ st.sched with slotBySeq :=
                (if r.header.seqEnd then
                  merase st.sched.slotBySeq r.header.correlationId
                 else st.sched.slotBySeq) },
              deliver st.batchers bs r⟩ from by
            simp [schedulerEnqueue, hbs, h2, hsb],
          if_neg (fun h => EnqueueResult.noConfusion h)]
        exact cinv_enqueue_slotFound rc bsz c st r bs sub del hInv hC hsb
      | none =>
        cases hbl : mlookup st.sched.backlogBySeq r.header.correlationId with
        | some tag =>
          have hres : (schedulerEnqueue st r).1 = EnqueueResult.backlogged := by
            simp [schedulerEnqueue, hbs, h2, hsb, hbl]
          rw [hres,
            show (schedulerEnqueue st r).2 =
              { st with sched := { st.sched with
                  backlogQueues := appendToTag st.sched.backlogQueues tag r
                  backlogBySeq :=
                    (if r.header.seqEnd then
                      merase st.sched.backlogBySeq r.header.correlationId
                     else st.sched.backlogBySeq) } } from by
              simp [schedulerEnqueue, hbs, h2, hsb, hbl],
            if_neg (fun h => EnqueueResult.noConfusion h)]
          exact cinv_enqueue_backlogFound rc bsz c st r tag sub del hInv hC hbl
        | none =>
          by_cases hstart : r.header.seqStart = true
          · cases hpool : st.sched.readySlots with
            | cons bs rest =>
              have hres : (schedulerEnqueue st r).1 = EnqueueResult.toSlot bs := by
                simp [schedulerEnqueue, hbs, h2, hsb, hbl, hpool, hstart]
              rw [hres,
                show (schedulerEnqueue st r).2 =
                  ⟨{ st.sched with
                      slotBySeq :=
                        (if r.header.seqEnd then
                          merase (minsert st.sched.slotBySeq
                            r.header.correlationId bs) r.header.correlationId
                         else minsert st.sched.slotBySeq
                           r.header.correlationId bs)
                      readySlots := rest },
                    deliver st.batchers bs r⟩ from by
                  simp [schedulerEnqueue, hbs, h2, hsb, hbl, hpool, hstart],
                if_neg (fun h => EnqueueResult.noConfusion h)]
              exact cinv_enqueue_freshSlot rc bsz c st r bs rest sub del hInv hC
                hsb hbl hpool
                (hacc (by rw [hres]; exact fun h => EnqueueResult.noConfusion h))
            | nil =>
              have hres : (schedulerEnqueue st r).1 = EnqueueResult.backlogged := by
                simp [schedulerEnqueue, hbs, h2, hsb, hbl, hpool, hstart]
              rw [hres,
                show (schedulerEnqueue st r).2 =
                  { st with sched := { st.sched with
                      backlogQueues :=
                        st.sched.backlogQueues ++ [⟨st.sched.nextTag, [r]⟩]
                      backlogBySeq :=
                        (if r.header.seqEnd then st.sched.backlogBySeq
                         else minsert st.sched.backlogBySeq
                           r.header.correlationId st.sched.nextTag)
                      nextTag := st.sched.nextTag + 1 } } from by
                  simp [schedulerEnqueue, hbs, h2, hsb, hbl, hpool, hstart],
                if_neg (fun h => EnqueueResult.noConfusion h)]
              exact cinv_enqueue_freshBacklog rc bsz c st r sub del hInv hC hsb hbl
                (hacc (by rw [hres]; exact fun h => EnqueueResult.noConfusion h))
          · have hstf : r.header.seqStart = false := by
              simpa using hstart
            rw [show (schedulerEnqueue st r).1 = EnqueueResult.err from by
                simp [schedulerEnqueue, hbs, h2, hsb, hbl, hstf],
              show (schedulerEnqueue st r).2 = st from by
                simp [schedulerEnqueue, hbs, h2, hsb, hbl, hstf],
              if_pos rfl, forCid_nil, List.append_nil]
            exact hC

/-- Tracking-invariant preservation when the assembly loop pops a
non-END payload from slot `s` of batcher `bIdx`: the popped payload is
appended to the delivered list exactly when it bears `c`. -/
theorem cinv_pop_noEnd (rc bsz c : Nat) (st0 : SysState) (bIdx : Nat) (m : Int)
    (acc : SweepAcc) (s : Nat) (p : Payload) (restq : Queue)
    (sub del : List Payload)
    (hbrc : bIdx < rc) (hs : s < bsz)
    (hInv : Inv rc bsz (sysOfAcc st0 bIdx m acc))
    (hC : CInv c (sysOfAcc st0 bIdx m acc) sub del)
    (hq : acc.queues.getD s [] = p :: restq) (hend : p.header.seqEnd = false) :
    CInv c (sysOfAcc st0 bIdx m { acc with queues := acc.queues.set s restq })
      sub (del ++ forCid c [p]) := by
  have hb : bIdx < st0.batchers.length := by
    have := hInv.batchersLen
    simp only [sysOfAcc, List.length_set] at this
    omega
  have hlenq : acc.queues.length = bsz := by
    have := hInv.queuesLen bIdx hbrc
    rw [sysOfAcc_getD_self st0 bIdx m acc hb] at this
    exact this
  have hslen : s < acc.queues.length := by omega
  have hqA : queueOf (sysOfAcc st0 bIdx m acc) ⟨bIdx, s⟩ = p :: restq := by
    rw [queueOf_sysOfAcc st0 bIdx m acc _ hb, if_pos rfl]
    exact hq
  have hQB : ∀ bs,
      queueOf (sysOfAcc st0 bIdx m { acc with queues := acc.queues.set s restq }) bs =
        (if bs = ⟨bIdx, s⟩ then restq else queueOf (sysOfAcc st0 bIdx m acc) bs) :=
    fun bs => queueOf_sysOfAcc_set st0 bIdx m acc s restq acc.sched acc.active
      acc.adjust bs hb hslen
  by_cases hpc : p.header.correlationId = c
  · rw [forCid_singleton_pos c p hpc]
    cases hC with
    | activeSlot bs hsl hbl hpure hist hnoEnd hslots hblf =>
      by_cases hbsq : bs = (⟨bIdx, s⟩ : BatchSlot)
      · subst hbsq
        rw [hqA] at hpure hist
        refine CInv.activeSlot ⟨bIdx, s⟩ hsl hbl ?_ ?_ hnoEnd ?_ hblf
        · rw [hQB ⟨bIdx, s⟩, if_pos rfl]
          exact pureC_tail _ _ _ hpure
        · rw [hQB ⟨bIdx, s⟩, if_pos rfl, List.append_assoc]
          exact hist
        · intro bs' hne
          rw [hQB bs', if_neg hne]
          exact hslots bs' hne
      · exfalso
        have hfree := hslots ⟨bIdx, s⟩ (fun h => hbsq h.symm)
        rw [hqA] at hfree
        exact hfree p (List.mem_cons_self _ _) hpc
    | endSlot bs pe hsl hbl hpure hist hlast hende hslots hblf =>
      by_cases hbsq : bs = (⟨bIdx, s⟩ : BatchSlot)
      · subst hbsq
        rw [hqA] at hpure hist hlast
        have hrne : restq ≠ [] := by
          intro h
          rw [h] at hlast
          simp only [List.getLast?_singleton] at hlast
          rw [← Option.some.inj hlast] at hende
          rw [hend] at hende
          cases hende
        refine CInv.endSlot ⟨bIdx, s⟩ pe hsl hbl ?_ ?_ ?_ hende ?_ hblf
        · rw [hQB ⟨bIdx, s⟩, if_pos rfl]
          exact pureC_tail _ _ _ hpure
        · rw [hQB ⟨bIdx, s⟩, if_pos rfl, List.append_assoc]
          exact hist
        · rw [hQB ⟨bIdx, s⟩, if_pos rfl]
          rw [getLast?_cons_of_ne_nil p restq hrne] at hlast
          exact hlast
        · intro bs' hne
          rw [hQB bs', if_neg hne]
          exact hslots bs' hne
      · exfalso
        have hfree := hslots ⟨bIdx, s⟩ (fun h => hbsq h.symm)
        rw [hqA] at hfree
        exact hfree p (List.mem_cons_self _ _) hpc
    | backlogLive tag bq hsl hbl hmem htag hpure hne hist hnoEnd hslots hblf =>
      exfalso
      have hfree := hslots ⟨bIdx, s⟩
      rw [hqA] at hfree
      exact hfree p (List.mem_cons_self _ _) hpc
    | backlogEnded tag bq pe hsl hbl hmem htag hpure hist hlast hende hslots hblf =>
      exfalso
      have hfree := hslots ⟨bIdx, s⟩
      rw [hqA] at hfree
      exact hfree p (List.mem_cons_self _ _) hpc
    | done hsl hbl hist hendsub hslots hblf =>
      exfalso
      have hfree := hslots ⟨bIdx, s⟩
      rw [hqA] at hfree
      exact hfree p (List.mem_cons_self _ _) hpc
  · rw [forCid_singleton_neg c p hpc, List.append_nil]
    have hfreeRest : ∀ bs' : BatchSlot,
        freeC c (queueOf (sysOfAcc st0 bIdx m acc) bs') → freeC c
          (queueOf (sysOfAcc st0 bIdx m
            { acc with queues := acc.queues.set s restq }) bs') := by
      intro bs' hfree
      rw [hQB bs']
      by_cases hb0 : bs' = (⟨bIdx, s⟩ : BatchSlot)
      · rw [if_pos hb0]
        rw [hb0, hqA] at hfree
        exact freeC_tail _ _ _ hfree
      · rw [if_neg hb0]
        exact hfree
    cases hC with
    | activeSlot bs hsl hbl hpure hist hnoEnd hslots hblf =>
      have hbsne : bs ≠ (⟨bIdx, s⟩ : BatchSlot) := by
        intro h
        rw [h, hqA] at hpure
        exact hpc (hpure p (List.mem_cons_self _ _))
      refine CInv.activeSlot bs hsl hbl ?_ ?_ hnoEnd ?_ hblf
      · rw [hQB bs, if_neg hbsne]
        exact hpure
      · rw [hQB bs, if_neg hbsne]
        exact hist
      · intro bs' hne
        exact hfreeRest bs' (hslots bs' hne)
    | endSlot bs pe hsl hbl hpure hist hlast hende hslots hblf =>
      have hbsne : bs ≠ (⟨bIdx, s⟩ : BatchSlot) := by
        intro h
        rw [h, hqA] at hpure
        exact hpc (hpure p (List.mem_cons_self _ _))
      refine CInv.endSlot bs pe hsl hbl ?_ ?_ ?_ hende ?_ hblf
      · rw [hQB bs, if_neg hbsne]
        exact hpure
      · rw [hQB bs, if_neg hbsne]
        exact hist
      · rw [hQB bs, if_neg hbsne]
        exact hlast
      · intro bs' hne
        exact hfreeRest bs' (hslots bs' hne)
    | backlogLive tag bq hsl hbl hmem htag hpure hne hist hnoEnd hslots hblf =>
      exact CInv.backlogLive tag bq hsl hbl hmem htag hpure hne hist hnoEnd
        (fun bs' => hfreeRest bs' (hslots bs')) hblf
    | backlogEnded tag bq pe hsl hbl hmem htag hpure hist hlast hende hslots hblf =>
      exact CInv.backlogEnded tag bq pe hsl hbl hmem htag hpure hist hlast hende
        (fun bs' => hfreeRest bs' (hslots bs')) hblf
    | done hsl hbl hist hendsub hslots hblf =>
      exact CInv.done hsl hbl hist hendsub
        (fun bs' => hfreeRest bs' (hslots bs')) hblf

/-- Tracking-invariant preservation when an END payload is consumed and
the slot is returned to the pool (backlog empty). -/
theorem cinv_release_toPool (rc bsz c : Nat) (st0 : SysState) (bIdx : Nat) (m : Int)
    (acc : SweepAcc) (s : Nat) (p : Payload) (restq : Queue) (adj : Bool)
    (sub del : List Payload)
    (hbrc : bIdx < rc) (hs : s < bsz)
    (hInv : Inv rc bsz (sysOfAcc st0 bIdx m acc))
    (hC : CInv c (sysOfAcc st0 bIdx m acc) sub del)
    (hq : acc.queues.getD s [] = p :: restq) (hend : p.header.seqEnd = true)
    (hbl0 : acc.sched.backlogQueues = []) :
    CInv c
      (sysOfAcc st0 bIdx m
        ⟨{ acc.sched with readySlots := ⟨bIdx, s⟩ :: acc.sched.readySlots },
          acc.queues.set s restq, acc.active.set s false, adj⟩)
      sub (del ++ forCid c [p]) := by
  have hb : bIdx < st0.batchers.length := by
    have := hInv.batchersLen
    simp only [sysOfAcc, List.length_set] at this
    omega
  have hlenq : acc.queues.length = bsz := by
    have := hInv.queuesLen bIdx hbrc
    rw [sysOfAcc_getD_self st0 bIdx m acc hb] at this
    exact this
  have hslen : s < acc.queues.length := by omega
  have hqA : queueOf (sysOfAcc st0 bIdx m acc) ⟨bIdx, s⟩ = p :: restq := by
    rw [queueOf_sysOfAcc st0 bIdx m acc _ hb, if_pos rfl]
    exact hq
  have hTail : endOnlyAtTail (p :: restq) := by
    have := hInv.slotEndTail ⟨bIdx, s⟩
    rw [hqA] at this
    exact this
  have hrest : restq = [] := eq_single_of_head_end p restq hTail hend
  have hQB : ∀ bs,
      queueOf (sysOfAcc st0 bIdx m
        ⟨{ acc.sched with readySlots := ⟨bIdx, s⟩ :: acc.sched.readySlots },
          acc.queues.set s restq, acc.active.set s false, adj⟩) bs =
        (if bs = ⟨bIdx, s⟩ then restq else queueOf (sysOfAcc st0 bIdx m acc) bs) :=
    fun bs => queueOf_sysOfAcc_set st0 bIdx m acc s restq _ _ adj bs hb hslen
  have hfreeRest : ∀ bs' : BatchSlot,
      freeC c (queueOf (sysOfAcc st0 bIdx m acc) bs') → freeC c
        (queueOf (sysOfAcc st0 bIdx m
          ⟨{ acc.sched with readySlots := ⟨bIdx, s⟩ :: acc.sched.readySlots },
            acc.queues.set s restq, acc.active.set s false, adj⟩) bs') := by
    intro bs' hfree
    rw [hQB bs']
    by_cases hb0 : bs' = (⟨bIdx, s⟩ : BatchSlot)
    · rw [if_pos hb0]
      rw [hb0, hqA] at hfree
      exact freeC_tail _ _ _ hfree
    · rw [if_neg hb0]
      exact hfree
  cases hC with
  | activeSlot bs hsl hbl hpure hist hnoEnd hslots hblf =>
    by_cases hbsq : bs = (⟨bIdx, s⟩ : BatchSlot)
    · exfalso
      rw [hbsq, hqA] at hist
      have hmemp : p ∈ sub :=
        hist ▸ List.mem_append_right del (List.mem_cons_self _ _)
      have hps := hnoEnd p hmemp
      rw [hend] at hps
      cases hps
    · by_cases hpc : p.header.correlationId = c
      · exfalso
        have hfree := hslots ⟨bIdx, s⟩ (fun h => hbsq h.symm)
        rw [hqA] at hfree
        exact hfree p (List.mem_cons_self _ _) hpc
      · rw [forCid_singleton_neg c p hpc, List.append_nil]
        refine CInv.activeSlot bs hsl hbl ?_ ?_ hnoEnd ?_ hblf
        · rw [hQB bs, if_neg hbsq]
          exact hpure
        · rw [hQB bs, if_neg hbsq]
          exact hist
        · intro bs' hne
          exact hfreeRest bs' (hslots bs' hne)
  | endSlot bs pe hsl hbl hpure hist hlast hende hslots hblf =>
    by_cases hbsq : bs = (⟨bIdx, s⟩ : BatchSlot)
    · subst hbsq
      rw [hqA, hrest] at hpure hist hlast
      have hpc : p.header.correlationId = c := hpure p (List.mem_cons_self _ _)
      rw [forCid_singleton_pos c p hpc]
      refine CInv.done hsl hbl ?_ ?_ ?_ ?_
      · exact hist
      · refine Or.inr ⟨p, ?_, hend⟩
        exact hist ▸ List.mem_append_right del (List.mem_cons_self _ _)
      · intro bs'
        rw [hQB bs']
        by_cases hb0 : bs' = (⟨bIdx, s⟩ : BatchSlot)
        · rw [if_pos hb0, hrest]
          exact freeC_nil c
        · rw [if_neg hb0]
          exact hslots bs' hb0
      · intro bq hbq
        have hbq2 : bq ∈ acc.sched.backlogQueues := hbq
        rw [hbl0] at hbq2
        exact absurd hbq2 (List.not_mem_nil _)
    · by_cases hpc : p.header.correlationId = c
      · exfalso
        have hfree := hslots ⟨bIdx, s⟩ (fun h => hbsq h.symm)
        rw [hqA] at hfree
        exact hfree p (List.mem_cons_self _ _) hpc
      · rw [forCid_singleton_neg c p hpc, List.append_nil]
        refine CInv.endSlot bs pe hsl hbl ?_ ?_ ?_ hende ?_ hblf
        · rw [hQB bs, if_neg hbsq]
          exact hpure
        · rw [hQB bs, if_neg hbsq]
          exact hist
        · rw [hQB bs, if_neg hbsq]
          exact hlast
        · intro bs' hne
          exact hfreeRest bs' (hslots bs' hne)
  | backlogLive tag bq hsl hbl hmem htag hpure hne hist hnoEnd hslots hblf =>
    exfalso
    have hmem2 : bq ∈ acc.sched.backlogQueues := hmem
    rw [hbl0] at hmem2
    exact absurd hmem2 (List.not_mem_nil _)
  | backlogEnded tag bq pe hsl hbl hmem htag hpure hist hlast hende hslots hblf =>
    exfalso
    have hmem2 : bq ∈ acc.sched.backlogQueues := hmem
    rw [hbl0] at hmem2
    exact absurd hmem2 (List.not_mem_nil _)
  | done hsl hbl hist hendsub hslots hblf =>
    by_cases hpc : p.header.correlationId = c
    · exfalso
      have hfree := hslots ⟨bIdx, s⟩
      rw [hqA] at hfree
      exact hfree p (List.mem_cons_self _ _) hpc
    · rw [forCid_singleton_neg c p hpc, List.append_nil]
      exact CInv.done hsl hbl hist hendsub
        (fun bs' => hfreeRest bs' (hslots bs')) hblf

/-- Tracking-invariant preservation when an END payload is consumed and
the dequeued backlog head (itself ending in an END) is transplanted into
the emptied slot. -/
theorem cinv_release_transplantEnd (rc bsz c : Nat) (st0 : SysState) (bIdx : Nat)
    (m : Int) (acc : SweepAcc) (s : Nat) (p : Payload) (restq : Queue) (adj : Bool)
    (head : BacklogQueue) (rest2 : List BacklogQueue) (pe0 : Payload)
    (sub del : List Payload)
    (hbrc : bIdx < rc) (hs : s < bsz)
    (hInv : Inv rc bsz (sysOfAcc st0 bIdx m acc))
    (hC : CInv c (sysOfAcc st0 bIdx m acc) sub del)
    (hq : acc.queues.getD s [] = p :: restq) (hend : p.header.seqEnd = true)
    (hbl0 : acc.sched.backlogQueues = head :: rest2)
    (hlast0 : head.q.getLast? = some pe0) (hpe0 : pe0.header.seqEnd = true) :
    CInv c
      (sysOfAcc st0 bIdx m
        ⟨{ acc.sched with backlogQueues := rest2 },
          acc.queues.set s head.q, acc.active, adj⟩)
      sub (del ++ forCid c [p]) := by
  have hb : bIdx < st0.batchers.length := by
    have := hInv.batchersLen
    simp only [sysOfAcc, List.length_set] at this
    omega
  have hlenq : acc.queues.length = bsz := by
    have := hInv.queuesLen bIdx hbrc
    rw [sysOfAcc_getD_self st0 bIdx m acc hb] at this
    exact this
  have hslen : s < acc.queues.length := by omega
  have hqA : queueOf (sysOfAcc st0 bIdx m acc) ⟨bIdx, s⟩ = p :: restq := by
    rw [queueOf_sysOfAcc st0 bIdx m acc _ hb, if_pos rfl]
    exact hq
  have hTail : endOnlyAtTail (p :: restq) := by
    have := hInv.slotEndTail ⟨bIdx, s⟩
    rw [hqA] at this
    exact this
  have hrest : restq = [] := eq_single_of_head_end p restq hTail hend
  have hQB : ∀ bs,
      queueOf (sysOfAcc st0 bIdx m
        ⟨{ acc.sched with backlogQueues := rest2 },
          acc.queues.set s head.q, acc.active, adj⟩) bs =
        (if bs = ⟨bIdx, s⟩ then head.q
         else queueOf (sysOfAcc st0 bIdx m acc) bs) :=
    fun bs => queueOf_sysOfAcc_set st0 bIdx m acc s head.q _ _ adj bs hb hslen
  have hmemHead : head ∈ (sysOfAcc st0 bIdx m acc).sched.backlogQueues := by
    show head ∈ acc.sched.backlogQueues
    rw [hbl0]
    exact List.mem_cons_self _ _
  have hmemRest : ∀ bq2 ∈ rest2,
      bq2 ∈ (sysOfAcc st0 bIdx m acc).sched.backlogQueues := by
    intro bq2 h2
    show bq2 ∈ acc.sched.backlogQueues
    rw [hbl0]
    exact List.mem_cons_of_mem _ h2
  have hnod2 : head.tag ∉ rest2.map BacklogQueue.tag := by
    have h2 := hInv.tagsNodup
    rw [show (sysOfAcc st0 bIdx m acc).sched.backlogQueues = acc.sched.backlogQueues
      from rfl, hbl0, List.map_cons] at h2
    exact (List.nodup_cons.mp h2).1
  cases hC with
  | activeSlot bs hsl hbl hpure hist hnoEnd hslots hblf =>
    by_cases hbsq : bs = (⟨bIdx, s⟩ : BatchSlot)
    · exfalso
      rw [hbsq, hqA] at hist
      have hmemp : p ∈ sub :=
        hist ▸ List.mem_append_right del (List.mem_cons_self _ _)
      have hps := hnoEnd p hmemp
      rw [hend] at hps
      cases hps
    · by_cases hpc : p.header.correlationId = c
      · exfalso
        have hfree := hslots ⟨bIdx, s⟩ (fun h => hbsq h.symm)
        rw [hqA] at hfree
        exact hfree p (List.mem_cons_self _ _) hpc
      · rw [forCid_singleton_neg c p hpc, List.append_nil]
        refine CInv.activeSlot bs hsl hbl ?_ ?_ hnoEnd ?_ ?_
        · rw [hQB bs, if_neg hbsq]
          exact hpure
        · rw [hQB bs, if_neg hbsq]
          exact hist
        · intro bs' hne
          rw [hQB bs']
          by_cases hb0 : bs' = (⟨bIdx, s⟩ : BatchSlot)
          · rw [if_pos hb0]
            exact hblf head hmemHead
          · rw [if_neg hb0]
            exact hslots bs' hne
        · intro bq2 hbq2
          exact hblf bq2 (hmemRest bq2 hbq2)
  | endSlot bs pe hsl hbl hpure hist hlast hende hslots hblf =>
    by_cases hbsq : bs = (⟨bIdx, s⟩ : BatchSlot)
    · subst hbsq
      rw [hqA, hrest] at hpure hist
      have hpc : p.header.correlationId = c := hpure p (List.mem_cons_self _ _)
      rw [forCid_singleton_pos c p hpc]
      refine CInv.done hsl hbl hist ?_ ?_ ?_
      · refine Or.inr ⟨p, ?_, hend⟩
        exact hist ▸ List.mem_append_right del (List.mem_cons_self _ _)
      · intro bs'
        rw [hQB bs']
        by_cases hb0 : bs' = (⟨bIdx, s⟩ : BatchSlot)
        · rw [if_pos hb0]
          exact hblf head hmemHead
        · rw [if_neg hb0]
          exact hslots bs' hb0
      · intro bq2 hbq2
        exact hblf bq2 (hmemRest bq2 hbq2)
    · by_cases hpc : p.header.correlationId = c
      · exfalso
        have hfree := hslots ⟨bIdx, s⟩ (fun h => hbsq h.symm)
        rw [hqA] at hfree
        exact hfree p (List.mem_cons_self _ _) hpc
      · rw [forCid_singleton_neg c p hpc, List.append_nil]
        refine CInv.endSlot bs pe hsl hbl ?_ ?_ ?_ hende ?_ ?_
        · rw [hQB bs, if_neg hbsq]
          exact hpure
        · rw [hQB bs, if_neg hbsq]
          exact hist
        · rw [hQB bs, if_neg hbsq]
          exact hlast
        · intro bs' hne
          rw [hQB bs']
          by_cases hb0 : bs' = (⟨bIdx, s⟩ : BatchSlot)
          · rw [if_pos hb0]
            exact hblf head hmemHead
          · rw [if_neg hb0]
            exact hslots bs' hne
        · intro bq2 hbq2
          exact hblf bq2 (hmemRest bq2 hbq2)
  | backlogLive tag bq hsl hbl hmem htag hpure hne hist hnoEnd hslots hblf =>
    by_cases hhead : bq = head
    · exfalso
      rw [hhead] at hpure hist
      have hmempe : pe0 ∈ sub :=
        hist ▸ List.mem_append_right del (List.mem_of_mem_getLast? hlast0)
      have hps := hnoEnd pe0 hmempe
      rw [hpe0] at hps
      cases hps
    · have hmem2 : bq ∈ rest2 := by
        have h2 : bq ∈ acc.sched.backlogQueues := hmem
        rw [hbl0] at h2
        exact (List.mem_cons.mp h2).resolve_left hhead
      have hheadtg : head.tag ≠ tag := by
        intro h
        exact hhead (backlog_eq_of_tag_eq _ hInv.tagsNodup hmem hmemHead
          (htag.trans h.symm))
      have hheadfree : freeC c head.q := hblf head hmemHead hheadtg
      by_cases hpc : p.header.correlationId = c
      · exfalso
        have hfree := hslots ⟨bIdx, s⟩
        rw [hqA] at hfree
        exact hfree p (List.mem_cons_self _ _) hpc
      · rw [forCid_singleton_neg c p hpc, List.append_nil]
        refine CInv.backlogLive tag bq hsl hbl hmem2 htag hpure hne hist hnoEnd
          ?_ ?_
        · intro bs'
          rw [hQB bs']
          by_cases hb0 : bs' = (⟨bIdx, s⟩ : BatchSlot)
          · rw [if_pos hb0]
            exact hheadfree
          · rw [if_neg hb0]
            exact hslots bs'
        · intro bq2 hbq2 hb2ne
          exact hblf bq2 (hmemRest bq2 hbq2) hb2ne
  | backlogEnded tag bq pe hsl hbl hmem htag hpure hist hlast hende hslots hblf =>
    have hpc : p.header.correlationId ≠ c := by
      intro h
      have hfree := hslots ⟨bIdx, s⟩
      rw [hqA] at hfree
      exact hfree p (List.mem_cons_self _ _) h
    rw [forCid_singleton_neg c p hpc, List.append_nil]
    by_cases hhead : bq = head
    · refine CInv.endSlot ⟨bIdx, s⟩ pe hsl hbl ?_ ?_ ?_ hende ?_ ?_
      · rw [hQB ⟨bIdx, s⟩, if_pos rfl, ← hhead]
        exact hpure
      · rw [hQB ⟨bIdx, s⟩, if_pos rfl, ← hhead]
        exact hist
      · rw [hQB ⟨bIdx, s⟩, if_pos rfl, ← hhead]
        exact hlast
      · intro bs' hne
        rw [hQB bs', if_neg hne]
        exact hslots bs'
      · intro bq2 hbq2
        have hb2 : bq2 ∈ rest2 := hbq2
        have hb2tg : bq2.tag ≠ tag := by
          intro h
          have hht : head.tag = tag := by rw [← hhead]; exact htag
          apply hnod2
          rw [hht, ← h]
          exact List.mem_map_of_mem BacklogQueue.tag hb2
        exact hblf bq2 (hmemRest bq2 hb2) hb2tg
    · have hmem2 : bq ∈ rest2 := by
        have h2 : bq ∈ acc.sched.backlogQueues := hmem
        rw [hbl0] at h2
        exact (List.mem_cons.mp h2).resolve_left hhead
      have hheadtg : head.tag ≠ tag := by
        intro h
        exact hhead (backlog_eq_of_tag_eq _ hInv.tagsNodup hmem hmemHead
          (htag.trans h.symm))
      have hheadfree : freeC c head.q := hblf head hmemHead hheadtg
      refine CInv.backlogEnded tag bq pe hsl hbl hmem2 htag hpure hist hlast
        hende ?_ ?_
      · intro bs'
        rw [hQB bs']
        by_cases hb0 : bs' = (⟨bIdx, s⟩ : BatchSlot)
        · rw [if_pos hb0]
          exact hheadfree
        · rw [if_neg hb0]
          exact hslots bs'
      · intro bq2 hbq2 hb2ne
        exact hblf bq2 (hmemRest bq2 hbq2) hb2ne
  | done hsl hbl hist hendsub hslots hblf =>
    by_cases hpc : p.header.correlationId = c
    · exfalso
      have hfree := hslots ⟨bIdx, s⟩
      rw [hqA] at hfree
      exact hfree p (List.mem_cons_self _ _) hpc
    · rw [forCid_singleton_neg c p hpc, List.append_nil]
      refine CInv.done hsl hbl hist hendsub ?_ ?_
      · intro bs'
        rw [hQB bs']
        by_cases hb0 : bs' = (⟨bIdx, s⟩ : BatchSlot)
        · rw [if_pos hb0]
          exact hblf head hmemHead
        · rw [if_neg hb0]
          exact hslots bs'
      · intro bq2 hbq2
        exact hblf bq2 (hmemRest bq2 hbq2)

/-- Tracking-invariant preservation when an END payload is consumed and
the dequeued backlog head (not ending in END) is transplanted into the
emptied slot, rebinding its correlation ID to that slot. -/
theorem cinv_release_transplantBind (rc bsz c : Nat) (st0 : SysState) (bIdx : Nat)
    (m : Int) (acc : SweepAcc) (s : Nat) (p : Payload) (restq : Queue) (adj : Bool)
    (head : BacklogQueue) (rest2 : List BacklogQueue) (pe0 : Payload)
    (sub del : List Payload)
    (hbrc : bIdx < rc) (hs : s < bsz)
    (hInv : Inv rc bsz (sysOfAcc st0 bIdx m acc))
    (hC : CInv c (sysOfAcc st0 bIdx m acc) sub del)
    (hq : acc.queues.getD s [] = p :: restq) (hend : p.header.seqEnd = true)
    (hbl0 : acc.sched.backlogQueues = head :: rest2)
    (hlast0 : head.q.getLast? = some pe0) (hpe0 : pe0.header.seqEnd = false) :
    CInv c
      (sysOfAcc st0 bIdx m
        ⟨{ acc.sched with
            backlogQueues := rest2
            backlogBySeq := merase acc.sched.backlogBySeq pe0.header.correlationId
            slotBySeq := minsert acc.sched.slotBySeq pe0.header.correlationId
              ⟨bIdx, s⟩ },
          acc.queues.set s head.q, acc.active, adj⟩)
      sub (del ++ forCid c [p]) := by
  have hb : bIdx < st0.batchers.length := by
    have := hInv.batchersLen
    simp only [sysOfAcc, List.length_set] at this
    omega
  have hlenq : acc.queues.length = bsz := by
    have := hInv.queuesLen bIdx hbrc
    rw [sysOfAcc_getD_self st0 bIdx m acc hb] at this
    exact this
  have hslen : s < acc.queues.length := by omega
  have hqA : queueOf (sysOfAcc st0 bIdx m acc) ⟨bIdx, s⟩ = p :: restq := by
    rw [queueOf_sysOfAcc st0 bIdx m acc _ hb, if_pos rfl]
    exact hq
  have hTail : endOnlyAtTail (p :: restq) := by
    have := hInv.slotEndTail ⟨bIdx, s⟩
    rw [hqA] at this
    exact this
  have hrest : restq = [] := eq_single_of_head_end p restq hTail hend
  set stB : SysState := sysOfAcc st0 bIdx m
      ⟨{ acc.sched with
          backlogQueues := rest2
          backlogBySeq := merase acc.sched.backlogBySeq pe0.header.correlationId
          slotBySeq := minsert acc.sched.slotBySeq pe0.header.correlationId
            ⟨bIdx, s⟩ },
        acc.queues.set s head.q, acc.active, adj⟩ with hstBdef
  have hQB : ∀ bs, queueOf stB bs =
      (if bs = ⟨bIdx, s⟩ then head.q
       else queueOf (sysOfAcc st0 bIdx m acc) bs) :=
    fun bs => queueOf_sysOfAcc_set st0 bIdx m acc s head.q _ _ adj bs hb hslen
  have hslB : ∀ c', mlookup stB.sched.slotBySeq c' =
      (if pe0.header.correlationId = c' then some (⟨bIdx, s⟩ : BatchSlot)
       else mlookup acc.sched.slotBySeq c') := by
    intro c'
    show mlookup (minsert acc.sched.slotBySeq pe0.header.correlationId
      ⟨bIdx, s⟩) c' = _
    rw [mlookup_minsert]
  have hblB : ∀ c', mlookup stB.sched.backlogBySeq c' =
      (if pe0.header.correlationId = c' then none
       else mlookup acc.sched.backlogBySeq c') := by
    intro c'
    show mlookup (merase acc.sched.backlogBySeq pe0.header.correlationId) c' = _
    rw [mlookup_merase]
  have hmemHead : head ∈ (sysOfAcc st0 bIdx m acc).sched.backlogQueues := by
    show head ∈ acc.sched.backlogQueues
    rw [hbl0]
    exact List.mem_cons_self _ _
  have hmemRest : ∀ bq2 ∈ rest2,
      bq2 ∈ (sysOfAcc st0 bIdx m acc).sched.backlogQueues := by
    intro bq2 h2
    show bq2 ∈ acc.sched.backlogQueues
    rw [hbl0]
    exact List.mem_cons_of_mem _ h2
  have hnod2 : head.tag ∉ rest2.map BacklogQueue.tag := by
    have h2 := hInv.tagsNodup
    rw [show (sysOfAcc st0 bIdx m acc).sched.backlogQueues = acc.sched.backlogQueues
      from rfl, hbl0, List.map_cons] at h2
    exact (List.nodup_cons.mp h2).1
  cases hC with
  | activeSlot bs hsl hbl hpure hist hnoEnd hslots hblf =>
    by_cases hbsq : bs = (⟨bIdx, s⟩ : BatchSlot)
    · exfalso
      rw [hbsq, hqA] at hist
      have hmemp : p ∈ sub :=
        hist ▸ List.mem_append_right del (List.mem_cons_self _ _)
      have hps := hnoEnd p hmemp
      rw [hend] at hps
      cases hps
    · have hc0 : pe0.header.correlationId ≠ c :=
        hblf head hmemHead pe0 (List.mem_of_mem_getLast? hlast0)
      by_cases hpc : p.header.correlationId = c
      · exfalso
        have hfree := hslots ⟨bIdx, s⟩ (fun h => hbsq h.symm)
        rw [hqA] at hfree
        exact hfree p (List.mem_cons_self _ _) hpc
      · rw [forCid_singleton_neg c p hpc, List.append_nil]
        refine CInv.activeSlot bs ?_ ?_ ?_ ?_ hnoEnd ?_ ?_
        · rw [hslB c, if_neg hc0]
          exact hsl
        · rw [hblB c, if_neg hc0]
          exact hbl
        · rw [hQB bs, if_neg hbsq]
          exact hpure
        · rw [hQB bs, if_neg hbsq]
          exact hist
        · intro bs' hne
          rw [hQB bs']
          by_cases hb0 : bs' = (⟨bIdx, s⟩ : BatchSlot)
          · rw [if_pos hb0]
            exact hblf head hmemHead
          · rw [if_neg hb0]
            exact hslots bs' hne
        · intro bq2 hbq2
          exact hblf bq2 (hmemRest bq2 hbq2)
  | endSlot bs pe hsl hbl hpure hist hlast hende hslots hblf =>
    have hc0 : pe0.header.correlationId ≠ c :=
      hblf head hmemHead pe0 (List.mem_of_mem_getLast? hlast0)
    by_cases hbsq : bs = (⟨bIdx, s⟩ : BatchSlot)
    · subst hbsq
      rw [hqA, hrest] at hpure hist
      have hpc : p.header.correlationId = c := hpure p (List.mem_cons_self _ _)
      rw [forCid_singleton_pos c p hpc]
      refine CInv.done ?_ ?_ hist ?_ ?_ ?_
      · rw [hslB c, if_neg hc0]
        exact hsl
      · rw [hblB c, if_neg hc0]
        exact hbl
      · refine Or.inr ⟨p, ?_, hend⟩
        exact hist ▸ List.mem_append_right del (List.mem_cons_self _ _)
      · intro bs'
        rw [hQB bs']
        by_cases hb0 : bs' = (⟨bIdx, s⟩ : BatchSlot)
        · rw [if_pos hb0]
          exact hblf head hmemHead
        · rw [if_neg hb0]
          exact hslots bs' hb0
      · intro bq2 hbq2
        exact hblf bq2 (hmemRest bq2 hbq2)
    · by_cases hpc : p.header.correlationId = c
      · exfalso
        have hfree := hslots ⟨bIdx, s⟩ (fun h => hbsq h.symm)
        rw [hqA] at hfree
        exact hfree p (List.mem_cons_self _ _) hpc
      · rw [forCid_singleton_neg c p hpc, List.append_nil]
        refine CInv.endSlot bs pe ?_ ?_ ?_ ?_ ?_ hende ?_ ?_
        · rw [hslB c, if_neg hc0]
          exact hsl
        · rw [hblB c, if_neg hc0]
          exact hbl
        · rw [hQB bs, if_neg hbsq]
          exact hpure
        · rw [hQB bs, if_neg hbsq]
          exact hist
        · rw [hQB bs, if_neg hbsq]
          exact hlast
        · intro bs' hne
          rw [hQB bs']
          by_cases hb0 : bs' = (⟨bIdx, s⟩ : BatchSlot)
          · rw [if_pos hb0]
            exact hblf head hmemHead
          · rw [if_neg hb0]
            exact hslots bs' hne
        · intro bq2 hbq2
          exact hblf bq2 (hmemRest bq2 hbq2)
  | backlogLive tag bq hsl hbl hmem htag hpure hne hist hnoEnd hslots hblf =>
    have hpc : p.header.correlationId ≠ c := by
      intro h
      have hfree := hslots ⟨bIdx, s⟩
      rw [hqA] at hfree
      exact hfree p (List.mem_cons_self _ _) h
    rw [forCid_singleton_neg c p hpc, List.append_nil]
    by_cases hhead : bq = head
    · rw [← hhead] at hlast0
      have hc0 : pe0.header.correlationId = c :=
        hpure pe0 (List.mem_of_mem_getLast? hlast0)
      refine CInv.activeSlot ⟨bIdx, s⟩ ?_ ?_ ?_ ?_ hnoEnd ?_ ?_
      · rw [hslB c, if_pos hc0]
      · rw [hblB c, if_pos hc0]
      · rw [hQB ⟨bIdx, s⟩, if_pos rfl, ← hhead]
        exact hpure
      · rw [hQB ⟨bIdx, s⟩, if_pos rfl, ← hhead]
        exact hist
      · intro bs' hne
        rw [hQB bs', if_neg hne]
        exact hslots bs'
      · intro bq2 hbq2
        have hb2 : bq2 ∈ rest2 := hbq2
        have hb2tg : bq2.tag ≠ tag := by
          intro h
          have hht : head.tag = tag := by rw [← hhead]; exact htag
          apply hnod2
          rw [hht, ← h]
          exact List.mem_map_of_mem BacklogQueue.tag hb2
        exact hblf bq2 (hmemRest bq2 hb2) hb2tg
    · have hmem2 : bq ∈ rest2 := by
        have h2 : bq ∈ acc.sched.backlogQueues := hmem
        rw [hbl0] at h2
        exact (List.mem_cons.mp h2).resolve_left hhead
      have hheadtg : head.tag ≠ tag := by
        intro h
        exact hhead (backlog_eq_of_tag_eq _ hInv.tagsNodup hmem hmemHead
          (htag.trans h.symm))
      have hheadfree : freeC c head.q := hblf head hmemHead hheadtg
      have hc0 : pe0.header.correlationId ≠ c :=
        hheadfree pe0 (List.mem_of_mem_getLast? hlast0)
      refine CInv.backlogLive tag bq ?_ ?_ hmem2 htag hpure hne hist hnoEnd ?_ ?_
      · rw [hslB c, if_neg hc0]
        exact hsl
      · rw [hblB c, if_neg hc0]
        exact hbl
      · intro bs'
        rw [hQB bs']
        by_cases hb0 : bs' = (⟨bIdx, s⟩ : BatchSlot)
        · rw [if_pos hb0]
          exact hheadfree
        · rw [if_neg hb0]
          exact hslots bs'
      · intro bq2 hbq2 hb2ne
        exact hblf bq2 (hmemRest bq2 hbq2) hb2ne
  | backlogEnded tag bq pe hsl hbl hmem htag hpure hist hlast hende hslots hblf =>
    by_cases hhead : bq = head
    · exfalso
      rw [← hhead] at hlast0
      rw [hlast] at hlast0
      rw [← Option.some.inj hlast0] at hpe0
      rw [hende] at hpe0
      cases hpe0
    · have hpc : p.header.correlationId ≠ c := by
        intro h
        have hfree := hslots ⟨bIdx, s⟩
        rw [hqA] at hfree
        exact hfree p (List.mem_cons_self _ _) h
      rw [forCid_singleton_neg c p hpc, List.append_nil]
      have hmem2 : bq ∈ rest2 := by
        have h2 : bq ∈ acc.sched.backlogQueues := hmem
        rw [hbl0] at h2
        exact (List.mem_cons.mp h2).resolve_left hhead
      have hheadtg : head.tag ≠ tag := by
        intro h
        exact hhead (backlog_eq_of_tag_eq _ hInv.tagsNodup hmem hmemHead
          (htag.trans h.symm))
      have hheadfree : freeC c head.q := hblf head hmemHead hheadtg
      have hc0 : pe0.header.correlationId ≠ c :=
        hheadfree pe0 (List.mem_of_mem_getLast? hlast0)
      refine CInv.backlogEnded tag bq pe ?_ ?_ hmem2 htag hpure hist hlast
        hende ?_ ?_
      · rw [hslB c, if_neg hc0]
        exact hsl
      · rw [hblB c, if_neg hc0]
        exact hbl
      · intro bs'
        rw [hQB bs']
        by_cases hb0 : bs' = (⟨bIdx, s⟩ : BatchSlot)
        · rw [if_pos hb0]
          exact hheadfree
        · rw [if_neg hb0]
          exact hslots bs'
      · intro bq2 hbq2 hb2ne
        exact hblf bq2 (hmemRest bq2 hbq2) hb2ne
  | done hsl hbl hist hendsub hslots hblf =>
    have hc0 : pe0.header.correlationId ≠ c :=
      hblf head hmemHead pe0 (List.mem_of_mem_getLast? hlast0)
    by_cases hpc : p.header.correlationId = c
    · exfalso
      have hfree := hslots ⟨bIdx, s⟩
      rw [hqA] at hfree
      exact hfree p (List.mem_cons_self _ _) hpc
    · rw [forCid_singleton_neg c p hpc, List.append_nil]
      refine CInv.done ?_ ?_ hist hendsub ?_ ?_
      · rw [hslB c, if_neg hc0]
        exact hsl
      · rw [hblB c, if_neg hc0]
        exact hbl
      · intro bs'
        rw [hQB bs']
        by_cases hb0 : bs' = (⟨bIdx, s⟩ : BatchSlot)
        · rw [if_pos hb0]
          exact hblf head hmemHead
        · rw [if_neg hb0]
          exact hslots bs'
      · intro bq2 hbq2
        exact hblf bq2 (hmemRest bq2 hbq2)

/-- Tracking-invariant preservation for one slot of the assembly loop:
the delivered list is extended with the `c` payloads of the emitted
entry. -/
theorem cinv_processSlot (rc bsz c : Nat) (st0 : SysState) (bIdx : Nat) (m : Int)
    (acc : SweepAcc) (s : Nat) (nullh : Option ReqHeader) (maxAct : Int)
    (sub del : List Payload)
    (hbrc : bIdx < rc) (hs : s < bsz)
    (hInv : Inv rc bsz (sysOfAcc st0 bIdx m acc))
    (hC : CInv c (sysOfAcc st0 bIdx m acc) sub del) :
    CInv c (sysOfAcc st0 bIdx m (processSlot bIdx nullh maxAct acc s).1) sub
      (del ++ forCid c (entryReal (processSlot bIdx nullh maxAct acc s).2)) := by
  cases hq : acc.queues.getD s [] with
  | nil =>
    have hC2 : CInv c (sysOfAcc st0 bIdx m acc) sub (del ++ ([] : List Payload)) := by
      rw [List.append_nil]
      exact hC
    rw [processSlot_eq_nil bIdx nullh maxAct acc s hq]
    exact hC2
  | cons p restq =>
    by_cases hend : p.header.seqEnd = true
    · rw [processSlot_eq_end bIdx nullh maxAct acc s p restq hq hend]
      cases hbl : acc.sched.backlogQueues with
      | nil =>
        rw [releaseBatchSlot_eq_nil acc.sched ⟨bIdx, s⟩ restq hbl]
        exact cinv_release_toPool rc bsz c st0 bIdx m acc s p restq _ sub del hbrc
          hs hInv hC hq hend hbl
      | cons head rest2 =>
        have hqne : head.q ≠ [] := hInv.backlogNonempty head
          (by show head ∈ acc.sched.backlogQueues
              rw [hbl]
              exact List.mem_cons_self _ _)
        cases hlast : head.q.getLast? with
        | none => exact absurd (List.getLast?_eq_none_iff.mp hlast) hqne
        | some pe =>
          by_cases hpe : pe.header.seqEnd = true
          · rw [releaseBatchSlot_eq_end acc.sched ⟨bIdx, s⟩ restq head rest2 pe hbl
              hlast hpe]
            exact cinv_release_transplantEnd rc bsz c st0 bIdx m acc s p restq _
              head rest2 pe sub del hbrc hs hInv hC hq hend hbl hlast hpe
          · have hpef : pe.header.seqEnd = false := by simpa using hpe
            rw [releaseBatchSlot_eq_bind acc.sched ⟨bIdx, s⟩ restq head rest2 pe hbl
              hlast hpef]
            exact cinv_release_transplantBind rc bsz c st0 bIdx m acc s p restq _
              head rest2 pe sub del hbrc hs hInv hC hq hend hbl hlast hpef
    · have hendf : p.header.seqEnd = false := by simpa using hend
      rw [processSlot_eq_noEnd bIdx nullh maxAct acc s p restq hq hendf]
      exact cinv_pop_noEnd rc bsz c st0 bIdx m acc s p restq sub del hbrc hs hInv
        hC hq hendf

/-- Tracking-invariant preservation for the whole slot loop: the
delivered list is extended with the `c` payloads of the assembled
batch, in slot order. -/
theorem cinv_sweepFrom (rc bsz c : Nat) (st0 : SysState) (bIdx : Nat) (m : Int)
    (nullh : Option ReqHeader) (maxAct : Int) (s fuel : Nat) (acc : SweepAcc)
    (sub del : List Payload)
    (hbrc : bIdx < rc) (hrange : s + fuel ≤ bsz)
    (hInv : Inv rc bsz (sysOfAcc st0 bIdx m acc))
    (hC : CInv c (sysOfAcc st0 bIdx m acc) sub del) :
    CInv c (sysOfAcc st0 bIdx m (sweepFrom bIdx nullh maxAct s fuel acc).1) sub
      (del ++ forCid c (realPayloads (sweepFrom bIdx nullh maxAct s fuel acc).2)) := by
  induction fuel generalizing s acc del with
  | zero =>
    have hC2 : CInv c (sysOfAcc st0 bIdx m acc) sub (del ++ ([] : List Payload)) := by
      rw [List.append_nil]
      exact hC
    exact hC2
  | succ f ih =>
    have heq1 : (sweepFrom bIdx nullh maxAct s (f + 1) acc).1 =
        (sweepFrom bIdx nullh maxAct (s + 1) f
          (processSlot bIdx nullh maxAct acc s).1).1 := rfl
    have heq2 : (sweepFrom bIdx nullh maxAct s (f + 1) acc).2 =
        (processSlot bIdx nullh maxAct acc s).2 ::
          (sweepFrom bIdx nullh maxAct (s + 1) f
            (processSlot bIdx nullh maxAct acc s).1).2 := rfl
    rw [heq1, heq2,
      show realPayloads ((processSlot bIdx nullh maxAct acc s).2 ::
          (sweepFrom bIdx nullh maxAct (s + 1) f
            (processSlot bIdx nullh maxAct acc s).1).2) =
        entryReal (processSlot bIdx nullh maxAct acc s).2 ++
          realPayloads (sweepFrom bIdx nullh maxAct (s + 1) f
            (processSlot bIdx nullh maxAct acc s).1).2 from
        List.flatMap_cons _ _ _,
      forCid_append, ← List.append_assoc]
    exact ih (s + 1) _ _ (by omega)
      (inv_processSlot rc bsz st0 bIdx m acc s nullh maxAct hbrc (by omega) hInv)
      (cinv_processSlot rc bsz c st0 bIdx m acc s nullh maxAct sub del hbrc
        (by omega) hInv hC)

/-- The batch assembled by one worker iteration (abbreviation for
stating `sweep_snd_eq`). -/
def sweepBatch (st : SysState) (bIdx : Nat) : List BatchEntry :=
  (sweepFrom bIdx (st.batchers.getD bIdx default).nullHeader
    (st.batchers.getD bIdx default).maxActiveSlot 0
    ((findMaxSlot (st.batchers.getD bIdx default).queues
      ((st.batchers.getD bIdx default).maxActiveSlot + 1).toNat).toNat + 1)
    ⟨st.sched, (st.batchers.getD bIdx default).queues,
      (st.batchers.getD bIdx default).activeSlots, false⟩).2

theorem sweep_snd_eq (st : SysState) (bIdx : Nat)
    (h : ¬ findMaxSlot (st.batchers.getD bIdx default).queues
      ((st.batchers.getD bIdx default).maxActiveSlot + 1).toNat < 0) :
    (sweep st bIdx).2 = some (sweepBatch st bIdx) := by
  simp only [sweep, sweepBatch]
  rw [if_neg h]

/-- Tracking-invariant preservation across one full worker iteration:
the delivered list is extended with the `c` payloads of the batch handed
to `on_schedule` (empty when the iteration found no work). -/
theorem cinv_sweep (rc bsz c : Nat) (st : SysState) (bIdx : Nat)
    (sub del : List Payload)
    (hInv : Inv rc bsz st) (hC : CInv c st sub del) :
    CInv c (sweep st bIdx).1 sub
      (del ++ forCid c (realPayloads ((sweep st bIdx).2.getD []))) := by
  by_cases hbrc : bIdx < rc
  · have hb : bIdx < st.batchers.length := by rw [hInv.batchersLen]; exact hbrc
    by_cases hneg : findMaxSlot (st.batchers.getD bIdx default).queues
        ((st.batchers.getD bIdx default).maxActiveSlot + 1).toNat < 0
    · have hpair : sweep st bIdx = (st, none) := by
        simp only [sweep]
        rw [if_pos hneg]
      rw [hpair,
        show realPayloads (((st, (none : Option (List BatchEntry))).2).getD []) = []
          from rfl,
        forCid_nil, List.append_nil]
      exact hC
    · rw [sweep_fst_eq st bIdx hneg, sweep_snd_eq st bIdx hneg,
        show (some (sweepBatch st bIdx)).getD [] = sweepBatch st bIdx from rfl]
      have hinit : sysOfAcc st bIdx (st.batchers.getD bIdx default).maxActiveSlot
          ⟨st.sched, (st.batchers.getD bIdx default).queues,
            (st.batchers.getD bIdx default).activeSlots, false⟩ = st := by
        unfold sysOfAcc
        rw [show (⟨(⟨st.sched, (st.batchers.getD bIdx default).queues,
              (st.batchers.getD bIdx default).activeSlots, false⟩ : SweepAcc).queues,
            (⟨st.sched, (st.batchers.getD bIdx default).queues,
              (st.batchers.getD bIdx default).activeSlots, false⟩ : SweepAcc).active,
            (st.batchers.getD bIdx default).maxActiveSlot,
            (st.batchers.getD bIdx default).nullHeader⟩ : BatchState) =
          st.batchers.getD bIdx default from rfl,
          set_getD_self st.batchers bIdx default hb]
      have hfuel : 0 + ((findMaxSlot (st.batchers.getD bIdx default).queues
          ((st.batchers.getD bIdx default).maxActiveSlot + 1).toNat).toNat + 1) ≤
            bsz := by
        have h1 := findMaxSlot_lt (st.batchers.getD bIdx default).queues
          ((st.batchers.getD bIdx default).maxActiveSlot + 1).toNat
        have hmaxb : (st.batchers.getD bIdx default).maxActiveSlot < (bsz : Int) :=
          hInv.maxLt bIdx hbrc
        omega
      have hCF : CInv c
          (sysOfAcc st bIdx (st.batchers.getD bIdx default).maxActiveSlot
            (sweepAccF st bIdx)) sub
          (del ++ forCid c (realPayloads (sweepBatch st bIdx))) := by
        unfold sweepAccF sweepBatch
        exact cinv_sweepFrom rc bsz c st bIdx
          (st.batchers.getD bIdx default).maxActiveSlot
          (st.batchers.getD bIdx default).nullHeader
          (st.batchers.getD bIdx default).maxActiveSlot 0
          ((findMaxSlot (st.batchers.getD bIdx default).queues
            ((st.batchers.getD bIdx default).maxActiveSlot + 1).toNat).toNat + 1)
          ⟨st.sched, (st.batchers.getD bIdx default).queues,
            (st.batchers.getD bIdx default).activeSlots, false⟩
          sub del hbrc hfuel (by rw [hinit]; exact hInv) (by rw [hinit]; exact hC)
      refine cinv_congr c _ _ sub _ ?_ ?_ hCF
      · rfl
      · intro bs
        rw [queueOf_sysOfAcc st bIdx (sweepNewMax st bIdx) _ bs hb,
          queueOf_sysOfAcc st bIdx (st.batchers.getD bIdx default).maxActiveSlot _
            bs hb]
  · have hble : st.batchers.length ≤ bIdx := by rw [hInv.batchersLen]; omega
    have hgd : st.batchers.getD bIdx default = default := by
      rw [List.getD_eq_getElem?_getD, List.getElem?_eq_none hble]
      rfl
    have hpair : sweep st bIdx = (st, none) := by
      simp only [sweep]
      rw [hgd]
      rfl
    rw [hpair,
      show realPayloads (((st, (none : Option (List BatchEntry))).2).getD []) = []
        from rfl,
      forCid_nil, List.append_nil]
    exact hC

theorem runStep_accepted (rs : RunState) (e : Event) :
    ∃ ax, (runStep rs e).accepted = rs.accepted ++ ax := by
  cases e with
  | enq p =>
    exact ⟨(if (schedulerEnqueue rs.sys p).1 = EnqueueResult.err then [] else [p]),
      rfl⟩
  | work bIdx => exact ⟨[], (List.append_nil _).symm⟩

theorem runFrom_accepted_ext (evs : List Event) : ∀ rs : RunState,
    ∃ ext, (runFrom rs evs).accepted = rs.accepted ++ ext := by
  induction evs with
  | nil => exact fun rs => ⟨[], (List.append_nil _).symm⟩
  | cons e evs ih =>
    intro rs
    obtain ⟨ax, hax⟩ := runStep_accepted rs e
    obtain ⟨ext, hext⟩ := ih (runStep rs e)
    exact ⟨ax ++ ext, by
      rw [show runFrom rs (e :: evs) = runFrom (runStep rs e) evs from rfl, hext,
        hax, List.append_assoc]⟩

/-- One event preserves the scheduler invariant and the per-sequence
tracking invariant; the `hacc` side condition instantiates the no-reuse
assumption for an accepted enqueue of sequence `c`. -/
theorem cinv_runStep (rc bsz c : Nat) (rs : RunState) (e : Event)
    (hInv : Inv rc bsz rs.sys)
    (hC : CInv c rs.sys (forCid c rs.accepted) (forCid c rs.delivered))
    (hacc : ∀ p : Payload, e = Event.enq p →
      (schedulerEnqueue rs.sys p).1 ≠ EnqueueResult.err →
      p.header.correlationId = c → noEnds (forCid c rs.accepted)) :
    Inv rc bsz (runStep rs e).sys ∧
    CInv c (runStep rs e).sys (forCid c (runStep rs e).accepted)
      (forCid c (runStep rs e).delivered) := by
  cases e with
  | enq p =>
    refine ⟨inv_enqueue rc bsz rs.sys p hInv, ?_⟩
    have h2 := cinv_enqueue rc bsz c rs.sys p (forCid c rs.accepted)
      (forCid c rs.delivered) hInv hC (hacc p rfl)
    rw [show (runStep rs (Event.enq p)).accepted =
      rs.accepted ++ (if (schedulerEnqueue rs.sys p).1 = EnqueueResult.err
        then [] else [p]) from rfl, forCid_append]
    exact h2
  | work bIdx =>
    refine ⟨inv_sweep rc bsz rs.sys bIdx hInv, ?_⟩
    have h2 := cinv_sweep rc bsz c rs.sys bIdx (forCid c rs.accepted)
      (forCid c rs.delivered) hInv hC
    rw [show (runStep rs (Event.work bIdx)).delivered =
      rs.delivered ++ realPayloads ((sweep rs.sys bIdx).2.getD []) from rfl,
      forCid_append]
    exact h2

/-- The scheduler invariant and the per-sequence tracking invariant hold
after any run whose accepted payloads for `c` carry END at most in the
final position (the no-reuse condition). -/
theorem cinv_runFrom (rc bsz c : Nat) (evs : List Event) : ∀ rs : RunState,
    Inv rc bsz rs.sys →
    CInv c rs.sys (forCid c rs.accepted) (forCid c rs.delivered) →
    (∀ p ∈ (forCid c (runFrom rs evs).accepted).dropLast,
      p.header.seqEnd = false) →
    Inv rc bsz (runFrom rs evs).sys ∧
    CInv c (runFrom rs evs).sys (forCid c (runFrom rs evs).accepted)
      (forCid c (runFrom rs evs).delivered) := by
  induction evs with
  | nil => exact fun rs hI hC _ => ⟨hI, hC⟩
  | cons e evs ih =>
    intro rs hI hC hnr
    have hrw : runFrom rs (e :: evs) = runFrom (runStep rs e) evs := rfl
    rw [hrw] at hnr ⊢
    have hacc : ∀ p : Payload, e = Event.enq p →
        (schedulerEnqueue rs.sys p).1 ≠ EnqueueResult.err →
        p.header.correlationId = c → noEnds (forCid c rs.accepted) := by
      intro p hep hne hpc q hq
      obtain ⟨ext, hext⟩ := runFrom_accepted_ext evs (runStep rs e)
      have hstep : (runStep rs e).accepted = rs.accepted ++ [p] := by
        rw [hep]
        show rs.accepted ++ (if (schedulerEnqueue rs.sys p).1 = EnqueueResult.err
          then [] else [p]) = rs.accepted ++ [p]
        rw [if_neg hne]
      apply hnr
      rw [hext, hstep, List.append_assoc, forCid_append, forCid_append,
        forCid_singleton_pos c p hpc,
        show ([p] ++ forCid c ext) = p :: forCid c ext from rfl,
        List.dropLast_append_cons]
      exact List.mem_append_left _ hq
    obtain ⟨hI2, hC2⟩ := cinv_runStep rc bsz c rs e hI hC hacc
    exact ih (runStep rs e) hI2 hC2 hnr

/-- The C4 counterexample run: one batcher with two slots; correlation
ID 1 submits START (uid 1), END (uid 2), then — reusing the ID — a new
START (uid 3); then two worker iterations. -/
def cexReuseTrace : List Event :=
  [Event.enq ⟨⟨1, 1, true, false⟩, 1⟩,
   Event.enq ⟨⟨1, 1, false, true⟩, 2⟩,
   Event.enq ⟨⟨1, 1, true, false⟩, 3⟩,
   Event.work 0, Event.work 0]

/-- C4 counterexample: submission order for correlation ID 1 is
uid [1, 2, 3], but the delivered order is [3, 1, 2].  The END (uid 2)
erases the slot binding at enqueue time, so the reused START (uid 3) is
bound to a fresh slot with a lower index while uids 1 and 2 still sit in
the old slot's queue; the next assembly iteration scans slots in index
order and pops uid 3 before uid 1.  Per-cid delivery order therefore is
NOT always the submission order. -/
theorem delivered_order_can_break_submission_order :
    (forCid 1 (runTrace 1 2 cexReuseTrace).accepted).map Payload.uid =
      [1, 2, 3] ∧
    (forCid 1 (runTrace 1 2 cexReuseTrace).delivered).map Payload.uid =
      [3, 1, 2] ∧
    (forCid 1 (runTrace 1 2 cexReuseTrace).delivered).map Payload.uid ≠
      (forCid 1 (runTrace 1 2 cexReuseTrace).accepted).map Payload.uid :=
  ⟨by decide, by decide, by decide⟩

/-- C4 (amended): per-sequence FIFO holds in the absence of
correlation-ID reuse.  For any run and any correlation ID `c`, if `c`
is never reused — i.e. among the accepted payloads bearing `c`, a
SEQUENCE_END occurs at most in the final position — then the real
payloads bearing `c` handed to `on_schedule` across all batches form,
in delivery order, a prefix of the submission order of `c`'s accepted
requests: slot and backlog queues append at the tail and are consumed
from the head, and a promoted backlog queue is transplanted whole, so
per-sequence order is never reordered.  When the ID is reused after its
END, delivery can deviate from submission order (see the
counterexample). -/
theorem per_sequence_fifo_without_reuse (rc bsz c : Nat) (evs : List Event)
    (hnr : ∀ p ∈ (forCid c (runTrace rc bsz evs).accepted).dropLast,
      p.header.seqEnd = false) :
    ∃ rest, forCid c (runTrace rc bsz evs).accepted =
      forCid c (runTrace rc bsz evs).delivered ++ rest := by
  have h := cinv_runFrom rc bsz c evs ⟨initState rc bsz, [], []⟩
    (inv_initState rc bsz) (cinv_initState rc bsz c) hnr
  cases h.2 with
  | activeSlot bs hsl hbl hpure hist hnoEnd hslots hblf =>
    exact ⟨_, hist.symm⟩
  | endSlot bs pe hsl hbl hpure hist hlast hende hslots hblf =>
    exact ⟨_, hist.symm⟩
  | backlogLive tag bq hsl hbl hmem htag hpure hne hist hnoEnd hslots hblf =>
    exact ⟨_, hist.symm⟩
  | backlogEnded tag bq pe hsl hbl hmem htag hpure hist hlast hende hslots hblf =>
    exact ⟨_, hist.symm⟩
  | done hsl hbl hist hendsub hslots hblf =>
    exact ⟨[], by rw [List.append_nil]; exact hist.symm⟩

/-- Witness for C4 (amended) at a concrete input: a single-payload
START-and-END sequence on a one-slot scheduler satisfies the no-reuse
hypothesis, and its delivered payloads are a prefix of (here: all of)
the accepted ones. -/
theorem per_sequence_fifo_without_reuse_witness :
    (∀ p ∈ (forCid 1 (runTrace 1 1
        [Event.enq ⟨⟨1, 1, true, true⟩, 0⟩, Event.work 0]).accepted).dropLast,
      p.header.seqEnd = false) ∧
    ∃ rest, forCid 1 (runTrace 1 1
        [Event.enq ⟨⟨1, 1, true, true⟩, 0⟩, Event.work 0]).accepted =
      forCid 1 (runTrace 1 1
        [Event.enq ⟨⟨1, 1, true, true⟩, 0⟩, Event.work 0]).delivered ++ rest :=
  ⟨by decide, per_sequence_fifo_without_reuse 1 1 1
    [Event.enq ⟨⟨1, 1, true, true⟩, 0⟩, Event.work 0] (by decide)⟩

/-- Witness for C3 (amended) at a concrete input: the freshly created
one-batcher, one-slot scheduler is reachable and satisfies all four
invariant clauses. -/
theorem reachable_scheduler_invariants_witness :
    (∀ c, ¬(mlookup (initState 1 1).sched.slotBySeq c ≠ none ∧
            mlookup (initState 1 1).sched.backlogBySeq c ≠ none)) ∧
    (∀ bs, ¬(bs ∈ (initState 1 1).sched.readySlots ∧
            inImage (initState 1 1).sched bs)) ∧
    (∀ bs, bs ∈ (initState 1 1).sched.readySlots ∨ inImage (initState 1 1).sched bs →
      bs.batcher < 1 ∧ bs.slot < 1) ∧
    (∀ b s, b < 1 → s < 1 →
      (⟨b, s⟩ : BatchSlot) ∈ (initState 1 1).sched.readySlots ∨
        inImage (initState 1 1).sched ⟨b, s⟩ ∨ endPendingAt (initState 1 1) ⟨b, s⟩) :=
  reachable_scheduler_invariants 1 1 (initState 1 1) .init

end SeqBatch
